import Mathlib

/-!
# powspec: `src/io/read_bigfile.c`

A shallow embedding of the bigfile catalog reader and the properties proved about it.

Conventions of the embedding.

* A C `char` / `uint8_t` is a `Byte` (`Fin 256`); files, C strings and buffers are lists
  of bytes.  A pointer into a buffer is the list of bytes from that position on, so
  `p + k` is `p.drop k` and `p[i]` is `p.getD i 0`.
* `uint32_t`, `uint64_t` and `size_t` values are natural numbers reduced modulo
  `2 ^ 32`, `2 ^ 64` and `2 ^ 64`.
* A `float` or `double` is identified with its IEEE-754 bit pattern, the word that
  `memcpy` copies into it.
* The file system, and the value that an uninitialised local variable holds, are
  parameters of the call (`Env`).  The out-parameters `*num` and `*data`, the return
  value and the output of `printf` make up the result (`Outcome`).
* `define.h` and `read_file.h` are not among the embedded sources: the return codes, the
  record type `DATA` and the allocation macro `MY_ALLOC` are modelled, allocations
  succeed, and the diagnostics of `P_ERR` are left out.
* `strcpy` and `sprintf` are taken to stay within the buffers of `BUF` characters.
* An access past the end of `chunk` or of `*data` is undefined in C.  In the embedding
  a write past the end of `*data` changes nothing, a read past the end of `chunk` finds
  zero bytes, and an `fread` of more bytes than `chunk` holds returns the longer list of
  the bytes written.  Bounds are stated in the theorems, against the sizes allocated.
-/

namespace Bigfile

/-- A `uint8_t` (and a `char` of a text file). -/
abbrev Byte := Fin 256

/-- Reduction to `uint32_t`. -/
def u32 (x : Nat) : Nat := x % 2 ^ 32

/-- Reduction to `uint64_t`. -/
def u64 (x : Nat) : Nat := x % 2 ^ 64

/-- Element `src[i]` of a byte pointer, widened to an unsigned integer. -/
def peek (src : List Byte) (i : Nat) : Nat := (src.getD i 0).val

/-- Source lines 11-18: the word assembled by `parse_float_big`, which `memcpy`
copies into the returned `float`. -/
def parse_float_big (src : List Byte) : Nat :=
  u32 (peek src 3 <<< 0) ||| u32 (peek src 2 <<< 8) |||
  u32 (peek src 1 <<< 16) ||| u32 (peek src 0 <<< 24)

/-- Source lines 20-27: the word assembled by `parse_float_little`. -/
def parse_float_little (src : List Byte) : Nat :=
  u32 (peek src 0 <<< 0) ||| u32 (peek src 1 <<< 8) |||
  u32 (peek src 2 <<< 16) ||| u32 (peek src 3 <<< 24)

/-- Source lines 29-38: the word assembled by `parse_double_big`. -/
def parse_double_big (src : List Byte) : Nat :=
  u64 (peek src 7 <<< 0) ||| u64 (peek src 6 <<< 8) |||
  u64 (peek src 5 <<< 16) ||| u64 (peek src 4 <<< 24) |||
  u64 (peek src 3 <<< 32) ||| u64 (peek src 2 <<< 40) |||
  u64 (peek src 1 <<< 48) ||| u64 (peek src 0 <<< 56)

/-- Source lines 40-49: the word assembled by `parse_double_little`. -/
def parse_double_little (src : List Byte) : Nat :=
  u64 (peek src 0 <<< 0) ||| u64 (peek src 1 <<< 8) |||
  u64 (peek src 2 <<< 16) ||| u64 (peek src 3 <<< 24) |||
  u64 (peek src 4 <<< 32) ||| u64 (peek src 5 <<< 40) |||
  u64 (peek src 6 <<< 48) ||| u64 (peek src 7 <<< 56)

/-! ## The C library and the file system -/

/-- The byte of an ASCII character. -/
def ch (c : Char) : Byte := Fin.ofNat c.toNat

/-- The bytes of a string literal. -/
def str (s : String) : List Byte := s.toList.map ch

/-- Source line 9: `BUF`, the size of the text buffers. -/
def BUF : Nat := 512

/-- Reduction to `size_t` (64 bits). -/
def sz (x : Nat) : Nat := x % 2 ^ 64

/-- The function `isspace` of the C locale: space, and `\t \n \v \f \r`. -/
def isspace (c : Byte) : Bool := c.val == 32 || (9 ≤ c.val && c.val ≤ 13)

/-- The function `isdigit`. -/
def isdigit (c : Byte) : Bool := 48 ≤ c.val && c.val ≤ 57

/-- The C string held by a buffer: the bytes before the first NUL. -/
def cstr (buf : List Byte) : List Byte := buf.takeWhile (fun b => b ≠ 0)

/-- The characters `fgets` stores when it may store at most `k` of them: it stops after
a newline, at end of file, or when `k` characters are stored.  The second component is
the rest of the stream. -/
def fgets_aux : Nat → List Byte → List Byte × List Byte
  | 0, fp => ([], fp)
  | _ + 1, [] => ([], [])
  | k + 1, c :: fp =>
    if c = 10 then ([c], fp)
    else ((c :: (fgets_aux k fp).1), (fgets_aux k fp).2)

/-- The call `fgets(line, n, fp)`: `none` is the NULL returned at end of file, otherwise
the line stored and the rest of the stream. -/
def fgets (n : Nat) (fp : List Byte) : Option (List Byte × List Byte) :=
  match fp with
  | [] => none
  | c :: t => some (fgets_aux (n - 1) (c :: t))

/-- The directive `%s` of `sscanf`: white space is skipped, then the longest run of
characters that are not white space is stored.  `none` when the input ends before a
character is found.  The second component is the rest of the input. -/
def scan_s (s : List Byte) : Option (List Byte × List Byte) :=
  match s.dropWhile isspace with
  | [] => none
  | c :: t =>
    some ((c :: t).takeWhile (fun b => !isspace b), (c :: t).dropWhile (fun b => !isspace b))

/-- The subject sequence of the integer directives of `sscanf`: white space is skipped,
then an optional sign and the longest run of decimal digits are read.  `none` when
there is no digit; otherwise whether the sign is `-`, and the value of the digits. -/
def scan_number (s : List Byte) : Option (Bool × Nat) :=
  let s := s.dropWhile isspace
  let neg : Bool := s.head? == some (ch '-')
  let s := if s.head? == some (ch '-') || s.head? == some (ch '+') then s.tail else s
  let ds := s.takeWhile isdigit
  match ds with
  | [] => none
  | _ :: _ => some (neg, ds.foldl (fun a d => 10 * a + (d.val - 48)) 0)

/-- The directive `%d` of `sscanf` storing into an `int`: `none` when nothing is
converted (the object is then left as it was).  A value out of range is converted as in
glibc: `strtol` saturates to 64 bits and the store keeps the low 32 bits. -/
def scan_d (s : List Byte) : Option Int :=
  match scan_number s with
  | none => none
  | some (neg, m) =>
    let v : Int := if neg then -(m : Int) else (m : Int)
    let l : Int := max (-(2 ^ 63)) (min v (2 ^ 63 - 1))
    some ((l + 2 ^ 31) % 2 ^ 32 - 2 ^ 31)

/-- The directive `%zu` of `sscanf` storing into a `size_t`, with the conversion of
`strtoul`: a magnitude out of range gives `SIZE_MAX`, a `-` sign negates modulo
`2 ^ 64`. -/
def scan_zu (s : List Byte) : Option Nat :=
  match scan_number s with
  | none => none
  | some (neg, m) =>
    some (if 2 ^ 64 ≤ m then 2 ^ 64 - 1 else if neg then (2 ^ 64 - m) % 2 ^ 64 else m)

/-- The call `fread(chunk, size, 1, fp)`: the new contents of `chunk` and the number of
items read (0 or 1).  A request of size 0 reads nothing and returns 0; a stream shorter
than `size` delivers what it has and returns 0.  The list returned holds every byte
written, so it is longer than `chunk` when `size` is above the length of `chunk`. -/
def fread (chunk : List Byte) (size : Nat) (fp : List Byte) : List Byte × Nat :=
  if size = 0 then (chunk, 0)
  else if size ≤ fp.length then (fp.take size ++ chunk.drop size, 1)
  else (fp ++ chunk.drop fp.length, 0)

/-- What `read_bigfile` gets from outside: the files that `fopen(_, "r")` opens, with
their contents; the paths for which `access(_, R_OK)` returns 0; and the indeterminate
value that the local variable `Nf` holds before anything is stored in it. -/
structure Env where
  fopen : List Byte → Option (List Byte)
  readable : List Byte → Bool
  Nf : Int

/-- Modelled from the spec: the return codes.  `define.h` is missing; the spec names a
file-read error (`POWSPEC_ERR_FILE`) and a catalog-structure error (`POWSPEC_ERR_CATA`),
and the source documents zero on success, non-zero on error. -/
inductive Ret
  | ok
  | POWSPEC_ERR_FILE
  | POWSPEC_ERR_CATA
  deriving DecidableEq, Repr

/-- A `double` stored in the output: indeterminate after `malloc`, or the widening of a
`float` with the given bit pattern, or the `double` with the given bit pattern. -/
inductive Coord
  | indet
  | ofFloat (bits : Nat)
  | ofDouble (bits : Nat)
  deriving DecidableEq, Repr

/-- Modelled from the spec: the record type `DATA` of `define.h` (missing), of which
`read_bigfile` writes the three coordinates `x[0..2]`. -/
structure DATA where
  x : List Coord
  deriving DecidableEq, Repr

/-- What `printf` writes when `verb` is set, one item per call. -/
inductive Printed
  | header (fname : List Byte)
  | files (Nf : Int)
  | single
  | double
  | objects (num : Nat)
  | allocated (num : Nat)
  | percent (p : Int)
  | recorded (n : Nat) (Nf : Int)
  deriving DecidableEq, Repr

/-- The state in which `read_bigfile` returns: the return value, `*num`, `*data`
(`none` when the call has not assigned it) and what was printed. -/
structure Outcome where
  ret : Ret
  num : Nat
  data : Option (List DATA)
  out : List Printed
  deriving DecidableEq, Repr

/-! ## `read_bigfile` -/

/-- Source line 84 on a zeroed `value[i]`: `sscanf(line, "%s %s", path, value[i])`
leaves in `value[i]` the second token of the line, or the empty string. -/
def second_token (line : List Byte) : List Byte :=
  match scan_s line with
  | none => []
  | some (_, rest) =>
    match scan_s rest with
    | none => []
    | some (v, _) => v

/-- Source lines 78-85, the loop `for (i = 0; i < 3; i++)` run for `k` lines: `none`
when `fgets` fails, otherwise the values `value[i]` and the rest of the stream. -/
def read_values : Nat → List Byte → Option (List (List Byte) × List Byte)
  | 0, fp => some ([], fp)
  | k + 1, fp =>
    match fgets BUF fp with
    | none => none
    | some (line, fp) =>
      match read_values k fp with
      | none => none
      | some (vs, fp) => some (second_token (cstr line) :: vs, fp)

/-- The character `value[j]` of a token held in a zeroed buffer. -/
def chr (value : List Byte) (j : Nat) : Byte := value.getD j 0

/-- What lines 73-104 leave behind: the format tag `value[0]`, `Nf`, `byte` and the
stream after the third line. -/
structure Head where
  value0 : List Byte
  Nf : Int
  byte : Nat
  fp : List Byte
  deriving DecidableEq, Repr

/-- Source lines 73-104: the header file is opened, three lines are read, and the
dimension, the number of files and the format tag are checked.  The `int i` holds 3 when
the loop is left, and `Nf` is not initialised; `sscanf` stores into them only when a
number is converted. -/
def read_head (env : Env) (fname : List Byte) : Except Ret Head :=
  match env.fopen fname with
  | none => .error .POWSPEC_ERR_FILE
  | some fp =>
    match read_values 3 fp with
    | none => .error .POWSPEC_ERR_FILE
    | some (value, fp) =>
      let i : Int := 3
      let i : Int := match scan_d (value.getD 1 []) with
        | some v => v
        | none => i
      if i ≠ 3 then .error .POWSPEC_ERR_CATA
      else
        let Nf : Int := match scan_d (value.getD 2 []) with
          | some v => v
          | none => env.Nf
        if Nf ≤ 0 then .error .POWSPEC_ERR_CATA
        else
          let value0 := value.getD 0 []
          if (chr value0 0 ≠ ch '<' ∧ chr value0 0 ≠ ch '>') ∨ chr value0 1 ≠ ch 'f' ∨
              (chr value0 2 ≠ ch '4' ∧ chr value0 2 ≠ ch '8')
          then .error .POWSPEC_ERR_CATA
          else .ok ⟨value0, Nf, (chr value0 2).val - 48, fp⟩

/-- Source lines 110-122, the loop over the lines of the data files, run for `k` lines
from the stream `fp` with the current `*num` and `max`.  An error (both are
`POWSPEC_ERR_FILE`) carries the value of `*num` at the return; otherwise the pairs
`(bname, fsize)` in the order read, `*num` and `max`. -/
def read_table :
    Nat → List Byte → Nat → Nat → Except Nat (List (List Byte × Nat) × Nat × Nat)
  | 0, _, num, max => .ok ([], num, max)
  | k + 1, fp, num, max =>
    match fgets BUF fp with
    | none => .error num
    | some (line, fp) =>
      match scan_s (cstr line) with
      | none => .error num
      | some (name, rest) =>
        match scan_zu rest with
        | none => .error num
        | some fsize =>
          match read_table k fp (sz (num + fsize)) (if max < fsize then fsize else max) with
          | .error e => .error e
          | .ok (t, num, max) => .ok ((name.takeWhile (fun b => b ≠ ch ':'), fsize) :: t, num, max)

/-- Source lines 130-131: `path` is `fname` cut after its last `/`; without a `/` it
stays the whole of `fname`. -/
def path_of (fname : List Byte) : List Byte :=
  if ch '/' ∈ fname then (fname.reverse.dropWhile (fun b => b ≠ ch '/')).reverse
  else fname

/-- Source lines 132-142: every name is present and every file readable. -/
def check_files (env : Env) (path : List Byte) : List (List Byte × Nat) → Bool
  | [] => true
  | (name, _) :: t =>
    if name = [] then false
    else if !env.readable (path ++ name) then false
    else check_files env path t

/-- The assignment `(*data)[n].x[k] = v`. -/
def store (data : List DATA) (n k : Nat) (v : Coord) : List DATA :=
  match data.get? n with
  | none => data
  | some d => data.set n ⟨d.x.set k v⟩

/-- One of the four loops over the records of a file (source lines 176-181, 184-189,
194-199, 202-207), with its decoder, element width (4 or 8) and stride (12 or 24), run
for `c` records from offset `max` and cursor `n`: the array and the cursor after it. -/
def decode (parse : List Byte → Coord) (w stride : Nat) (chunk : List Byte) :
    Nat → List DATA → Nat → Nat → List DATA × Nat
  | 0, data, _, n => (data, n)
  | c + 1, data, max, n =>
    let data := store data n 0 (parse (chunk.drop (max + 0 * w)))
    let data := store data n 1 (parse (chunk.drop (max + 1 * w)))
    let data := store data n 2 (parse (chunk.drop (max + 2 * w)))
    decode parse w stride chunk c data (sz (max + stride)) (sz (n + 1))

/-- Source lines 173-209: the loop chosen by the byte order `value[0][0]` and `byte`. -/
def decode_file (value0 : List Byte) (byte : Nat) (chunk : List Byte) (fsize : Nat)
    (data : List DATA) (n : Nat) : List DATA × Nat :=
  if chr value0 0 = ch '>' then
    if byte = 4 then
      decode (fun p => .ofFloat (parse_float_big p)) 4 12 chunk fsize data 0 n
    else
      decode (fun p => .ofDouble (parse_double_big p)) 8 24 chunk fsize data 0 n
  else
    if byte = 4 then
      decode (fun p => .ofFloat (parse_float_little p)) 4 12 chunk fsize data 0 n
    else
      decode (fun p => .ofDouble (parse_double_little p)) 8 24 chunk fsize data 0 n

/-- The state of the loop over the data files. -/
structure Loop where
  ret : Ret
  chunk : List Byte
  data : List DATA
  n : Nat
  out : List Printed
  deriving DecidableEq, Repr

/-- Source lines 161-216: the loop over the data files, from file number `i` on; `path`,
`value[0]`, `byte`, `Nf` and `verb` are fixed. -/
def read_data (env : Env) (verb : Int) (path value0 : List Byte) (byte : Nat) (Nf : Int) :
    List (List Byte × Nat) → Nat → Loop → Loop
  | [], _, st => st
  | (name, fsize) :: t, i, st =>
    match env.fopen (path ++ name) with
    | none => { st with ret := .POWSPEC_ERR_FILE }
    | some fp =>
      let r := fread st.chunk (sz (fsize * 3 * byte)) fp
      if r.2 ≠ 1 then { st with ret := .POWSPEC_ERR_FILE, chunk := r.1 }
      else
        let d := decode_file value0 byte r.1 fsize st.data st.n
        let out := if verb ≠ 0 ∧ (i : Int) ≠ Nf - 1
          then st.out ++ [.percent (((i : Int) + 1) / Nf)] else st.out
        read_data env verb path value0 byte Nf t (i + 1) ⟨.ok, r.1, d.1, d.2, out⟩

/-- Source lines 144-160: what is printed before the loop over the data files, the two
allocations, and the cursor set to 0.  The allocations of `MY_ALLOC` (a macro of
`define.h`, missing) are taken to succeed; `chunk` starts filled with zero bytes and the
records of `*data` with indeterminate coordinates. -/
def start (verb : Int) (h : Head) (num max : Nat) (out : List Printed) : Loop where
  ret := .ok
  chunk := List.replicate (sz (max * 3 * h.byte)) 0
  data := List.replicate num ⟨[.indet, .indet, .indet]⟩
  n := 0
  out :=
    if verb ≠ 0 then
      out ++ [.files h.Nf] ++
        (if chr h.value0 2 = ch '4' then [.single]
          else if chr h.value0 2 = ch '8' then [.double] else []) ++
        [.objects num] ++ [.allocated num]
    else out

/-- Source lines 165, 170 and 218-224: the return of an error met in the loop, or the
last message and the return of 0. -/
def finish (verb : Int) (Nf : Int) (num : Nat) (st : Loop) : Outcome :=
  if st.ret ≠ .ok then ⟨st.ret, num, some st.data, st.out⟩
  else ⟨.ok, num, some st.data, if verb ≠ 0 then st.out ++ [.recorded st.n Nf] else st.out⟩

/-- Source lines 63-225.  `num0` is `*num` before the call. -/
def read_bigfile (env : Env) (fname : List Byte) (num0 : Nat) (verb : Int) : Outcome :=
  let out : List Printed := if verb ≠ 0 then [.header fname] else []
  match read_head env fname with
  | .error e => ⟨e, num0, none, out⟩
  | .ok h =>
    match read_table h.Nf.toNat h.fp 0 0 with
    | .error num => ⟨.POWSPEC_ERR_FILE, num, none, out⟩
    | .ok (table, num, max) =>
      if num ≤ 0 then ⟨.POWSPEC_ERR_CATA, num, none, out⟩
      else if !check_files env (path_of fname) table then ⟨.POWSPEC_ERR_FILE, num, none, out⟩
      else
        finish verb h.Nf num
          (read_data env verb (path_of fname) h.value0 h.byte h.Nf table 0
            (start verb h num max out))

/-! ## The lines of a header -/

/-- The lines that successive calls of `fgets(line, BUF, fp)` deliver until the end of
the file, computed with `fuel` calls at most. -/
def lines_aux : Nat → List Byte → List (List Byte)
  | 0, _ => []
  | fuel + 1, fp =>
    match fgets BUF fp with
    | none => []
    | some (line, rest) => line :: lines_aux fuel rest

/-- The lines of a header file: each call of `fgets` consumes a character at least, so
as many calls as the file has characters reach its end. -/
def header_lines (fp : List Byte) : List (List Byte) := lines_aux fp.length fp

/-- The lines of a text: each ends after its newline, the last one at the end of the
text. -/
def text_lines : List Byte → List (List Byte)
  | [] => []
  | c :: t =>
    if c = 10 then [c] :: text_lines t
    else
      match text_lines t with
      | [] => [[c]]
      | l :: ls => (c :: l) :: ls

/-- A format tag whose first three characters are a byte-order marker (`<` or `>`), the
letter `f` and a width digit (`4` or `8`). -/
def tag_prefix_ok : List Byte → Bool
  | o :: f :: d :: _ => (o == ch '<' || o == ch '>') && f == ch 'f' && (d == ch '4' || d == ch '8')
  | _ => false

/-! ## Sample catalogs -/

/-- A file system with the given files, all of them readable. -/
def env_of (files : List (List Byte × List Byte)) (Nf : Int) : Env where
  fopen p := (files.find? (fun f => f.1 == p)).map (fun f => f.2)
  readable p := (files.find? (fun f => f.1 == p)).isSome
  Nf := Nf

/-- The 24 bytes of the little-endian floats (1, 2, 3), (4, 5, 6). -/
def sample_a : List Byte :=
  [0, 0, 0x80, 0x3f, 0, 0, 0, 0x40, 0, 0, 0x40, 0x40,
   0, 0, 0x80, 0x40, 0, 0, 0xa0, 0x40, 0, 0, 0xc0, 0x40]

/-- The header of the scenario: `<f4`, dimension 3, one file `a.dat` of 2 records. -/
def sample_header : List Byte :=
  str "DTYPE: <f4" ++ [10] ++ str "NMEMB: 3" ++ [10] ++ str "NFILE: 1" ++ [10] ++
  str "a.dat: 2" ++ [10]

/-- The catalog of the scenario, with header `cat/header`. -/
def sample_env : Env :=
  env_of [(str "cat/header", sample_header), (str "cat/a.dat", sample_a)] 0

/-- A header in the layout of a bigfile block: `>f8`, dimension 3, two files of 1 and 2
records, with the checksum fields that follow the counts. -/
def sample2_header : List Byte :=
  str "DTYPE: >f8" ++ [10] ++ str "NMEMB: 3" ++ [10] ++ str "NFILE: 2" ++ [10] ++
  str "000000: 1 : 1234" ++ [10] ++ str "000001: 2 : 5678" ++ [10]

/-- The big-endian doubles (1, 2, 3). -/
def sample2_file0 : List Byte :=
  [0x3f, 0xf0, 0, 0, 0, 0, 0, 0, 0x40, 0, 0, 0, 0, 0, 0, 0, 0x40, 0x08, 0, 0, 0, 0, 0, 0]

/-- The big-endian doubles (4, 5, 6), (7, 8, 9). -/
def sample2_file1 : List Byte :=
  [0x40, 0x10, 0, 0, 0, 0, 0, 0, 0x40, 0x14, 0, 0, 0, 0, 0, 0, 0x40, 0x18, 0, 0, 0, 0, 0, 0,
   0x40, 0x1c, 0, 0, 0, 0, 0, 0, 0x40, 0x20, 0, 0, 0, 0, 0, 0, 0x40, 0x22, 0, 0, 0, 0, 0, 0]

/-- A catalog of two data files, with header `pos/header`. -/
def sample2_env : Env :=
  env_of [(str "pos/header", sample2_header), (str "pos/000000", sample2_file0),
    (str "pos/000001", sample2_file1)] 0

/-- A header that announces two data files and lists one. -/
def short_header : List Byte :=
  str "DTYPE: <f4" ++ [10] ++ str "NMEMB: 3" ++ [10] ++ str "NFILE: 2" ++ [10] ++
  str "a.dat: 2" ++ [10]

/-- The catalog of `short_header`, with the data file present. -/
def short_env : Env :=
  env_of [(str "cat/header", short_header), (str "cat/a.dat", sample_a)] 0

/-- A header of two lines. -/
def two_line_header : List Byte :=
  str "DTYPE: <f4" ++ [10] ++ str "NMEMB: 3" ++ [10]

/-- A header of one data file `a.dat` of 2 records with the given format tag, dimension
token and file-count token. -/
def header_with (tag dim nfile : List Byte) : List Byte :=
  str "DTYPE: " ++ tag ++ [10] ++ str "NMEMB: " ++ dim ++ [10] ++
  str "NFILE: " ++ nfile ++ [10] ++ str "a.dat: 2" ++ [10]

/-- The catalog `cat/header`, `cat/a.dat` with the given header, the data file of the
scenario, and the given indeterminate value of `Nf`. -/
def env_with (header : List Byte) (Nf : Int) : Env :=
  env_of [(str "cat/header", header), (str "cat/a.dat", sample_a)] Nf

/-- A header of two data files, the first one with a record count of 0. -/
def zero_count_header : List Byte :=
  str "DTYPE: <f4" ++ [10] ++ str "NMEMB: 3" ++ [10] ++ str "NFILE: 2" ++ [10] ++
  str "empty.dat: 0" ++ [10] ++ str "a.dat: 2" ++ [10]

/-- The catalog of `zero_count_header`: `empty.dat` holds the given bytes and `a.dat`
the two records of the scenario. -/
def zero_count_env (empty : List Byte) : Env :=
  env_of [(str "cat/header", zero_count_header), (str "cat/empty.dat", empty),
    (str "cat/a.dat", sample_a)] 0

/-- The two records (1, 2, 3), (4, 5, 6) read from single-precision floats. -/
def sample_records : List DATA :=
  [⟨[.ofFloat 0x3f800000, .ofFloat 0x40000000, .ofFloat 0x40400000]⟩,
   ⟨[.ofFloat 0x40800000, .ofFloat 0x40a00000, .ofFloat 0x40c00000]⟩]

/-! ## The records of a data file -/

/-- The Byte Decoder matching a byte order (`big` for `>`) and an element width. -/
def decoder (big : Bool) (w : Nat) (src : List Byte) : Coord :=
  if w = 4 then .ofFloat (if big then parse_float_big src else parse_float_little src)
  else .ofDouble (if big then parse_double_big src else parse_double_little src)

/-- The first `c` records of a data file: component `k` of record `r` is decoded from
the `w` bytes at offset `r * 3 * w + k * w`. -/
def records (dec : List Byte → Coord) (w : Nat) (file : List Byte) (c : Nat) : List DATA :=
  (List.range c).map fun r =>
    ⟨(List.range 3).map fun k => dec (file.drop (r * 3 * w + k * w))⟩

/-- The record counts of a table of data files. -/
def counts (table : List (List Byte × Nat)) : List Nat := table.map Prod.snd

/-- The records of one data file of the table: those decoded from the file that its
path opens. -/
def shard_records (env : Env) (path : List Byte) (big : Bool) (w : Nat)
    (e : List Byte × Nat) : List DATA :=
  records (decoder big w) w ((env.fopen (path ++ e.1)).getD []) e.2

/-! ## Serialisation of words -/

/-- The big-endian serialisation of a word in `n` bytes: the most significant byte
comes first. -/
def be_bytes : Nat → Nat → List Byte
  | 0, _ => []
  | n + 1, x => Fin.ofNat (x / 2 ^ (8 * n)) :: be_bytes n x

/-- The little-endian serialisation of a word in `n` bytes: the least significant byte
comes first. -/
def le_bytes : Nat → Nat → List Byte
  | 0, _ => []
  | n + 1, x => Fin.ofNat x :: le_bytes n (x / 256)

/-! ## Further catalogs -/

/-- A catalog whose header is opened by a path without `/`: the files `header` and
`a.dat` of the current directory. -/
def bare_env : Env :=
  env_of [(str "header", sample_header), (str "a.dat", sample_a)] 0

/-- The same header, with the data file under the name `headera.dat`. -/
def glued_env : Env :=
  env_of [(str "header", sample_header), (str "headera.dat", sample_a)] 0

/-- The name `name` is the part of the token `t` before its first `:`, the whole of `t`
when it has none. -/
def stripped_of (t name : List Byte) : Prop :=
  ∃ suffix, t = name ++ suffix ∧ ch ':' ∉ name ∧
    (suffix = [] ∨ suffix.head? = some (ch ':'))

/-- The entry `e` of the table is what the shard line `line` gives: its filename token,
stripped, and its record count. -/
def entry_of_line (e : List Byte × Nat) (line : List Byte) : Prop :=
  ∃ t rest, scan_s (cstr line) = some (t, rest) ∧ scan_zu rest = some e.2 ∧
    stripped_of t e.1

/-- A header of two data files whose filename tokens are `a.dat:extra` and `:hidden`. -/
def colon_header : List Byte :=
  str "DTYPE: <f4" ++ [10] ++ str "NMEMB: 3" ++ [10] ++ str "NFILE: 2" ++ [10] ++
  str "a.dat:extra 2" ++ [10] ++ str ":hidden 1" ++ [10]

/-- The catalog of `colon_header`, with the file `a.dat` and a file named `:hidden`. -/
def colon_env : Env :=
  env_of [(str "cat/header", colon_header), (str "cat/a.dat", sample_a),
    (str "cat/:hidden", sample_a), (str "cat/", sample_a)] 0

/-- A header of two data files whose record counts are both 0. -/
def zero_total_header : List Byte :=
  str "DTYPE: <f4" ++ [10] ++ str "NMEMB: 3" ++ [10] ++ str "NFILE: 2" ++ [10] ++
  str "a.dat: 0" ++ [10] ++ str "b.dat: 0" ++ [10]

/-- The header `zero_total_header` alone: none of its data files exists. -/
def zero_total_env : Env :=
  env_of [(str "cat/header", zero_total_header)] 0

/-- The catalog of `sample2_header` without its second data file. -/
def missing_env : Env :=
  env_of [(str "pos/header", sample2_header), (str "pos/000000", sample2_file0)] 0

/-- A shard line parses when `sscanf(line, "%s %zu", ...)` converts both items: a
filename token and an integer record count. -/
def line_parses (line : List Byte) : Bool :=
  match scan_s (cstr line) with
  | none => false
  | some (_, rest) => (scan_zu rest).isSome

/-- A header that announces one data file, followed by the given shard lines. -/
def shard_header (lines : List Byte) : List Byte :=
  str "DTYPE: <f4" ++ [10] ++ str "NMEMB: 3" ++ [10] ++ str "NFILE: 1" ++ [10] ++ lines

/-- The catalog with the header `shard_header lines` and the data file of the
scenario. -/
def shard_env (lines : List Byte) : Env :=
  env_of [(str "cat/header", shard_header lines), (str "cat/a.dat", sample_a)] 0

/-- The catalog of `sample2_header` with a second data file of 10 bytes, too short for
its 2 records. -/
def truncated_env : Env :=
  env_of [(str "pos/header", sample2_header), (str "pos/000000", sample2_file0),
    (str "pos/000001", sample2_file1.take 10)] 0

/-! ## The passes of the loops over the records -/

/-- One pass of a loop over the records of a data file: the number `i` of the file, the
cursor `n` of the record written, `(*data)[n]`, and the offset `max` in `chunk` of the
record decoded. -/
structure Pass where
  file : Nat
  n : Nat
  off : Nat
  deriving DecidableEq, Repr

/-- The loop `decode` (source lines 176-181, 184-189, 194-199, 202-207) run for file
number `i`, which also lists its passes in order. -/
def decode_passes (parse : List Byte → Coord) (w stride : Nat) (chunk : List Byte) (i : Nat) :
    Nat → List DATA → Nat → Nat → (List DATA × Nat) × List Pass
  | 0, data, _, n => ((data, n), [])
  | c + 1, data, max, n =>
    let data1 := store data n 0 (parse (chunk.drop (max + 0 * w)))
    let data2 := store data1 n 1 (parse (chunk.drop (max + 1 * w)))
    let data3 := store data2 n 2 (parse (chunk.drop (max + 2 * w)))
    let r := decode_passes parse w stride chunk i c data3 (sz (max + stride)) (sz (n + 1))
    (r.1, ⟨i, n, max⟩ :: r.2)

/-- The choice of `decode_file` (source lines 173-209), with the passes listed. -/
def decode_file_passes (value0 : List Byte) (byte : Nat) (chunk : List Byte) (fsize : Nat)
    (data : List DATA) (n i : Nat) : (List DATA × Nat) × List Pass :=
  if chr value0 0 = ch '>' then
    if byte = 4 then
      decode_passes (fun p => .ofFloat (parse_float_big p)) 4 12 chunk i fsize data 0 n
    else
      decode_passes (fun p => .ofDouble (parse_double_big p)) 8 24 chunk i fsize data 0 n
  else
    if byte = 4 then
      decode_passes (fun p => .ofFloat (parse_float_little p)) 4 12 chunk i fsize data 0 n
    else
      decode_passes (fun p => .ofDouble (parse_double_little p)) 8 24 chunk i fsize data 0 n

/-- The loop `read_data` (source lines 161-216), with the passes of its record loops
listed in order. -/
def read_data_passes (env : Env) (verb : Int) (path value0 : List Byte) (byte : Nat)
    (Nf : Int) : List (List Byte × Nat) → Nat → Loop → Loop × List Pass
  | [], _, st => (st, [])
  | (name, fsize) :: t, i, st =>
    match env.fopen (path ++ name) with
    | none => ({ st with ret := .POWSPEC_ERR_FILE }, [])
    | some fp =>
      let r := fread st.chunk (sz (fsize * 3 * byte)) fp
      if r.2 ≠ 1 then ({ st with ret := .POWSPEC_ERR_FILE, chunk := r.1 }, [])
      else
        let d := decode_file_passes value0 byte r.1 fsize st.data st.n i
        let out := if verb ≠ 0 ∧ (i : Int) ≠ Nf - 1
          then st.out ++ [.percent (((i : Int) + 1) / Nf)] else st.out
        let rest := read_data_passes env verb path value0 byte Nf t (i + 1)
          ⟨.ok, r.1, d.1.1, d.1.2, out⟩
        (rest.1, d.2 ++ rest.2)

/-- The passes that the loops make over the data files of a table when every file is
read: for file `i` with count `c`, reached with the cursor at `n`, the passes
`r = 0, ..., c - 1` write record `n + r` from offset `r * stride`. -/
def passes_of (stride : Nat) : List (List Byte × Nat) → Nat → Nat → List Pass
  | [], _, _ => []
  | (_, c) :: t, i, n =>
    (List.range c).map (fun r => ⟨i, n + r, r * stride⟩) ++ passes_of stride t (i + 1) (n + c)

/-- The loop over the data files as `read_bigfile` runs it (source lines 160-216, from
the state that lines 144-160 set up), with its passes listed. -/
def load_passes (env : Env) (fname : List Byte) (verb : Int) (h : Head)
    (table : List (List Byte × Nat)) (num max : Nat) : Loop × List Pass :=
  read_data_passes env verb (path_of fname) h.value0 h.byte h.Nf table 0
    (start verb h num max (if verb ≠ 0 then [.header fname] else []))

/-- The state of the loop of `read_bigfile` after the first `k` data files of the
table. -/
def after_files (env : Env) (fname : List Byte) (verb : Int) (h : Head)
    (table : List (List Byte × Nat)) (num max k : Nat) : Loop :=
  read_data env verb (path_of fname) h.value0 h.byte h.Nf (table.take k) 0
    (start verb h num max (if verb ≠ 0 then [.header fname] else []))

/-! ## Catalogs whose sizes wrap around -/

/-- A header of three data files whose record counts, 3, `3 * 2 ^ 62 + 3` and
`2 ^ 62 - 4`, add up to `2 ^ 64 + 2`. -/
def wrapped_header : List Byte :=
  str "DTYPE: <f4" ++ [10] ++ str "NMEMB: 3" ++ [10] ++ str "NFILE: 3" ++ [10] ++
  str "a.dat: 3" ++ [10] ++ str "b.dat: 13835058055282163715" ++ [10] ++
  str "c.dat: 4611686018427387900" ++ [10]

/-- The 36 bytes of the little-endian floats (1, 2, 3), (4, 5, 6), (1, 2, 3). -/
def three_records : List Byte := sample_a ++ sample_a.take 12

/-- The catalog of `wrapped_header`: `a.dat` holds its 3 records, 36 bytes, and the two
other data files are empty. -/
def wrapped_env : Env :=
  env_of [(str "cat/header", wrapped_header), (str "cat/a.dat", three_records),
    (str "cat/b.dat", []), (str "cat/c.dat", [])] 0

/-- What lines 73-104 leave behind for `wrapped_header`. -/
def wrapped_head : Head :=
  ⟨str "<f4", 3, 4, str "a.dat: 3" ++ [10] ++ str "b.dat: 13835058055282163715" ++ [10] ++
    str "c.dat: 4611686018427387900" ++ [10]⟩

/-- The names and record counts of the shard lines of `wrapped_header`. -/
def wrapped_table : List (List Byte × Nat) :=
  [(str "a.dat", 3), (str "b.dat", 13835058055282163715), (str "c.dat", 4611686018427387900)]

/-- A header of three data files with the record counts 5, `2 ^ 63 + 1` and
`2 ^ 63 + 1`: the largest count times 12 is `6 * 2 ^ 64 + 12`. -/
def overrun_header : List Byte :=
  str "DTYPE: <f4" ++ [10] ++ str "NMEMB: 3" ++ [10] ++ str "NFILE: 3" ++ [10] ++
  str "a.dat: 5" ++ [10] ++ str "b.dat: 9223372036854775809" ++ [10] ++
  str "c.dat: 9223372036854775809" ++ [10]

/-- The 60 bytes of the little-endian floats (1, 2, 3), (4, 5, 6), (1, 2, 3), (4, 5, 6),
(1, 2, 3). -/
def five_records : List Byte := sample_a ++ sample_a ++ sample_a.take 12

/-- The catalog of `overrun_header`: `a.dat` holds its 5 records, 60 bytes, and the two
other data files are empty. -/
def overrun_env : Env :=
  env_of [(str "cat/header", overrun_header), (str "cat/a.dat", five_records),
    (str "cat/b.dat", []), (str "cat/c.dat", [])] 0

/-- What lines 73-104 leave behind for `overrun_header`. -/
def overrun_head : Head :=
  ⟨str "<f4", 3, 4, str "a.dat: 5" ++ [10] ++ str "b.dat: 9223372036854775809" ++ [10] ++
    str "c.dat: 9223372036854775809" ++ [10]⟩

/-- The names and record counts of the shard lines of `overrun_header`. -/
def overrun_table : List (List Byte × Nat) :=
  [(str "a.dat", 5), (str "b.dat", 9223372036854775809), (str "c.dat", 9223372036854775809)]

/-- A header of two data files of `2 ^ 63 + 1` records each: the counts add up to
`2 ^ 64 + 2`, and each count times 12 is `6 * 2 ^ 64 + 12`. -/
def twin_header : List Byte :=
  str "DTYPE: <f4" ++ [10] ++ str "NMEMB: 3" ++ [10] ++ str "NFILE: 2" ++ [10] ++
  str "a.dat: 9223372036854775809" ++ [10] ++ str "b.dat: 9223372036854775809" ++ [10]

/-- The catalog of `twin_header`, each data file holding one record, 12 bytes. -/
def twin_env : Env :=
  env_of [(str "cat/header", twin_header), (str "cat/a.dat", sample_a.take 12),
    (str "cat/b.dat", sample_a.take 12)] 0

/-- What lines 73-104 leave behind for `twin_header`. -/
def twin_head : Head :=
  ⟨str "<f4", 2, 4, str "a.dat: 9223372036854775809" ++ [10] ++
    str "b.dat: 9223372036854775809" ++ [10]⟩

/-- The names and record counts of the shard lines of `twin_header`. -/
def twin_table : List (List Byte × Nat) :=
  [(str "a.dat", 9223372036854775809), (str "b.dat", 9223372036854775809)]

/-! ## The byte decoders -/

theorem peek_lt (src : List Byte) (i : Nat) : peek src i < 256 := (src.getD i 0).isLt

/-- Bytes placed at disjoint positions: the bitwise or of a high part and a low part
is their sum. -/
theorem or_shift_eq_add (a b i : Nat) (h : b < 2 ^ i) : a <<< i ||| b = a * 2 ^ i + b := by
  rw [Nat.shiftLeft_eq, Nat.mul_comm, Nat.mul_add_lt_is_or h]

theorem word32_eq (a b c d : Nat) (ha : a < 256) (hb : b < 256) (hc : c < 256)
    (hd : d < 256) :
    u32 (d <<< 0) ||| u32 (c <<< 8) ||| u32 (b <<< 16) ||| u32 (a <<< 24)
      = a * 2 ^ 24 + b * 2 ^ 16 + c * 2 ^ 8 + d := by
  have e0 : u32 (d <<< 0) = d := by
    simp only [u32, Nat.shiftLeft_eq]; omega
  have e1 : u32 (c <<< 8) = c <<< 8 := by
    simp only [u32, Nat.shiftLeft_eq]; omega
  have e2 : u32 (b <<< 16) = b <<< 16 := by
    simp only [u32, Nat.shiftLeft_eq]; omega
  have e3 : u32 (a <<< 24) = a <<< 24 := by
    simp only [u32, Nat.shiftLeft_eq]; omega
  rw [e0, e1, e2, e3]
  rw [Nat.or_comm d, or_shift_eq_add c d 8 (by omega)]
  rw [Nat.or_comm _ (b <<< 16), or_shift_eq_add b _ 16 (by omega)]
  rw [Nat.or_comm _ (a <<< 24), or_shift_eq_add a _ 24 (by omega)]
  omega


theorem word64_eq (a b c d e f g h : Nat) (ha : a < 256) (hb : b < 256) (hc : c < 256)
    (hd : d < 256) (he : e < 256) (hf : f < 256) (hg : g < 256) (hh : h < 256) :
    u64 (h <<< 0) ||| u64 (g <<< 8) ||| u64 (f <<< 16) ||| u64 (e <<< 24) |||
      u64 (d <<< 32) ||| u64 (c <<< 40) ||| u64 (b <<< 48) ||| u64 (a <<< 56)
      = a * 2 ^ 56 + b * 2 ^ 48 + c * 2 ^ 40 + d * 2 ^ 32 + e * 2 ^ 24 + f * 2 ^ 16 +
        g * 2 ^ 8 + h := by
  have e0 : u64 (h <<< 0) = h := by
    simp only [u64, Nat.shiftLeft_eq]; omega
  have e1 : u64 (g <<< 8) = g <<< 8 := by
    simp only [u64, Nat.shiftLeft_eq]; omega
  have e2 : u64 (f <<< 16) = f <<< 16 := by
    simp only [u64, Nat.shiftLeft_eq]; omega
  have e3 : u64 (e <<< 24) = e <<< 24 := by
    simp only [u64, Nat.shiftLeft_eq]; omega
  have e4 : u64 (d <<< 32) = d <<< 32 := by
    simp only [u64, Nat.shiftLeft_eq]; omega
  have e5 : u64 (c <<< 40) = c <<< 40 := by
    simp only [u64, Nat.shiftLeft_eq]; omega
  have e6 : u64 (b <<< 48) = b <<< 48 := by
    simp only [u64, Nat.shiftLeft_eq]; omega
  have e7 : u64 (a <<< 56) = a <<< 56 := by
    simp only [u64, Nat.shiftLeft_eq]; omega
  rw [e0, e1, e2, e3, e4, e5, e6, e7]
  rw [Nat.or_comm h, or_shift_eq_add g h 8 (by omega)]
  rw [Nat.or_comm _ (f <<< 16), or_shift_eq_add f _ 16 (by omega)]
  rw [Nat.or_comm _ (e <<< 24), or_shift_eq_add e _ 24 (by omega)]
  rw [Nat.or_comm _ (d <<< 32), or_shift_eq_add d _ 32 (by omega)]
  rw [Nat.or_comm _ (c <<< 40), or_shift_eq_add c _ 40 (by omega)]
  rw [Nat.or_comm _ (b <<< 48), or_shift_eq_add b _ 48 (by omega)]
  rw [Nat.or_comm _ (a <<< 56), or_shift_eq_add a _ 56 (by omega)]
  omega

theorem parse_float_big_eq (src : List Byte) :
    parse_float_big src
      = peek src 0 * 2 ^ 24 + peek src 1 * 2 ^ 16 + peek src 2 * 2 ^ 8 + peek src 3 :=
  word32_eq _ _ _ _ (peek_lt _ _) (peek_lt _ _) (peek_lt _ _) (peek_lt _ _)

theorem parse_float_little_eq (src : List Byte) :
    parse_float_little src
      = peek src 3 * 2 ^ 24 + peek src 2 * 2 ^ 16 + peek src 1 * 2 ^ 8 + peek src 0 :=
  word32_eq _ _ _ _ (peek_lt _ _) (peek_lt _ _) (peek_lt _ _) (peek_lt _ _)

theorem parse_double_big_eq (src : List Byte) :
    parse_double_big src
      = peek src 0 * 2 ^ 56 + peek src 1 * 2 ^ 48 + peek src 2 * 2 ^ 40 +
        peek src 3 * 2 ^ 32 + peek src 4 * 2 ^ 24 + peek src 5 * 2 ^ 16 +
        peek src 6 * 2 ^ 8 + peek src 7 :=
  word64_eq _ _ _ _ _ _ _ _ (peek_lt _ _) (peek_lt _ _) (peek_lt _ _) (peek_lt _ _)
    (peek_lt _ _) (peek_lt _ _) (peek_lt _ _) (peek_lt _ _)

theorem parse_double_little_eq (src : List Byte) :
    parse_double_little src
      = peek src 7 * 2 ^ 56 + peek src 6 * 2 ^ 48 + peek src 5 * 2 ^ 40 +
        peek src 4 * 2 ^ 32 + peek src 3 * 2 ^ 24 + peek src 2 * 2 ^ 16 +
        peek src 1 * 2 ^ 8 + peek src 0 :=
  word64_eq _ _ _ _ _ _ _ _ (peek_lt _ _) (peek_lt _ _) (peek_lt _ _) (peek_lt _ _)
    (peek_lt _ _) (peek_lt _ _) (peek_lt _ _) (peek_lt _ _)

/-- C3: the byte decoders assemble the word with buffer index 0 as the highest-order
byte for big-endian and as the lowest-order byte for little-endian.  With `b[i]` the
byte `b.getD i 0` of the buffer, `parse_float_big` gives
`b[0]*2^24 + b[1]*2^16 + b[2]*2^8 + b[3]`, `parse_float_little` gives
`b[0] + b[1]*2^8 + b[2]*2^16 + b[3]*2^24`, `parse_double_big` gives the sum over `i < 8`
of `b[i] * 2^(8*(7-i))` and `parse_double_little` the sum of `b[i] * 2^(8*i)`. -/
theorem decoders_assemble_in_order (b : List Byte) :
    parse_float_big b
      = (b.getD 0 0).val * 2 ^ 24 + (b.getD 1 0).val * 2 ^ 16 + (b.getD 2 0).val * 2 ^ 8
        + (b.getD 3 0).val ∧
    parse_float_little b
      = (b.getD 0 0).val + (b.getD 1 0).val * 2 ^ 8 + (b.getD 2 0).val * 2 ^ 16
        + (b.getD 3 0).val * 2 ^ 24 ∧
    parse_double_big b = ∑ i in Finset.range 8, (b.getD i 0).val * 2 ^ (8 * (7 - i)) ∧
    parse_double_little b = ∑ i in Finset.range 8, (b.getD i 0).val * 2 ^ (8 * i) := by
  refine ⟨?_, ?_, ?_, ?_⟩
  · rw [parse_float_big_eq]; rfl
  · rw [parse_float_little_eq]; simp only [peek]; omega
  · rw [parse_double_big_eq]
    simp only [Finset.sum_range_succ, Finset.sum_range_zero, peek]
    norm_num
  · rw [parse_double_little_eq]
    simp only [Finset.sum_range_succ, Finset.sum_range_zero, peek]
    norm_num
    omega

theorem list_length_four (b : List Byte) (h : b.length = 4) :
    ∃ b0 b1 b2 b3, b = [b0, b1, b2, b3] := by
  match b, h with
  | [b0, b1, b2, b3], _ => exact ⟨b0, b1, b2, b3, rfl⟩

theorem list_length_eight (b : List Byte) (h : b.length = 8) :
    ∃ b0 b1 b2 b3 b4 b5 b6 b7, b = [b0, b1, b2, b3, b4, b5, b6, b7] := by
  match b, h with
  | [b0, b1, b2, b3, b4, b5, b6, b7], _ => exact ⟨b0, b1, b2, b3, b4, b5, b6, b7, rfl⟩

/-- C4: decoding is byte-order-symmetric: on the reversed buffer the big-endian decoder
gives what the little-endian decoder gives on the buffer, and conversely, for 4-byte
buffers with the float decoders and for 8-byte buffers with the double decoders. -/
theorem decode_byte_order_symmetric (b d : List Byte) (hb : b.length = 4)
    (hd : d.length = 8) :
    parse_float_big b.reverse = parse_float_little b ∧
    parse_float_little b.reverse = parse_float_big b ∧
    parse_double_big d.reverse = parse_double_little d ∧
    parse_double_little d.reverse = parse_double_big d := by
  obtain ⟨b0, b1, b2, b3, rfl⟩ := list_length_four b hb
  obtain ⟨d0, d1, d2, d3, d4, d5, d6, d7, rfl⟩ := list_length_eight d hd
  exact ⟨rfl, rfl, rfl, rfl⟩

/-- Witness of C4 on the bytes of the float 1 and on an 8-byte buffer. -/
theorem decode_byte_order_symmetric_witness :
    ([0, 0, 0x80, 0x3f] : List Byte).length = 4 ∧
    ([1, 2, 3, 4, 5, 6, 7, 8] : List Byte).length = 8 ∧
    parse_float_big ([0, 0, 0x80, 0x3f] : List Byte).reverse
      = parse_float_little [0, 0, 0x80, 0x3f] ∧
    parse_float_little ([0, 0, 0x80, 0x3f] : List Byte).reverse
      = parse_float_big [0, 0, 0x80, 0x3f] ∧
    parse_double_big ([1, 2, 3, 4, 5, 6, 7, 8] : List Byte).reverse
      = parse_double_little [1, 2, 3, 4, 5, 6, 7, 8] ∧
    parse_double_little ([1, 2, 3, 4, 5, 6, 7, 8] : List Byte).reverse
      = parse_double_big [1, 2, 3, 4, 5, 6, 7, 8] :=
  ⟨by decide, by decide,
    decode_byte_order_symmetric [0, 0, 0x80, 0x3f] [1, 2, 3, 4, 5, 6, 7, 8] (by decide)
      (by decide)⟩

theorem byte_val_ofNat (n : Nat) : ((Fin.ofNat n : Byte) : Nat) = n % 256 := rfl

theorem byte_eq_ofNat (b : Byte) (n : Nat) (h : n % 256 = b.val) : (Fin.ofNat n : Byte) = b :=
  Fin.ext h

theorem parse_be_bytes32 (x : Nat) (h : x < 2 ^ 32) : parse_float_big (be_bytes 4 x) = x := by
  rw [parse_float_big_eq]
  simp only [be_bytes, peek, List.getD_cons_zero, List.getD_cons_succ, byte_val_ofNat]
  omega

theorem parse_le_bytes32 (x : Nat) (h : x < 2 ^ 32) :
    parse_float_little (le_bytes 4 x) = x := by
  rw [parse_float_little_eq]
  simp only [le_bytes, peek, List.getD_cons_zero, List.getD_cons_succ, byte_val_ofNat]
  omega

theorem parse_be_bytes64 (x : Nat) (h : x < 2 ^ 64) : parse_double_big (be_bytes 8 x) = x := by
  rw [parse_double_big_eq]
  simp only [be_bytes, peek, List.getD_cons_zero, List.getD_cons_succ, byte_val_ofNat]
  omega

theorem parse_le_bytes64 (x : Nat) (h : x < 2 ^ 64) :
    parse_double_little (le_bytes 8 x) = x := by
  rw [parse_double_little_eq]
  simp only [le_bytes, peek, List.getD_cons_zero, List.getD_cons_succ, byte_val_ofNat]
  omega

theorem be_bytes_parse32 (b : List Byte) (h : b.length = 4) :
    parse_float_big b < 2 ^ 32 ∧ be_bytes 4 (parse_float_big b) = b := by
  obtain ⟨b0, b1, b2, b3, rfl⟩ := list_length_four b h
  rw [parse_float_big_eq]
  simp only [be_bytes, peek, List.getD_cons_zero, List.getD_cons_succ]
  have h0 := b0.isLt; have h1 := b1.isLt; have h2 := b2.isLt; have h3 := b3.isLt
  refine ⟨by omega, ?_⟩
  congr 1; · exact byte_eq_ofNat _ _ (by omega)
  congr 1; · exact byte_eq_ofNat _ _ (by omega)
  congr 1; · exact byte_eq_ofNat _ _ (by omega)
  congr 1; exact byte_eq_ofNat _ _ (by omega)

theorem le_bytes_parse32 (b : List Byte) (h : b.length = 4) :
    parse_float_little b < 2 ^ 32 ∧ le_bytes 4 (parse_float_little b) = b := by
  obtain ⟨b0, b1, b2, b3, rfl⟩ := list_length_four b h
  rw [parse_float_little_eq]
  simp only [le_bytes, peek, List.getD_cons_zero, List.getD_cons_succ]
  have h0 := b0.isLt; have h1 := b1.isLt; have h2 := b2.isLt; have h3 := b3.isLt
  refine ⟨by omega, ?_⟩
  congr 1; · exact byte_eq_ofNat _ _ (by omega)
  congr 1; · exact byte_eq_ofNat _ _ (by omega)
  congr 1; · exact byte_eq_ofNat _ _ (by omega)
  congr 1; exact byte_eq_ofNat _ _ (by omega)

theorem be_bytes_parse64 (b : List Byte) (h : b.length = 8) :
    parse_double_big b < 2 ^ 64 ∧ be_bytes 8 (parse_double_big b) = b := by
  obtain ⟨b0, b1, b2, b3, b4, b5, b6, b7, rfl⟩ := list_length_eight b h
  rw [parse_double_big_eq]
  simp only [be_bytes, peek, List.getD_cons_zero, List.getD_cons_succ]
  have h0 := b0.isLt; have h1 := b1.isLt; have h2 := b2.isLt; have h3 := b3.isLt
  have h4 := b4.isLt; have h5 := b5.isLt; have h6 := b6.isLt; have h7 := b7.isLt
  refine ⟨by omega, ?_⟩
  congr 1; · exact byte_eq_ofNat _ _ (by omega)
  congr 1; · exact byte_eq_ofNat _ _ (by omega)
  congr 1; · exact byte_eq_ofNat _ _ (by omega)
  congr 1; · exact byte_eq_ofNat _ _ (by omega)
  congr 1; · exact byte_eq_ofNat _ _ (by omega)
  congr 1; · exact byte_eq_ofNat _ _ (by omega)
  congr 1; · exact byte_eq_ofNat _ _ (by omega)
  congr 1; exact byte_eq_ofNat _ _ (by omega)

theorem le_bytes_parse64 (b : List Byte) (h : b.length = 8) :
    parse_double_little b < 2 ^ 64 ∧ le_bytes 8 (parse_double_little b) = b := by
  obtain ⟨b0, b1, b2, b3, b4, b5, b6, b7, rfl⟩ := list_length_eight b h
  rw [parse_double_little_eq]
  simp only [le_bytes, peek, List.getD_cons_zero, List.getD_cons_succ]
  have h0 := b0.isLt; have h1 := b1.isLt; have h2 := b2.isLt; have h3 := b3.isLt
  have h4 := b4.isLt; have h5 := b5.isLt; have h6 := b6.isLt; have h7 := b7.isLt
  refine ⟨by omega, ?_⟩
  congr 1; · exact byte_eq_ofNat _ _ (by omega)
  congr 1; · exact byte_eq_ofNat _ _ (by omega)
  congr 1; · exact byte_eq_ofNat _ _ (by omega)
  congr 1; · exact byte_eq_ofNat _ _ (by omega)
  congr 1; · exact byte_eq_ofNat _ _ (by omega)
  congr 1; · exact byte_eq_ofNat _ _ (by omega)
  congr 1; · exact byte_eq_ofNat _ _ (by omega)
  congr 1; exact byte_eq_ofNat _ _ (by omega)

theorem be_bytes_length (n x : Nat) : (be_bytes n x).length = n := by
  induction n with
  | zero => rfl
  | succ n ih => simp [be_bytes, ih]

theorem le_bytes_length (n x : Nat) : (le_bytes n x).length = n := by
  induction n generalizing x with
  | zero => rfl
  | succ n ih => simp [le_bytes, ih]

/-- C5: round trip on bit patterns.  Every 32-bit word `x` is what `parse_float_big`
gives on its 4-byte big-endian serialisation and what `parse_float_little` gives on its
little-endian serialisation, and every 64-bit word `y` likewise with the double
decoders, so no bit pattern is rejected or altered.  Conversely every 4-byte buffer `b`
and 8-byte buffer `d` decodes to a word in range whose serialisation is the buffer
again, so each decoder is a bijection between `w`-byte buffers and `8*w`-bit words. -/
theorem decoders_round_trip (x y : Nat) (b d : List Byte) (hx : x < 2 ^ 32)
    (hy : y < 2 ^ 64) (hb : b.length = 4) (hd : d.length = 8) :
    ((be_bytes 4 x).length = 4 ∧ parse_float_big (be_bytes 4 x) = x) ∧
    ((le_bytes 4 x).length = 4 ∧ parse_float_little (le_bytes 4 x) = x) ∧
    ((be_bytes 8 y).length = 8 ∧ parse_double_big (be_bytes 8 y) = y) ∧
    ((le_bytes 8 y).length = 8 ∧ parse_double_little (le_bytes 8 y) = y) ∧
    (parse_float_big b < 2 ^ 32 ∧ be_bytes 4 (parse_float_big b) = b) ∧
    (parse_float_little b < 2 ^ 32 ∧ le_bytes 4 (parse_float_little b) = b) ∧
    (parse_double_big d < 2 ^ 64 ∧ be_bytes 8 (parse_double_big d) = d) ∧
    (parse_double_little d < 2 ^ 64 ∧ le_bytes 8 (parse_double_little d) = d) :=
  ⟨⟨be_bytes_length 4 x, parse_be_bytes32 x hx⟩, ⟨le_bytes_length 4 x, parse_le_bytes32 x hx⟩,
    ⟨be_bytes_length 8 y, parse_be_bytes64 y hy⟩, ⟨le_bytes_length 8 y, parse_le_bytes64 y hy⟩,
    be_bytes_parse32 b hb, le_bytes_parse32 b hb, be_bytes_parse64 d hd,
    le_bytes_parse64 d hd⟩

/-- Witness of C5 on a NaN pattern, on the pattern of infinity and on two buffers. -/
theorem decoders_round_trip_witness :
    (0x7fc00001 < 2 ^ 32 ∧ 0x7ff0000000000000 < 2 ^ 64 ∧
      ([0, 0, 0x80, 0x3f] : List Byte).length = 4 ∧
      ([0xff, 0xf8, 0, 0, 0, 0, 0, 1] : List Byte).length = 8) ∧
    parse_float_big (be_bytes 4 0x7fc00001) = 0x7fc00001 ∧
    parse_double_little (le_bytes 8 0x7ff0000000000000) = 0x7ff0000000000000 ∧
    be_bytes 4 (parse_float_big [0, 0, 0x80, 0x3f]) = [0, 0, 0x80, 0x3f] ∧
    le_bytes 8 (parse_double_little [0xff, 0xf8, 0, 0, 0, 0, 0, 1])
      = [0xff, 0xf8, 0, 0, 0, 0, 0, 1] :=
  have h := decoders_round_trip 0x7fc00001 0x7ff0000000000000 [0, 0, 0x80, 0x3f]
    [0xff, 0xf8, 0, 0, 0, 0, 0, 1] (by decide) (by decide) (by decide) (by decide)
  ⟨⟨by decide, by decide, by decide, by decide⟩, h.1.2, h.2.2.2.1.2, h.2.2.2.2.1.2,
    h.2.2.2.2.2.2.2.2⟩

/-! ## The loops over the records -/

theorem sz_of_lt (x : Nat) (h : x < 2 ^ 64) : sz x = x := Nat.mod_eq_of_lt h

theorem store_eq_set (data : List DATA) (n k : Nat) (v : Coord) (hn : n < data.length) :
    store data n k v = data.set n ⟨(data[n]).x.set k v⟩ := by
  simp [store, List.getElem?_eq_getElem hn]

theorem store_three (data : List DATA) (n : Nat) (v0 v1 v2 : Coord) (hn : n < data.length)
    (hx : ∀ d ∈ data, d.x.length = 3) :
    store (store (store data n 0 v0) n 1 v1) n 2 v2 = data.set n ⟨[v0, v1, v2]⟩ := by
  have hd : (data[n]).x.length = 3 := hx _ (List.getElem_mem _)
  obtain ⟨a, b, c, habc⟩ : ∃ a b c, (data[n]).x = [a, b, c] := by
    match hxs : (data[n]).x, hd with
    | [a, b, c], _ => exact ⟨a, b, c, rfl⟩
  rw [store_eq_set data n 0 v0 hn, store_eq_set _ n 1 v1 (by simpa using hn),
    store_eq_set _ n 2 v2 (by simpa using hn)]
  simp [habc, List.set_set]

theorem records_succ (dec : List Byte → Coord) (w : Nat) (chunk : List Byte) (max c : Nat) :
    records dec w (chunk.drop max) (c + 1)
      = ⟨[dec (chunk.drop (max + 0 * w)), dec (chunk.drop (max + 1 * w)),
          dec (chunk.drop (max + 2 * w))]⟩
        :: records dec w (chunk.drop (max + 3 * w)) c := by
  have h3 : List.range 3 = [0, 1, 2] := rfl
  simp only [records, h3, List.range_succ_eq_map, List.map_cons, List.map_map, List.map_nil,
    List.drop_drop]
  refine congrArg₂ _ ?_ ?_
  · simp
  · refine List.map_congr_left fun r _ => ?_
    simp only [Function.comp, Nat.succ_eq_add_one, DATA.mk.injEq, List.cons.injEq, and_true]
    refine ⟨?_, ?_, ?_⟩ <;> congr 2 <;> ring

theorem take_set_self (data : List DATA) (n : Nat) (d : DATA) :
    (data.set n d).take n = data.take n :=
  List.ext_getElem? fun i => by
    rw [List.getElem?_take, List.getElem?_take]
    split
    · next h => rw [List.getElem?_set_ne (by omega)]
    · rfl

theorem splice_set (data : List DATA) (n c : Nat) (d : DATA) (recs : List DATA)
    (hn : n < data.length) :
    (data.set n d).take (n + 1) ++ recs ++ (data.set n d).drop (n + 1 + c)
      = data.take n ++ d :: recs ++ data.drop (n + (c + 1)) := by
  rw [List.drop_set_of_lt _ _ (by omega : n < n + 1 + c), List.take_succ, take_set_self,
    List.getElem?_set_self hn]
  have : n + 1 + c = n + (c + 1) := by omega
  simp [this]

theorem records_length (dec : List Byte → Coord) (w : Nat) (file : List Byte) (c : Nat) :
    (records dec w file c).length = c := by
  simp [records]

theorem records_x_length (dec : List Byte → Coord) (w : Nat) (file : List Byte) (c : Nat) :
    ∀ d ∈ records dec w file c, d.x.length = 3 := by
  intro d hd
  simp only [records, List.mem_map] at hd
  obtain ⟨r, _, rfl⟩ := hd
  simp

/-- A loop over `c` records overwrites the `c` records from the cursor on with the
records decoded from the chunk, and advances the cursor by `c`. -/
theorem decode_eq (parse : List Byte → Coord) (w : Nat) (chunk : List Byte) :
    ∀ (c : Nat) (data : List DATA) (max n : Nat),
      (∀ d ∈ data, d.x.length = 3) → n + c ≤ data.length → data.length < 2 ^ 64 →
      max + c * (3 * w) < 2 ^ 64 →
      decode parse w (3 * w) chunk c data max n
        = (data.take n ++ records parse w (chunk.drop max) c ++ data.drop (n + c), n + c) := by
  intro c
  induction c with
  | zero =>
    intro data max n _ _ _ _
    simp [decode, records]
  | succ c ih =>
    intro data max n hx hn hlen hmax
    have hn1 : n < data.length := by omega
    rw [decode, store_three data n _ _ _ hn1 hx, sz_of_lt (n + 1) (by omega),
      sz_of_lt (max + 3 * w) (by nlinarith)]
    rw [ih (data.set n _) (max + 3 * w) (n + 1)]
    · rw [records_succ, splice_set data n c _ _ hn1]
      simp only [Prod.mk.injEq, true_and]
      omega
    · intro d hd
      rcases List.mem_or_eq_of_mem_set hd with h | h
      · exact hx d h
      · rw [h]; rfl
    · simp only [List.length_set]; omega
    · simpa using hlen
    · nlinarith

theorem peek_drop (l : List Byte) (off i : Nat) : peek (l.drop off) i = peek l (off + i) := by
  simp [peek, List.getElem?_drop]

theorem peek_take_append (fp rest : List Byte) (size j : Nat) (hj : j < size)
    (hs : size ≤ fp.length) : peek (fp.take size ++ rest) j = peek fp j := by
  have h1 : j < (fp.take size).length := by simp; omega
  simp [peek, List.getElem?_append_left h1, List.getElem?_take_of_lt hj]

/-- A decoder of width 4 or 8 reads only the `w` bytes it points at. -/
theorem decoder_congr (big : Bool) (w : Nat) (hw : w = 4 ∨ w = 8) (l1 l2 : List Byte)
    (h : ∀ i, i < w → peek l1 i = peek l2 i) : decoder big w l1 = decoder big w l2 := by
  rcases hw with rfl | rfl
  · simp only [decoder, if_true, parse_float_big_eq, parse_float_little_eq,
      h 0 (by omega), h 1 (by omega), h 2 (by omega), h 3 (by omega)]
  · have h84 : ¬ (8 = 4) := by decide
    simp only [decoder, if_neg h84, parse_double_big_eq, parse_double_little_eq,
      h 0 (by omega), h 1 (by omega), h 2 (by omega), h 3 (by omega), h 4 (by omega),
      h 5 (by omega), h 6 (by omega), h 7 (by omega)]

/-- The records decoded from the chunk after a successful `fread` are those of the
file. -/
theorem records_chunk (big : Bool) (w : Nat) (hw : w = 4 ∨ w = 8) (fp rest : List Byte)
    (c size : Nat) (hc : c * 3 * w ≤ size) (hs : size ≤ fp.length) :
    records (decoder big w) w (fp.take size ++ rest) c = records (decoder big w) w fp c := by
  simp only [records]
  refine List.map_congr_left fun r hr => ?_
  have hr : r < c := List.mem_range.mp hr
  simp only [DATA.mk.injEq]
  refine List.map_congr_left fun k hk => ?_
  have hk : k < 3 := List.mem_range.mp hk
  refine decoder_congr big w hw _ _ fun i hi => ?_
  rw [peek_drop, peek_drop]
  refine peek_take_append fp rest size _ ?_ hs
  have : (r + 1) * (3 * w) ≤ c * (3 * w) := Nat.mul_le_mul_right _ hr
  have : k * w ≤ 2 * w := Nat.mul_le_mul_right _ (by omega)
  nlinarith

theorem decode_file_eq (value0 : List Byte) (byte : Nat) (hb : byte = 4 ∨ byte = 8)
    (chunk : List Byte) (fsize : Nat) (data : List DATA) (n : Nat)
    (hx : ∀ d ∈ data, d.x.length = 3) (hn : n + fsize ≤ data.length)
    (hlen : data.length < 2 ^ 64) (hmax : fsize * (3 * byte) < 2 ^ 64) :
    decode_file value0 byte chunk fsize data n
      = (data.take n ++ records (decoder (decide (chr value0 0 = ch '>')) byte) byte chunk fsize
          ++ data.drop (n + fsize), n + fsize) := by
  have key : ∀ (parse : List Byte → Coord) (w : Nat),
      fsize * (3 * w) < 2 ^ 64 →
      decode parse w (3 * w) chunk fsize data 0 n
        = (data.take n ++ records parse w chunk fsize ++ data.drop (n + fsize), n + fsize) := by
    intro parse w h
    have := decode_eq parse w chunk fsize data 0 n hx hn hlen (by omega)
    simpa using this
  unfold decode_file
  rcases hb with rfl | rfl
  · by_cases hg : chr value0 0 = ch '>'
    · simp only [hg, if_true, decide_True]
      exact key _ 4 hmax
    · simp only [hg, if_false, if_true, decide_False]
      exact key _ 4 hmax
  · by_cases hg : chr value0 0 = ch '>'
    · simp only [hg, if_true, decide_True]
      exact key _ 8 hmax
    · simp only [hg, if_false, decide_False]
      exact key _ 8 hmax

/-! ## The loop over the data files -/

theorem fread_one (chunk : List Byte) (size : Nat) (fp : List Byte)
    (h : (fread chunk size fp).2 = 1) :
    size ≠ 0 ∧ size ≤ fp.length ∧ (fread chunk size fp).1 = fp.take size ++ chunk.drop size := by
  unfold fread at h ⊢
  by_cases h0 : size = 0
  · simp [h0] at h
  · by_cases h1 : size ≤ fp.length
    · simp [h0, h1]
    · simp [h0, h1] at h

/-- A request of a positive number of bytes succeeds exactly when the file holds them. -/
theorem fread_pos_iff (chunk fp : List Byte) (size : Nat) (h : 0 < size) :
    (fread chunk size fp).2 = 1 ↔ size ≤ fp.length := by
  unfold fread
  rw [if_neg (by omega)]
  by_cases hs : size ≤ fp.length
  · simp [hs]
  · simp [hs]

theorem splice_take (A R B : List DATA) (n c : Nat) (hA : A.length = n) (hR : R.length = c) :
    (A ++ R ++ B).take (n + c) = A ++ R := by
  apply List.take_left'
  simp [hA, hR]

theorem splice_drop (A R B : List DATA) (n c t : Nat) (hA : A.length = n)
    (hR : R.length = c) : (A ++ R ++ B).drop (n + c + t) = B.drop t := by
  have : n + c + t = (A ++ R).length + t := by simp [hA, hR]
  rw [this, List.drop_append]

theorem counts_cons (name : List Byte) (fsize : Nat) (t : List (List Byte × Nat)) :
    (counts ((name, fsize) :: t)).sum = fsize + (counts t).sum := by
  simp [counts]

/-- When the loop over the data files ends without an error, every file was opened and
held the bytes requested (a positive number), the records from the cursor on are those
of the files in the order of the table, and the cursor has advanced by their number. -/
theorem read_data_ok (env : Env) (verb : Int) (path value0 : List Byte) (byte : Nat)
    (Nf : Int) (hb : byte = 4 ∨ byte = 8) :
    ∀ (table : List (List Byte × Nat)) (i : Nat) (st : Loop),
      (∀ d ∈ st.data, d.x.length = 3) → st.n + (counts table).sum ≤ st.data.length →
      st.data.length < 2 ^ 64 → (counts table).sum * (3 * byte) < 2 ^ 64 →
      (read_data env verb path value0 byte Nf table i st).ret = .ok →
      (read_data env verb path value0 byte Nf table i st).data
          = st.data.take st.n
            ++ table.flatMap (shard_records env path (decide (chr value0 0 = ch '>')) byte)
            ++ st.data.drop (st.n + (counts table).sum) ∧
        (read_data env verb path value0 byte Nf table i st).n = st.n + (counts table).sum ∧
        ∀ e ∈ table, ∃ file, env.fopen (path ++ e.1) = some file ∧
          e.2 * 3 * byte ≤ file.length ∧ 0 < e.2 := by
  intro table
  induction table with
  | nil =>
    intro i st _ _ _ _ _
    simp [read_data, counts]
  | cons e t ih =>
    obtain ⟨name, fsize⟩ := e
    intro i st hx hn hlen hsum hok
    rw [counts_cons] at hn hsum ⊢
    have hsum2 := hsum
    rw [Nat.add_mul] at hsum2
    have hfs : fsize * (3 * byte) < 2 ^ 64 := by omega
    have hts : (counts t).sum * (3 * byte) < 2 ^ 64 := by omega
    rw [read_data] at hok ⊢
    cases hf : env.fopen (path ++ name) with
    | none => simp [hf] at hok
    | some fp =>
      simp only [hf] at hok ⊢
      have hsz : sz (fsize * 3 * byte) = fsize * 3 * byte :=
        sz_of_lt _ (by rw [Nat.mul_assoc]; exact hfs)
      rw [hsz] at hok ⊢
      by_cases hr : (fread st.chunk (fsize * 3 * byte) fp).2 = 1
      · simp only [hr, ne_eq, not_true_eq_false, if_false] at hok ⊢
        obtain ⟨h0, hle, hchunk⟩ := fread_one _ _ _ hr
        have hd := decode_file_eq value0 byte hb (fread st.chunk (fsize * 3 * byte) fp).1
          fsize st.data st.n hx (by omega) hlen hfs
        rw [hchunk, records_chunk _ byte hb fp _ fsize _ (Nat.le_refl _) hle] at hd
        rw [hchunk] at hok ⊢
        rw [hd] at hok ⊢
        have hA : (st.data.take st.n).length = st.n := by
          rw [List.length_take]; omega
        have hR := records_length (decoder (decide (chr value0 0 = ch '>')) byte) byte fp fsize
        have hrec : shard_records env path (decide (chr value0 0 = ch '>')) byte (name, fsize)
            = records (decoder (decide (chr value0 0 = ch '>')) byte) byte fp fsize := by
          simp [shard_records, hf]
        have hlen1 : (st.data.take st.n
            ++ records (decoder (decide (chr value0 0 = ch '>')) byte) byte fp fsize
            ++ st.data.drop (st.n + fsize)).length = st.data.length := by
          simp only [List.length_append, hA, hR, List.length_drop]; omega
        have ih1 := ih (i + 1) ⟨.ok, fp.take (fsize * 3 * byte) ++ st.chunk.drop (fsize * 3 * byte),
          _, st.n + fsize, _⟩ (by
            intro d hd
            simp only [List.mem_append] at hd
            rcases hd with (hd | hd) | hd
            · exact hx d (List.mem_of_mem_take hd)
            · exact records_x_length _ _ _ _ d hd
            · exact hx d (List.mem_of_mem_drop hd))
          (by simp only [hlen1]; omega) (by simp only [hlen1]; exact hlen) hts hok
        obtain ⟨e1, e2, e3⟩ := ih1
        simp only at e1 e2
        refine ⟨?_, ?_, ?_⟩
        · rw [e1, splice_take _ _ _ _ _ hA hR, splice_drop _ _ _ _ _ _ hA hR,
            List.flatMap_cons, hrec, List.drop_drop]
          simp only [List.append_assoc, Nat.add_assoc]
        · rw [e2]; omega
        · intro e he
          rcases List.mem_cons.mp he with rfl | he
          · refine ⟨fp, hf, hle, ?_⟩
            rcases Nat.eq_zero_or_pos fsize with hz | hz
            · simp [hz] at h0
            · exact hz
          · exact e3 e he
      · simp [hr] at hok

/-! ## The header -/

/-- What an accepted header satisfies: the file opens, three lines are read, the
dimension check and the count check pass, and the first three characters of the format
tag are a byte-order marker, `f` and a width digit. -/
theorem read_head_ok (env : Env) (fname : List Byte) (h : Head)
    (hh : read_head env fname = .ok h) :
    ∃ content value, env.fopen fname = some content ∧
      read_values 3 content = some (value, h.fp) ∧
      h.value0 = value.getD 0 [] ∧
      (scan_d (value.getD 1 [])).getD 3 = 3 ∧
      h.Nf = (scan_d (value.getD 2 [])).getD env.Nf ∧ 0 < h.Nf ∧
      (chr h.value0 0 = ch '<' ∨ chr h.value0 0 = ch '>') ∧ chr h.value0 1 = ch 'f' ∧
      ((chr h.value0 2 = ch '4' ∧ h.byte = 4) ∨ (chr h.value0 2 = ch '8' ∧ h.byte = 8)) := by
  unfold read_head at hh
  cases hf : env.fopen fname with
  | none => simp [hf] at hh
  | some content =>
    simp only [hf] at hh
    cases hv : read_values 3 content with
    | none => simp [hv] at hh
    | some vfp =>
      obtain ⟨value, fp⟩ := vfp
      simp only [hv] at hh
      have e1 : (match scan_d (value.getD 1 []) with
          | some v => v
          | none => (3 : Int)) = (scan_d (value.getD 1 [])).getD 3 := by
        cases scan_d (value.getD 1 []) <;> rfl
      have e2 : (match scan_d (value.getD 2 []) with
          | some v => v
          | none => env.Nf) = (scan_d (value.getD 2 [])).getD env.Nf := by
        cases scan_d (value.getD 2 []) <;> rfl
      rw [e1, e2] at hh
      split at hh
      · cases hh
      · rename_i hi
        split at hh
        · cases hh
        · rename_i hNf
          split at hh
          · cases hh
          · rename_i htag
            have hres : h = ⟨value.getD 0 [], (scan_d (value.getD 2 [])).getD env.Nf,
                (chr (value.getD 0 []) 2).val - 48, fp⟩ := by
              injection hh with hh
              exact hh.symm
            subst hres
            refine ⟨content, value, rfl, hv, rfl, by simpa using hi, rfl, by simpa using hNf,
              ?_, ?_, ?_⟩
            · by_contra hc
              exact htag (Or.inl (not_or.mp hc))
            · by_contra hc
              exact htag (Or.inr (Or.inl hc))
            · by_cases h4 : chr (value.getD 0 []) 2 = ch '4'
              · exact Or.inl ⟨h4, by rw [h4]; rfl⟩
              · by_cases h8 : chr (value.getD 0 []) 2 = ch '8'
                · exact Or.inr ⟨h8, by rw [h8]; rfl⟩
                · exact absurd (Or.inr (Or.inr ⟨h4, h8⟩)) htag

theorem read_head_byte (env : Env) (fname : List Byte) (h : Head)
    (hh : read_head env fname = .ok h) : h.byte = 4 ∨ h.byte = 8 := by
  obtain ⟨_, _, _, _, _, _, _, _, _, _, hb⟩ := read_head_ok env fname h hh
  rcases hb with hb | hb
  · exact Or.inl hb.2
  · exact Or.inr hb.2

theorem sz_sz_add (a b : Nat) : sz (sz a + b) = sz (a + b) := by
  simp [sz, Nat.add_mod]

theorem sz_lt (a : Nat) : sz a < 2 ^ 64 := Nat.mod_lt _ (by decide)

/-- The loop over the lines of the data files reads as many entries as asked and adds
their counts to `*num` modulo `2 ^ 64`. -/
theorem read_table_ok :
    ∀ (k : Nat) (fp : List Byte) (num max : Nat) (t : List (List Byte × Nat))
      (num1 max1 : Nat), num < 2 ^ 64 → read_table k fp num max = .ok (t, num1, max1) →
      t.length = k ∧ num1 = sz (num + (counts t).sum) := by
  intro k
  induction k with
  | zero =>
    intro fp num max t num1 max1 hnum h
    simp only [read_table, Except.ok.injEq, Prod.mk.injEq] at h
    obtain ⟨rfl, rfl, rfl⟩ := h
    simp [counts, sz_of_lt _ hnum]
  | succ k ih =>
    intro fp num max t num1 max1 hnum h
    rw [read_table] at h
    split at h
    · cases h
    · split at h
      · cases h
      · split at h
        · cases h
        · rename_i fsize _
          split at h
          · cases h
          · rename_i t2 num2 max2 hrec
            simp only [Except.ok.injEq, Prod.mk.injEq] at h
            obtain ⟨rfl, rfl, rfl⟩ := h
            obtain ⟨hl, hn⟩ := ih _ _ _ _ _ _ (sz_lt _) hrec
            refine ⟨by simp [hl], ?_⟩
            rw [hn, counts_cons, sz_sz_add, Nat.add_assoc]

/-! ## The whole call -/

theorem finish_ok (verb Nf : Int) (num : Nat) (st : Loop)
    (h : (finish verb Nf num st).ret = .ok) : st.ret = .ok := by
  unfold finish at h
  by_cases hr : st.ret = .ok
  · exact hr
  · rw [if_pos hr] at h; exact h

theorem finish_num (verb Nf : Int) (num : Nat) (st : Loop) :
    (finish verb Nf num st).num = num := by
  unfold finish; split <;> rfl

theorem finish_data (verb Nf : Int) (num : Nat) (st : Loop) :
    (finish verb Nf num st).data = some st.data := by
  unfold finish; split <;> rfl

/-- A successful call on a catalog whose payload is below `2 ^ 64` bytes: `*num` is the
sum of the counts, `*data` holds the records of the files in the order of the table,
and every file was opened and held the bytes requested. -/
theorem read_bigfile_ok (env : Env) (fname : List Byte) (num0 : Nat) (verb : Int)
    (h : Head) (table : List (List Byte × Nat)) (num max : Nat)
    (hh : read_head env fname = .ok h)
    (ht : read_table h.Nf.toNat h.fp 0 0 = .ok (table, num, max))
    (hsz : (counts table).sum * 3 * h.byte < 2 ^ 64)
    (hok : (read_bigfile env fname num0 verb).ret = .ok) :
    (read_bigfile env fname num0 verb).num = (counts table).sum ∧
    (read_bigfile env fname num0 verb).data
      = some (table.flatMap
          (shard_records env (path_of fname) (decide (chr h.value0 0 = ch '>')) h.byte)) ∧
    ∀ e ∈ table, ∃ file, env.fopen (path_of fname ++ e.1) = some file ∧
      e.2 * 3 * h.byte ≤ file.length ∧ 0 < e.2 := by
  have hb := read_head_byte env fname h hh
  have hsum : (counts table).sum < 2 ^ 64 := by
    rcases hb with hb | hb <;> rw [hb] at hsz <;> omega
  have hnum : num = (counts table).sum := by
    have := (read_table_ok _ _ _ _ _ _ _ (by decide) ht).2
    rw [this, Nat.zero_add, sz_of_lt _ hsum]
  subst hnum
  unfold read_bigfile at hok ⊢
  simp only [hh, ht] at hok ⊢
  by_cases h1 : (counts table).sum ≤ 0
  · rw [if_pos h1] at hok; cases hok
  · rw [if_neg h1] at hok ⊢
    by_cases h2 : (!check_files env (path_of fname) table) = true
    · rw [if_pos h2] at hok; cases hok
    · rw [if_neg h2] at hok ⊢
      have h3 := finish_ok _ _ _ _ hok
      have key := read_data_ok env verb (path_of fname) h.value0 h.byte h.Nf hb table 0 _
        (by
          intro d hd
          rw [List.eq_of_mem_replicate hd]
          rfl)
        (by simp [start]) (by simpa [start] using hsum) (by rw [← Nat.mul_assoc]; exact hsz) h3
      obtain ⟨e1, e2, e3⟩ := key
      refine ⟨finish_num _ _ _ _, ?_, e3⟩
      rw [finish_data, e1]
      simp [start]

theorem shard_records_length (env : Env) (path : List Byte) (big : Bool) (w : Nat)
    (e : List Byte × Nat) : (shard_records env path big w e).length = e.2 :=
  records_length _ _ _ _

theorem flatMap_shard_length (env : Env) (path : List Byte) (big : Bool) (w : Nat)
    (table : List (List Byte × Nat)) :
    (table.flatMap (shard_records env path big w)).length = (counts table).sum := by
  induction table with
  | nil => rfl
  | cons e t ih =>
    obtain ⟨name, fsize⟩ := e
    rw [List.flatMap_cons, List.length_append, ih, counts_cons, shard_records_length]

/-- Record `r` of file `i` stands in the output at the sum of the counts of the files
before it, plus `r`. -/
theorem flatMap_shard_index (env : Env) (path : List Byte) (big : Bool) (w : Nat) :
    ∀ (table : List (List Byte × Nat)) (i : Nat) (hi : i < table.length) (r : Nat),
      r < table[i].2 →
      (table.flatMap (shard_records env path big w))[(counts (table.take i)).sum + r]?
        = (shard_records env path big w table[i])[r]? := by
  intro table
  induction table with
  | nil => intro i hi; simp at hi
  | cons e t ih =>
    intro i hi r hr
    cases i with
    | zero =>
      simp only [List.take_zero, counts, List.map_nil, List.sum_nil, Nat.zero_add,
        List.flatMap_cons, List.getElem_cons_zero] at hr ⊢
      exact List.getElem?_append_left (by rw [shard_records_length]; exact hr)
    | succ i =>
      have hi2 : i < t.length := by simpa using hi
      simp only [List.getElem_cons_succ] at hr ⊢
      obtain ⟨name, fsize⟩ := e
      rw [List.take_succ_cons, counts_cons, List.flatMap_cons, Nat.add_assoc,
        List.getElem?_append_right (by rw [shard_records_length]; omega),
        shard_records_length]
      have : fsize + ((counts (List.take i t)).sum + r) - fsize
          = (counts (List.take i t)).sum + r := by omega
      simp only [this]
      exact ih i hi2 r hr

/-- The loop over the data files ends without an error when every file opens and
holds the bytes requested, a positive number. -/
theorem read_data_succeeds (env : Env) (verb : Int) (path value0 : List Byte) (byte : Nat)
    (Nf : Int) :
    ∀ (table : List (List Byte × Nat)) (i : Nat) (st : Loop), st.ret = .ok →
      (counts table).sum * (3 * byte) < 2 ^ 64 →
      (∀ e ∈ table, ∃ file, env.fopen (path ++ e.1) = some file ∧
        e.2 * 3 * byte ≤ file.length ∧ 0 < e.2 * 3 * byte) →
      (read_data env verb path value0 byte Nf table i st).ret = .ok := by
  intro table
  induction table with
  | nil => intro i st hst _ _; exact hst
  | cons e t ih =>
    obtain ⟨name, fsize⟩ := e
    intro i st _ hsum hfiles
    rw [counts_cons, Nat.add_mul] at hsum
    obtain ⟨file, hf, hlen, hpos⟩ := hfiles (name, fsize) (List.mem_cons_self _ _)
    simp only at hf hlen hpos
    have hsz : sz (fsize * 3 * byte) = fsize * 3 * byte :=
      sz_of_lt _ (by rw [Nat.mul_assoc]; omega)
    have hr : (fread st.chunk (fsize * 3 * byte) file).2 = 1 :=
      (fread_pos_iff _ _ _ hpos).2 hlen
    rw [read_data]
    simp only [hf, hsz, hr, ne_eq, not_true_eq_false, if_false]
    exact ih _ _ rfl (by omega) (fun e he => hfiles e (List.mem_cons_of_mem _ he))

/-- An accepted header whose data files are all named, readable and long enough for
their positive counts is loaded: the call returns 0. -/
theorem read_bigfile_succeeds (env : Env) (fname : List Byte) (num0 : Nat) (verb : Int)
    (h : Head) (table : List (List Byte × Nat)) (num max : Nat)
    (hh : read_head env fname = .ok h)
    (ht : read_table h.Nf.toNat h.fp 0 0 = .ok (table, num, max))
    (hsz : (counts table).sum * 3 * h.byte < 2 ^ 64)
    (hcheck : check_files env (path_of fname) table = true)
    (hfiles : ∀ e ∈ table, ∃ file, env.fopen (path_of fname ++ e.1) = some file ∧
      e.2 * 3 * h.byte ≤ file.length ∧ 0 < e.2) :
    (read_bigfile env fname num0 verb).ret = .ok := by
  have hb := read_head_byte env fname h hh
  have hbpos : 0 < h.byte := by rcases hb with hb | hb <;> omega
  have hsum : (counts table).sum < 2 ^ 64 := by
    rcases hb with hb | hb <;> rw [hb] at hsz <;> omega
  obtain ⟨hlen, hnum⟩ := read_table_ok _ _ _ _ _ _ _ (by decide) ht
  rw [Nat.zero_add, sz_of_lt _ hsum] at hnum
  subst hnum
  obtain ⟨_, _, _, _, _, _, _, hNf, _⟩ := read_head_ok env fname h hh
  have hpos : 0 < (counts table).sum := by
    cases table with
    | nil => simp at hlen; omega
    | cons e t =>
      obtain ⟨_, _, _, he⟩ := hfiles e (List.mem_cons_self _ _)
      obtain ⟨name, fsize⟩ := e
      rw [counts_cons]
      simp only at he
      omega
  have hdata := read_data_succeeds env verb (path_of fname) h.value0 h.byte h.Nf table 0
    (start verb h (counts table).sum max (if verb ≠ 0 then [Printed.header fname] else []))
    rfl (by rw [← Nat.mul_assoc]; exact hsz)
    (fun e he => by
      obtain ⟨file, hf, hl, hp⟩ := hfiles e he
      exact ⟨file, hf, hl, Nat.mul_pos (Nat.mul_pos hp (by decide)) hbpos⟩)
  unfold read_bigfile
  simp only [hh, ht]
  rw [if_neg (by omega), if_neg (by simp [hcheck])]
  unfold finish
  rw [if_neg (by rw [hdata]; exact fun hne => hne rfl)]

/-- C1: output ordering and decode offsets.  For a header that `read_bigfile` accepts,
with format tag `value0`, element width `byte` (4 or 8) and the table of data files read
from it, whose payload is below `2 ^ 64` bytes: when the call returns 0, file `i` of the
table was opened and holds at least `c_i * 3 * byte` bytes, and the output record at
index `(c_0 + ... + c_(i-1)) + r`, for `r < c_i`, has as component `k < 3` the value
that the decoder of the header's byte order and width gives on the bytes of file `i`
from offset `r * 3 * byte + k * byte`. -/
theorem output_order_and_offsets (env : Env) (fname : List Byte) (num0 : Nat) (verb : Int)
    (h : Head) (table : List (List Byte × Nat)) (num max : Nat)
    (hh : read_head env fname = .ok h)
    (ht : read_table h.Nf.toNat h.fp 0 0 = .ok (table, num, max))
    (hsz : (counts table).sum * 3 * h.byte < 2 ^ 64)
    (hok : (read_bigfile env fname num0 verb).ret = .ok)
    (i r k : Nat) (hi : i < table.length) (hr : r < table[i].2) (hk : k < 3) :
    (h.byte = 4 ∨ h.byte = 8) ∧
    ∃ file data d, env.fopen (path_of fname ++ table[i].1) = some file ∧
      table[i].2 * 3 * h.byte ≤ file.length ∧
      (read_bigfile env fname num0 verb).data = some data ∧
      data.get? ((counts (table.take i)).sum + r) = some d ∧
      d.x.get? k = some (decoder (decide (chr h.value0 0 = ch '>')) h.byte
        (file.drop (r * 3 * h.byte + k * h.byte))) := by
  obtain ⟨_, hdata, hfiles⟩ := read_bigfile_ok env fname num0 verb h table num max hh ht hsz hok
  obtain ⟨file, hfile, hlen, _⟩ := hfiles table[i] (List.getElem_mem _)
  refine ⟨read_head_byte env fname h hh, file, _,
    ⟨(List.range 3).map fun k => decoder (decide (chr h.value0 0 = ch '>')) h.byte
      (file.drop (r * 3 * h.byte + k * h.byte))⟩, hfile, hlen, hdata, ?_, ?_⟩
  · rw [List.get?_eq_getElem?, flatMap_shard_index _ _ _ _ table i hi r hr]
    simp only [shard_records, hfile, Option.getD_some, records, List.getElem?_map,
      List.getElem?_range hr, Option.map_some']
  · simp only [List.get?_eq_getElem?, List.getElem?_map, List.getElem?_range hk,
      Option.map_some']

/-- Witness of C1, the scenario of the claim: header `<f4`, dimension 3, one file
`a.dat` of 2 records holding (1, 2, 3), (4, 5, 6).  The call yields exactly these two
records, and the theorem is applied at file 0, record 1, component 2. -/
theorem output_order_and_offsets_witness :
    (read_head sample_env (str "cat/header")
        = .ok ⟨str "<f4", 1, 4, str "a.dat: 2" ++ [10]⟩ ∧
      read_table 1 (str "a.dat: 2" ++ [10]) 0 0 = .ok ([(str "a.dat", 2)], 2, 2) ∧
      (counts [(str "a.dat", 2)]).sum * 3 * 4 < 2 ^ 64 ∧
      (read_bigfile sample_env (str "cat/header") 0 0).ret = .ok) ∧
    ((4 = 4 ∨ 4 = 8) ∧
      ∃ file data d, sample_env.fopen (str "cat/a.dat") = some file ∧
        2 * 3 * 4 ≤ file.length ∧
        (read_bigfile sample_env (str "cat/header") 0 0).data = some data ∧
        data.get? (0 + 1) = some d ∧
        d.x.get? 2 = some (decoder false 4 (file.drop (1 * 3 * 4 + 2 * 4)))) ∧
    read_bigfile sample_env (str "cat/header") 0 0 =
      ⟨.ok, 2, some [⟨[.ofFloat 0x3f800000, .ofFloat 0x40000000, .ofFloat 0x40400000]⟩,
        ⟨[.ofFloat 0x40800000, .ofFloat 0x40a00000, .ofFloat 0x40c00000]⟩], []⟩ :=
  ⟨⟨by rfl, by rfl, by decide, by decide⟩,
    output_order_and_offsets sample_env (str "cat/header") 0 0
      ⟨str "<f4", 1, 4, str "a.dat: 2" ++ [10]⟩ [(str "a.dat", 2)] 2 2 (by rfl) (by rfl)
      (by decide) (by decide) 0 1 2 (by decide) (by decide) (by decide),
    by decide⟩

/-- C2: for a header that `read_bigfile` accepts, with the table of data files read from
it and a payload below `2 ^ 64` bytes, a call that returns 0 reports through `*num` the
sum of the counts of the table, and the record array it hands out has that length. -/
theorem record_count_is_sum (env : Env) (fname : List Byte) (num0 : Nat) (verb : Int)
    (h : Head) (table : List (List Byte × Nat)) (num max : Nat)
    (hh : read_head env fname = .ok h)
    (ht : read_table h.Nf.toNat h.fp 0 0 = .ok (table, num, max))
    (hsz : (counts table).sum * 3 * h.byte < 2 ^ 64)
    (hok : (read_bigfile env fname num0 verb).ret = .ok) :
    (read_bigfile env fname num0 verb).num = (counts table).sum ∧
    ∃ data, (read_bigfile env fname num0 verb).data = some data ∧
      data.length = (counts table).sum := by
  obtain ⟨hnum, hdata, _⟩ := read_bigfile_ok env fname num0 verb h table num max hh ht hsz hok
  exact ⟨hnum, _, hdata, flatMap_shard_length _ _ _ _ _⟩

/-- Witness of C2 on a catalog of two files with 1 and 2 records. -/
theorem record_count_is_sum_witness :
    (read_head sample2_env (str "pos/header")
        = .ok ⟨str ">f8", 2, 8, str "000000: 1 : 1234" ++ [10] ++ str "000001: 2 : 5678" ++ [10]⟩ ∧
      read_table 2 (str "000000: 1 : 1234" ++ [10] ++ str "000001: 2 : 5678" ++ [10]) 0 0
        = .ok ([(str "000000", 1), (str "000001", 2)], 3, 2) ∧
      (counts [(str "000000", 1), (str "000001", 2)]).sum * 3 * 8 < 2 ^ 64 ∧
      (read_bigfile sample2_env (str "pos/header") 0 1).ret = .ok) ∧
    ((read_bigfile sample2_env (str "pos/header") 0 1).num = 1 + 2 ∧
      ∃ data, (read_bigfile sample2_env (str "pos/header") 0 1).data = some data ∧
        data.length = 1 + 2) :=
  ⟨⟨by rfl, by rfl, by decide, by decide⟩,
    record_count_is_sum sample2_env (str "pos/header") 0 1
      ⟨str ">f8", 2, 8, str "000000: 1 : 1234" ++ [10] ++ str "000001: 2 : 5678" ++ [10]⟩
      [(str "000000", 1), (str "000001", 2)] 3 2 (by rfl) (by rfl) (by decide) (by decide)⟩


/-! ## Premature end of the header -/

theorem fgets_aux_append (k : Nat) (fp : List Byte) :
    (fgets_aux k fp).1 ++ (fgets_aux k fp).2 = fp := by
  induction k generalizing fp with
  | zero => simp [fgets_aux]
  | succ k ih =>
    cases fp with
    | nil => simp [fgets_aux]
    | cons c t =>
      rw [fgets_aux]
      split
      · simp
      · simp [ih t]

theorem fgets_aux_rest_length (k : Nat) (c : Byte) (t : List Byte) :
    (fgets_aux (k + 1) (c :: t)).2.length ≤ t.length := by
  have h := congrArg List.length (fgets_aux_append k t)
  rw [List.length_append] at h
  rw [fgets_aux]
  split
  · simp
  · simp only; omega

theorem fgets_rest_length (fp line rest : List Byte)
    (h : fgets BUF fp = some (line, rest)) : rest.length < fp.length := by
  cases fp with
  | nil => simp [fgets] at h
  | cons c t =>
    simp only [fgets, BUF, Option.some.injEq] at h
    have := fgets_aux_rest_length 510 c t
    rw [show (510 + 1 : Nat) = 512 - 1 from rfl, h] at this
    simp only [List.length_cons] at this ⊢
    omega

/-- More fuel than the file has characters does not change the lines found. -/
theorem lines_aux_fuel : ∀ (fuel : Nat) (fp : List Byte), fp.length ≤ fuel →
    lines_aux fuel fp = header_lines fp := by
  intro fuel
  induction fuel using Nat.strong_induction_on with
  | _ fuel ih =>
    intro fp hle
    cases fp with
    | nil =>
      cases fuel with
      | zero => rfl
      | succ f => simp [lines_aux, header_lines, fgets]
    | cons c t =>
      cases fuel with
      | zero => simp at hle
      | succ f =>
        unfold header_lines
        rw [List.length_cons, lines_aux, lines_aux]
        cases hg : fgets BUF (c :: t) with
        | none => rfl
        | some lr =>
          obtain ⟨line, rest⟩ := lr
          have hlt := fgets_rest_length _ _ _ hg
          simp only [List.length_cons] at hlt hle
          simp only
          rw [ih f (by omega) rest (by omega), ih t.length (by omega) rest (by omega)]

theorem header_lines_fgets (fp line rest : List Byte)
    (h : fgets BUF fp = some (line, rest)) :
    header_lines fp = line :: header_lines rest := by
  have hlt := fgets_rest_length _ _ _ h
  cases hfp : fp.length with
  | zero => omega
  | succ f =>
    unfold header_lines
    rw [hfp, lines_aux, h]
    simp only
    rw [lines_aux_fuel f rest (by omega)]
    rfl

/-- When the first line of a text fits in `k` characters, `fgets` delivers it and leaves
the rest. -/
theorem fgets_aux_text_line : ∀ (k : Nat) (fp l : List Byte) (ls : List (List Byte)),
    text_lines fp = l :: ls → l.length ≤ k →
    (fgets_aux k fp).1 = l ∧ text_lines (fgets_aux k fp).2 = ls := by
  intro k
  induction k with
  | zero =>
    intro fp l ls h hl
    cases fp with
    | nil => simp [text_lines] at h
    | cons c t =>
      rw [text_lines] at h
      split at h
      · simp only [List.cons.injEq] at h
        rw [← h.1] at hl; simp at hl
      · split at h
        · simp only [List.cons.injEq] at h
          rw [← h.1] at hl; simp at hl
        · simp only [List.cons.injEq] at h
          rw [← h.1] at hl; simp at hl
  | succ k ih =>
    intro fp l ls h hl
    cases fp with
    | nil => simp [text_lines] at h
    | cons c t =>
      rw [text_lines] at h
      rw [fgets_aux]
      by_cases hc : c = 10
      · rw [if_pos hc] at h ⊢
        simp only [List.cons.injEq] at h
        exact ⟨h.1, h.2⟩
      · rw [if_neg hc] at h ⊢
        cases ht : text_lines t with
        | nil =>
          rw [ht] at h
          simp only [List.cons.injEq] at h
          have htn : t = [] := by
            cases t with
            | nil => rfl
            | cons d u =>
              rw [text_lines] at ht
              split at ht
              · cases ht
              · split at ht <;> cases ht
          subst htn
          cases k <;> simp [fgets_aux, text_lines, h.1, ← h.2]
        | cons l1 ls1 =>
          rw [ht] at h
          simp only [List.cons.injEq] at h
          obtain ⟨h1, h2⟩ := h
          subst h1 h2
          simp only [List.length_cons] at hl
          obtain ⟨e1, e2⟩ := ih t l1 ls1 ht (by omega)
          simp only [e1, e2, and_self]

/-- In a header whose lines fit in the buffer of `BUF` characters, the lines that
`fgets` delivers are the lines of the text. -/
theorem header_lines_eq_text_lines : ∀ (n : Nat) (fp : List Byte), fp.length ≤ n →
    (∀ l ∈ text_lines fp, l.length ≤ BUF - 1) → header_lines fp = text_lines fp := by
  intro n
  induction n with
  | zero =>
    intro fp hn _
    have : fp = [] := List.length_eq_zero.mp (by omega)
    subst this
    rfl
  | succ n ih =>
    intro fp hn hfit
    cases fp with
    | nil => rfl
    | cons c t =>
      have hne : text_lines (c :: t) ≠ [] := by
        rw [text_lines]
        split
        · simp
        · split <;> simp
      obtain ⟨l, ls, hl⟩ := List.exists_cons_of_ne_nil hne
      have hfit1 : l.length ≤ BUF - 1 := hfit l (by rw [hl]; simp)
      obtain ⟨e1, e2⟩ := fgets_aux_text_line (BUF - 1) (c :: t) l ls hl hfit1
      have hg : fgets BUF (c :: t) = some (l, (fgets_aux (BUF - 1) (c :: t)).2) := by
        rw [fgets, ← e1]
      have hlt := fgets_rest_length _ _ _ hg
      simp only [List.length_cons] at hlt hn
      rw [header_lines_fgets _ _ _ hg, hl,
        ih _ (by omega) (by
          intro l2 hl2
          rw [e2] at hl2
          exact hfit l2 (by rw [hl]; exact List.mem_cons_of_mem _ hl2)), e2]

/-- The loop over the first lines fails when the file has fewer lines than asked; when
it succeeds it has consumed exactly that many. -/
theorem read_values_lines : ∀ (k : Nat) (fp : List Byte),
    ((header_lines fp).length < k → read_values k fp = none) ∧
    ∀ vs rest, read_values k fp = some (vs, rest) →
      (header_lines fp).length = k + (header_lines rest).length := by
  intro k
  induction k with
  | zero =>
    intro fp
    refine ⟨fun h => absurd h (Nat.not_lt_zero _), fun vs rest h => ?_⟩
    simp only [read_values, Option.some.injEq, Prod.mk.injEq] at h
    rw [h.2]; simp
  | succ k ih =>
    intro fp
    rw [read_values]
    cases hg : fgets BUF fp with
    | none => exact ⟨fun _ => rfl, fun vs rest h => by cases h⟩
    | some lr =>
      obtain ⟨line, fp1⟩ := lr
      rw [header_lines_fgets _ _ _ hg]
      simp only [List.length_cons]
      obtain ⟨ih1, ih2⟩ := ih fp1
      refine ⟨fun h => ?_, fun vs rest h => ?_⟩
      · rw [ih1 (by omega)]
      · cases hr : read_values k fp1 with
        | none => rw [hr] at h; cases h
        | some vr =>
          obtain ⟨vs1, rest1⟩ := vr
          rw [hr] at h
          simp only [Option.some.injEq, Prod.mk.injEq] at h
          have := ih2 vs1 rest1 hr
          rw [← h.2]; omega

/-- The loop over the lines of the data files fails when fewer lines are left than
asked. -/
theorem read_table_short : ∀ (k : Nat) (fp : List Byte) (num max : Nat),
    (header_lines fp).length < k → ∃ e, read_table k fp num max = .error e := by
  intro k
  induction k with
  | zero => intro fp num max h; exact absurd h (Nat.not_lt_zero _)
  | succ k ih =>
    intro fp num max h
    rw [read_table]
    cases hg : fgets BUF fp with
    | none => exact ⟨num, rfl⟩
    | some lr =>
      obtain ⟨line, fp1⟩ := lr
      rw [header_lines_fgets _ _ _ hg] at h
      simp only [List.length_cons] at h
      simp only
      cases scan_s (cstr line) with
      | none => exact ⟨num, rfl⟩
      | some nr =>
        obtain ⟨name, rest⟩ := nr
        simp only
        cases scan_zu rest with
        | none => exact ⟨num, rfl⟩
        | some fsize =>
          simp only
          obtain ⟨e, he⟩ := ih fp1 (sz (num + fsize)) (if max < fsize then fsize else max)
            (by omega)
          exact ⟨e, by rw [he]⟩

/-- In terms of the lines that `fgets` delivers: a header with fewer than three of them,
or accepted with shard count `Nf` and with fewer than `3 + Nf` of them, makes
`read_bigfile` return `POWSPEC_ERR_FILE` without a record array. -/
theorem premature_end_fgets (env : Env) (fname : List Byte) (num0 : Nat) (verb : Int)
    (content : List Byte) (hopen : env.fopen fname = some content) :
    ((header_lines content).length < 3 →
      (read_bigfile env fname num0 verb).ret = .POWSPEC_ERR_FILE ∧
      (read_bigfile env fname num0 verb).data = none) ∧
    ∀ h, read_head env fname = .ok h →
      ((header_lines content).length : Int) < 3 + h.Nf →
      (read_bigfile env fname num0 verb).ret = .POWSPEC_ERR_FILE ∧
      (read_bigfile env fname num0 verb).data = none := by
  refine ⟨fun hlt => ?_, fun h hh hlt => ?_⟩
  · have hv := (read_values_lines 3 content).1 hlt
    have hh : read_head env fname = .error .POWSPEC_ERR_FILE := by
      simp [read_head, hopen, hv]
    simp [read_bigfile, hh]
  · obtain ⟨content1, value, hopen1, hv, _, _, _, hNf, _⟩ := read_head_ok env fname h hh
    rw [hopen] at hopen1
    cases hopen1
    have hlines := (read_values_lines 3 content).2 value h.fp hv
    obtain ⟨e, he⟩ := read_table_short h.Nf.toNat h.fp 0 0 (by omega)
    simp [read_bigfile, hh, he]

/-- C9: premature end of the header.  For a header file that opens and whose lines fit
in the line buffer (fewer than `BUF` characters each): when it has fewer than three
lines, and when its first three lines are accepted with shard count `Nf` but fewer than
`Nf` lines follow them, `read_bigfile` returns `POWSPEC_ERR_FILE` and hands out no
record array. -/
theorem premature_end_of_header (env : Env) (fname : List Byte) (num0 : Nat) (verb : Int)
    (content : List Byte) (hopen : env.fopen fname = some content)
    (hfit : ∀ l ∈ text_lines content, l.length < BUF) :
    ((text_lines content).length < 3 →
      (read_bigfile env fname num0 verb).ret = .POWSPEC_ERR_FILE ∧
      (read_bigfile env fname num0 verb).data = none) ∧
    ∀ h, read_head env fname = .ok h →
      ((text_lines content).length : Int) < 3 + h.Nf →
      (read_bigfile env fname num0 verb).ret = .POWSPEC_ERR_FILE ∧
      (read_bigfile env fname num0 verb).data = none := by
  have hl := header_lines_eq_text_lines content.length content (Nat.le_refl _)
    (fun l hl => Nat.le_sub_one_of_lt (hfit l hl))
  rw [← hl]
  exact premature_end_fgets env fname num0 verb content hopen

/-- Witness of C9: a header that announces 2 files and lists one, and a header of two
lines. -/
theorem premature_end_of_header_witness :
    (short_env.fopen (str "cat/header") = some short_header ∧
      (∀ l ∈ text_lines short_header, l.length < BUF) ∧
      read_head short_env (str "cat/header") = .ok ⟨str "<f4", 2, 4, str "a.dat: 2" ++ [10]⟩ ∧
      ((text_lines short_header).length : Int) < 3 + 2) ∧
    ((read_bigfile short_env (str "cat/header") 0 0).ret = .POWSPEC_ERR_FILE ∧
      (read_bigfile short_env (str "cat/header") 0 0).data = none) ∧
    ((env_with two_line_header 0).fopen (str "cat/header") = some two_line_header ∧
      (∀ l ∈ text_lines two_line_header, l.length < BUF) ∧
      (text_lines two_line_header).length < 3) ∧
    ((read_bigfile (env_with two_line_header 0) (str "cat/header") 0 0).ret
        = .POWSPEC_ERR_FILE ∧
      (read_bigfile (env_with two_line_header 0) (str "cat/header") 0 0).data = none) :=
  ⟨⟨by rfl, by decide, by rfl, by decide⟩,
    (premature_end_of_header short_env (str "cat/header") 0 0 short_header (by rfl)
      (by decide)).2 ⟨str "<f4", 2, 4, str "a.dat: 2" ++ [10]⟩ (by rfl) (by decide),
    ⟨by rfl, by decide, by decide⟩,
    (premature_end_of_header (env_with two_line_header 0) (str "cat/header") 0 0
      two_line_header (by rfl) (by decide)).1 (by decide)⟩

/-! ## The checks of the first three lines -/

theorem tag_prefix_ok_iff (tag : List Byte) :
    tag_prefix_ok tag = true ↔
      ¬ ((chr tag 0 ≠ ch '<' ∧ chr tag 0 ≠ ch '>') ∨ chr tag 1 ≠ ch 'f' ∨
        (chr tag 2 ≠ ch '4' ∧ chr tag 2 ≠ ch '8')) := by
  have z1 : (0 : Byte) ≠ ch '<' := by decide
  have z2 : (0 : Byte) ≠ ch '>' := by decide
  have z3 : (0 : Byte) ≠ ch 'f' := by decide
  have z4 : (0 : Byte) ≠ ch '4' := by decide
  have z5 : (0 : Byte) ≠ ch '8' := by decide
  match tag with
  | [] => simp [tag_prefix_ok, chr, z1, z2]
  | [_] => simp [tag_prefix_ok, chr, z3]
  | [_, _] => simp [tag_prefix_ok, chr, z4, z5]
  | o :: f :: d :: rest =>
    simp only [tag_prefix_ok, chr, List.getD_cons_zero, List.getD_cons_succ, Bool.and_eq_true,
      Bool.or_eq_true, beq_iff_eq, not_or, not_and_or, not_not, ne_eq]
    tauto

/-- The result of lines 73-104 once the file is open and three lines are read. -/
theorem read_head_eq (env : Env) (fname content : List Byte) (value : List (List Byte))
    (fp : List Byte) (hopen : env.fopen fname = some content)
    (hv : read_values 3 content = some (value, fp)) :
    read_head env fname =
      if (scan_d (value.getD 1 [])).getD 3 ≠ 3 then .error .POWSPEC_ERR_CATA
      else if (scan_d (value.getD 2 [])).getD env.Nf ≤ 0 then .error .POWSPEC_ERR_CATA
      else if tag_prefix_ok (value.getD 0 []) = false then .error .POWSPEC_ERR_CATA
      else .ok ⟨value.getD 0 [], (scan_d (value.getD 2 [])).getD env.Nf,
        (chr (value.getD 0 []) 2).val - 48, fp⟩ := by
  have e1 : (match scan_d (value.getD 1 []) with
      | some v => v
      | none => (3 : Int)) = (scan_d (value.getD 1 [])).getD 3 := by
    cases scan_d (value.getD 1 []) <;> rfl
  have e2 : (match scan_d (value.getD 2 []) with
      | some v => v
      | none => env.Nf) = (scan_d (value.getD 2 [])).getD env.Nf := by
    cases scan_d (value.getD 2 []) <;> rfl
  have e3 : (tag_prefix_ok (value.getD 0 []) = false) ↔
      ((chr (value.getD 0 []) 0 ≠ ch '<' ∧ chr (value.getD 0 []) 0 ≠ ch '>') ∨
        chr (value.getD 0 []) 1 ≠ ch 'f' ∨
        (chr (value.getD 0 []) 2 ≠ ch '4' ∧ chr (value.getD 0 []) 2 ≠ ch '8')) := by
    rw [← Bool.not_eq_true, tag_prefix_ok_iff, not_not]
  unfold read_head
  simp only [hopen, hv, e1, e2, e3]

/-- A dimension token that converts to a number other than 3 is rejected. -/
theorem dimension_rejected (env : Env) (fname : List Byte) (num0 : Nat) (verb : Int)
    (content : List Byte) (value : List (List Byte)) (fp : List Byte) (v : Int)
    (hopen : env.fopen fname = some content)
    (hv : read_values 3 content = some (value, fp))
    (hd : scan_d (value.getD 1 []) = some v) (h3 : v ≠ 3) :
    (read_bigfile env fname num0 verb).ret = .POWSPEC_ERR_CATA ∧
    (read_bigfile env fname num0 verb).data = none := by
  have hh := read_head_eq env fname content value fp hopen hv
  rw [hd, if_pos (by simpa using h3)] at hh
  exact ⟨by simp [read_bigfile, hh], by simp [read_bigfile, hh]⟩

/-- A file-count token that converts to a number that is not positive is rejected, once
the dimension check has passed. -/
theorem shard_count_rejected (env : Env) (fname : List Byte) (num0 : Nat) (verb : Int)
    (content : List Byte) (value : List (List Byte)) (fp : List Byte) (v : Int)
    (hopen : env.fopen fname = some content)
    (hv : read_values 3 content = some (value, fp))
    (hdim : (scan_d (value.getD 1 [])).getD 3 = 3)
    (hd : scan_d (value.getD 2 []) = some v) (h0 : v ≤ 0) :
    (read_bigfile env fname num0 verb).ret = .POWSPEC_ERR_CATA ∧
    (read_bigfile env fname num0 verb).data = none := by
  have hh := read_head_eq env fname content value fp hopen hv
  rw [if_neg (by simpa using hdim), hd, if_pos (by simpa using h0)] at hh
  exact ⟨by simp [read_bigfile, hh], by simp [read_bigfile, hh]⟩

/-- A data file that holds fewer bytes than requested stops the loop with
`POWSPEC_ERR_FILE`; the record array and the cursor stay as they were. -/
theorem read_data_short_file (env : Env) (verb : Int) (path value0 : List Byte) (byte : Nat)
    (Nf : Int) (name : List Byte) (fsize : Nat) (t : List (List Byte × Nat)) (i : Nat)
    (st : Loop) (fp : List Byte) (hf : env.fopen (path ++ name) = some fp)
    (hshort : fp.length < sz (fsize * 3 * byte)) :
    (read_data env verb path value0 byte Nf ((name, fsize) :: t) i st).ret
      = .POWSPEC_ERR_FILE ∧
    (read_data env verb path value0 byte Nf ((name, fsize) :: t) i st).data = st.data ∧
    (read_data env verb path value0 byte Nf ((name, fsize) :: t) i st).n = st.n := by
  have h2 : (fread st.chunk (sz (fsize * 3 * byte)) fp).2 ≠ 1 := by
    intro h
    have := (fread_one _ _ _ h).2.1
    omega
  rw [read_data]
  simp only [hf, h2, ne_eq, not_false_eq_true, if_true, and_self]

/-- C7, as amended: for a header file that opens, has three lines and passes the checks
of the dimension and of the number of files, `read_bigfile` accepts the format tag of
line 1 exactly when its first three characters are `<` or `>`, then `f`, then `4` or
`8`; the characters after the third are not looked at.  A tag without such a beginning
makes it return `POWSPEC_ERR_CATA` with no record array. -/
theorem format_tag_first_three_characters (env : Env) (fname : List Byte) (num0 : Nat)
    (verb : Int) (content : List Byte) (value : List (List Byte)) (fp : List Byte)
    (hopen : env.fopen fname = some content)
    (hv : read_values 3 content = some (value, fp))
    (hdim : (scan_d (value.getD 1 [])).getD 3 = 3)
    (hNf : 0 < (scan_d (value.getD 2 [])).getD env.Nf) :
    (tag_prefix_ok (value.getD 0 []) = true →
      ∃ h, read_head env fname = .ok h ∧ h.value0 = value.getD 0 [] ∧
        h.byte = (chr (value.getD 0 []) 2).val - 48) ∧
    (tag_prefix_ok (value.getD 0 []) = false →
      read_head env fname = .error .POWSPEC_ERR_CATA ∧
      (read_bigfile env fname num0 verb).ret = .POWSPEC_ERR_CATA ∧
      (read_bigfile env fname num0 verb).data = none) := by
  have hh := read_head_eq env fname content value fp hopen hv
  rw [if_neg (by simpa using hdim), if_neg (by omega)] at hh
  refine ⟨fun hp => ?_, fun hp => ?_⟩
  · rw [if_neg (by rw [hp]; decide)] at hh
    exact ⟨_, hh, rfl, rfl⟩
  · rw [if_pos hp] at hh
    exact ⟨hh, by simp [read_bigfile, hh], by simp [read_bigfile, hh]⟩

/-- Witness of C7 as amended, on the tag `<i4`. -/
theorem format_tag_first_three_characters_witness :
    ((env_with (header_with (str "<i4") (str "3") (str "1")) 0).fopen (str "cat/header")
        = some (header_with (str "<i4") (str "3") (str "1")) ∧
      read_values 3 (header_with (str "<i4") (str "3") (str "1"))
        = some ([str "<i4", str "3", str "1"], str "a.dat: 2" ++ [10]) ∧
      (scan_d (str "3")).getD 3 = 3 ∧ 0 < (scan_d (str "1")).getD 0 ∧
      tag_prefix_ok (str "<i4") = false) ∧
    (read_head (env_with (header_with (str "<i4") (str "3") (str "1")) 0) (str "cat/header")
        = .error .POWSPEC_ERR_CATA ∧
      (read_bigfile (env_with (header_with (str "<i4") (str "3") (str "1")) 0)
        (str "cat/header") 0 0).ret = .POWSPEC_ERR_CATA ∧
      (read_bigfile (env_with (header_with (str "<i4") (str "3") (str "1")) 0)
        (str "cat/header") 0 0).data = none) :=
  ⟨⟨by rfl, by rfl, by decide, by decide, by decide⟩,
    (format_tag_first_three_characters (env_with (header_with (str "<i4") (str "3") (str "1")) 0)
      (str "cat/header") 0 0 (header_with (str "<i4") (str "3") (str "1"))
      [str "<i4", str "3", str "1"] (str "a.dat: 2" ++ [10]) (by rfl) (by rfl) (by decide)
      (by decide)).2 (by decide)⟩

/-- C7, counterexample: the tag `<f4abc` begins with `<f4` and has further characters,
so it is none of `<f4`, `>f4`, `<f8`, `>f8`; with a valid dimension and shard count
`read_bigfile` accepts it, returns 0 and loads the two records as single-precision
floats. -/
theorem format_tag_trailing_characters_accepted :
    str "<f4abc" ∉ [str "<f4", str ">f4", str "<f8", str ">f8"] ∧
    read_bigfile (env_with (header_with (str "<f4abc") (str "3") (str "1")) 0)
      (str "cat/header") 0 0 = ⟨.ok, 2, some sample_records, []⟩ := by
  decide

/-- C6, at the failing inputs: with the dimension token `abc`, and with no dimension
token at all, `read_bigfile` does not return `POWSPEC_ERR_CATA`: it returns 0, sets
`*num` to 2 and hands out the two records.  The dimension token `2` is rejected with
`POWSPEC_ERR_CATA` and no record array. -/
theorem dimension_check_skipped_when_not_a_number :
    read_bigfile (env_with (header_with (str "<f4") (str "abc") (str "1")) 0)
      (str "cat/header") 0 0 = ⟨.ok, 2, some sample_records, []⟩ ∧
    read_bigfile (env_with (header_with (str "<f4") [] (str "1")) 0)
      (str "cat/header") 0 0 = ⟨.ok, 2, some sample_records, []⟩ ∧
    read_bigfile (env_with (header_with (str "<f4") (str "2") (str "1")) 0)
      (str "cat/header") 0 0 = ⟨.POWSPEC_ERR_CATA, 0, none, []⟩ := by
  decide

/-- C8, at the failing input: with the shard-count token `abc` nothing is stored in
`Nf`, which keeps its indeterminate value.  When that value is 1 `read_bigfile` reads a
shard line and returns 0 with the two records; when it is 5 it reads shard lines until
the file ends and returns `POWSPEC_ERR_FILE`; it returns `POWSPEC_ERR_CATA` only when
the value happens not to be positive.  The tokens `0` and `-1` are rejected. -/
theorem shard_count_unchecked_when_not_a_number :
    read_bigfile (env_with (header_with (str "<f4") (str "3") (str "abc")) 1)
      (str "cat/header") 0 0 = ⟨.ok, 2, some sample_records, []⟩ ∧
    read_bigfile (env_with (header_with (str "<f4") (str "3") (str "abc")) 5)
      (str "cat/header") 0 0 = ⟨.POWSPEC_ERR_FILE, 2, none, []⟩ ∧
    read_bigfile (env_with (header_with (str "<f4") (str "3") (str "abc")) 0)
      (str "cat/header") 0 0 = ⟨.POWSPEC_ERR_CATA, 0, none, []⟩ ∧
    read_bigfile (env_with (header_with (str "<f4") (str "3") (str "0")) 1)
      (str "cat/header") 0 0 = ⟨.POWSPEC_ERR_CATA, 0, none, []⟩ ∧
    read_bigfile (env_with (header_with (str "<f4") (str "3") (str "-1")) 1)
      (str "cat/header") 0 0 = ⟨.POWSPEC_ERR_CATA, 0, none, []⟩ := by
  decide

/-- C10, at the failing input: a catalog of two data files with counts 0 and 2, total 2.
The first file holds at least `0 * 3 * 4` bytes, whether it is empty or not, yet the
read step fails on it: `fread` is asked for one item of size 0 and returns 0, and
`read_bigfile` returns `POWSPEC_ERR_FILE`. -/
theorem zero_count_shard_fails_to_read :
    0 * 3 * 4 ≤ ([] : List Byte).length ∧
    (read_bigfile (zero_count_env []) (str "cat/header") 0 0).ret = .POWSPEC_ERR_FILE ∧
    0 * 3 * 4 ≤ sample_a.length ∧
    (read_bigfile (zero_count_env sample_a) (str "cat/header") 0 0).ret
      = .POWSPEC_ERR_FILE := by
  decide

/-! ## The paths of the data files -/

theorem path_of_no_slash (fname : List Byte) (h : ch '/' ∉ fname) : path_of fname = fname := by
  simp [path_of, h]

/-- A header path with a `/` is cut just after its last `/`. -/
theorem path_of_slash (dir base : List Byte) (h : ch '/' ∉ base) :
    path_of (dir ++ ch '/' :: base) = dir ++ [ch '/'] := by
  have hmem : ch '/' ∈ dir ++ ch '/' :: base := by simp
  have hdrop : List.dropWhile (fun b => decide (b ≠ ch '/')) (base.reverse ++ ch '/' :: dir.reverse)
      = ch '/' :: dir.reverse := by
    rw [List.dropWhile_append_of_pos]
    · simp [List.dropWhile]
    · intro b hb
      have hb2 : b ∈ base := List.mem_reverse.mp hb
      simp only [ne_eq, decide_eq_true_eq]
      intro hbe
      exact h (hbe ▸ hb2)
  unfold path_of
  rw [if_pos hmem]
  simp only [List.reverse_append, List.reverse_cons, List.append_assoc, List.singleton_append]
  rw [hdrop]
  simp

/-- C11, at the failing input: the header path `header` has no `/`.  The path that
`read_bigfile` checks and opens for the data file `a.dat` is `headera.dat`, not the bare
name `a.dat`: with `header` and `a.dat` in place it returns `POWSPEC_ERR_FILE`, and it
loads the two records when the data file is named `headera.dat`.  With the header path
`cat/header` the data file is looked up as `cat/a.dat`. -/
theorem shard_path_without_slash :
    path_of (str "header") = str "header" ∧
    read_bigfile bare_env (str "header") 0 0 = ⟨.POWSPEC_ERR_FILE, 2, none, []⟩ ∧
    read_bigfile glued_env (str "header") 0 0 = ⟨.ok, 2, some sample_records, []⟩ ∧
    path_of (str "cat/header") = str "cat/" ∧
    read_bigfile sample_env (str "cat/header") 0 0 = ⟨.ok, 2, some sample_records, []⟩ := by
  decide

/-! ## The names of the data files -/

theorem stripped_of_takeWhile (t : List Byte) :
    stripped_of t (t.takeWhile (fun b => b ≠ ch ':')) := by
  refine ⟨t.dropWhile (fun b => b ≠ ch ':'), (List.takeWhile_append_dropWhile _ _).symm, ?_, ?_⟩
  · intro hmem
    have := List.mem_takeWhile_imp hmem
    simp at this
  · have h := List.head?_dropWhile_not (fun b => decide (b ≠ ch ':')) t
    cases hd : (List.dropWhile (fun b => decide (b ≠ ch ':')) t) with
    | nil => exact Or.inl rfl
    | cons c u =>
      right
      rw [hd] at h
      simp only [List.head?_cons, ne_eq, decide_not, Bool.not_eq_false', decide_eq_true_eq] at h
      simp [h]

/-- Every entry of the table read from the header comes from its line: the entries are
as many as asked, in the order of the lines. -/
theorem read_table_entries :
    ∀ (k : Nat) (fp : List Byte) (num max : Nat) (t : List (List Byte × Nat))
      (num1 max1 : Nat), read_table k fp num max = .ok (t, num1, max1) →
      List.Forall₂ entry_of_line t ((header_lines fp).take k) := by
  intro k
  induction k with
  | zero =>
    intro fp num max t num1 max1 h
    simp only [read_table, Except.ok.injEq, Prod.mk.injEq] at h
    rw [← h.1]
    simp
  | succ k ih =>
    intro fp num max t num1 max1 h
    rw [read_table] at h
    cases hg : fgets BUF fp with
    | none => rw [hg] at h; cases h
    | some lr =>
      obtain ⟨line, fp1⟩ := lr
      rw [hg] at h
      simp only at h
      rw [header_lines_fgets _ _ _ hg, List.take_succ_cons]
      cases hs : scan_s (cstr line) with
      | none => rw [hs] at h; cases h
      | some nr =>
        obtain ⟨name, rest⟩ := nr
        rw [hs] at h
        simp only at h
        cases hz : scan_zu rest with
        | none => rw [hz] at h; cases h
        | some fsize =>
          rw [hz] at h
          simp only at h
          cases hrec : read_table k fp1 (sz (num + fsize))
              (if max < fsize then fsize else max) with
          | error e => rw [hrec] at h; cases h
          | ok r =>
            obtain ⟨t2, num2, max2⟩ := r
            rw [hrec] at h
            simp only [Except.ok.injEq, Prod.mk.injEq] at h
            rw [← h.1]
            exact List.Forall₂.cons ⟨name, rest, hs, hz, stripped_of_takeWhile name⟩
              (ih _ _ _ _ _ _ hrec)

theorem read_head_congr (env env2 : Env) (fname : List Byte)
    (hf : env2.fopen fname = env.fopen fname) (hN : env2.Nf = env.Nf) :
    read_head env2 fname = read_head env fname := by
  unfold read_head
  rw [hf, hN]

theorem check_files_congr (env env2 : Env) (path : List Byte)
    (hr : env2.readable = env.readable) (table : List (List Byte × Nat)) :
    check_files env2 path table = check_files env path table := by
  induction table with
  | nil => rfl
  | cons e t ih =>
    obtain ⟨name, fsize⟩ := e
    simp only [check_files, hr, ih]

/-- A call that returns without having assigned `*data` has opened no data file: it gives
the same result in every file system with the same header file, the same readable paths
and the same indeterminate `Nf`. -/
theorem read_bigfile_congr (env env2 : Env) (fname : List Byte) (num0 : Nat) (verb : Int)
    (hf : env2.fopen fname = env.fopen fname) (hr : env2.readable = env.readable)
    (hN : env2.Nf = env.Nf) (hd : (read_bigfile env fname num0 verb).data = none) :
    read_bigfile env2 fname num0 verb = read_bigfile env fname num0 verb := by
  unfold read_bigfile at hd ⊢
  rw [read_head_congr env env2 fname hf hN]
  cases hh : read_head env fname with
  | error e => rfl
  | ok h =>
    rw [hh] at hd
    simp only at hd ⊢
    cases ht : read_table h.Nf.toNat h.fp 0 0 with
    | error e => rfl
    | ok r =>
      obtain ⟨table, num, max⟩ := r
      rw [ht] at hd
      simp only at hd ⊢
      rw [check_files_congr env env2 _ hr]
      by_cases h1 : num ≤ 0
      · simp only [if_pos h1]
      · simp only [if_neg h1] at hd ⊢
        by_cases h2 : (!check_files env (path_of fname) table) = true
        · simp only [if_pos h2]
        · rw [if_neg h2, finish_data] at hd
          cases hd

theorem entries_left (table : List (List Byte × Nat)) (lines : List (List Byte))
    (h : List.Forall₂ entry_of_line table lines) :
    ∀ e ∈ table, ∃ line ∈ lines, entry_of_line e line := by
  induction h with
  | nil => intro e he; cases he
  | cons hab _ ih =>
    intro e he
    rcases List.mem_cons.mp he with rfl | he
    · exact ⟨_, List.mem_cons_self _ _, hab⟩
    · obtain ⟨line, hl, hr⟩ := ih e he
      exact ⟨line, List.mem_cons_of_mem _ hl, hr⟩

theorem check_files_empty_name (env : Env) (path : List Byte)
    (table : List (List Byte × Nat)) (h : ∃ e ∈ table, e.1 = []) :
    check_files env path table = false := by
  induction table with
  | nil => obtain ⟨e, he, _⟩ := h; cases he
  | cons e t ih =>
    obtain ⟨name, fsize⟩ := e
    rw [check_files]
    by_cases hn : name = []
    · rw [if_pos hn]
    · rw [if_neg hn]
      split
      · rfl
      · obtain ⟨e, he, hee⟩ := h
        rcases List.mem_cons.mp he with rfl | he
        · exact absurd hee hn
        · exact ih ⟨e, he, hee⟩

/-- The result of a call whose header is accepted, whose table is read with a positive
total, and whose check of the data files fails. -/
theorem read_bigfile_check_failed (env : Env) (fname : List Byte) (num0 : Nat) (verb : Int)
    (h : Head) (table : List (List Byte × Nat)) (num max : Nat)
    (hh : read_head env fname = .ok h)
    (ht : read_table h.Nf.toNat h.fp 0 0 = .ok (table, num, max))
    (hnum : 0 < num) (hc : check_files env (path_of fname) table = false) :
    read_bigfile env fname num0 verb
      = ⟨.POWSPEC_ERR_FILE, num, none, if verb ≠ 0 then [.header fname] else []⟩ := by
  unfold read_bigfile
  simp only [hh, ht]
  rw [if_neg (by omega), if_pos (by simp [hc])]

/-- C12: filename suffix stripping.  For a header that `read_bigfile` accepts and whose
table of data files is read, the names of the table come from the shard lines in order:
each name is the part of the line's filename token before its first `:` (the whole token
when it has none), so it contains no `:`.  When the total count is positive and a name
is empty, `read_bigfile` returns `POWSPEC_ERR_FILE` with no record array, and does so
whatever the data files hold: no data file is opened. -/
theorem shard_name_stripped (env : Env) (fname : List Byte) (num0 : Nat) (verb : Int)
    (h : Head) (table : List (List Byte × Nat)) (num max : Nat)
    (hh : read_head env fname = .ok h)
    (ht : read_table h.Nf.toNat h.fp 0 0 = .ok (table, num, max)) :
    List.Forall₂ entry_of_line table ((header_lines h.fp).take h.Nf.toNat) ∧
    (∀ e ∈ table, ch ':' ∉ e.1) ∧
    (0 < num → (∃ e ∈ table, e.1 = []) →
      (read_bigfile env fname num0 verb).ret = .POWSPEC_ERR_FILE ∧
      (read_bigfile env fname num0 verb).data = none ∧
      ∀ env2 : Env, env2.fopen fname = env.fopen fname → env2.readable = env.readable →
        env2.Nf = env.Nf →
        read_bigfile env2 fname num0 verb = read_bigfile env fname num0 verb) := by
  have hent := read_table_entries _ _ _ _ _ _ _ ht
  refine ⟨hent, ?_, fun hnum hempty => ?_⟩
  · intro e he
    obtain ⟨line, _, t, rest, _, _, suffix, _, hno, _⟩ := entries_left _ _ hent e he
    exact hno
  · have hres := read_bigfile_check_failed env fname num0 verb h table num max hh ht hnum
      (check_files_empty_name env _ table hempty)
    refine ⟨by rw [hres], by rw [hres], fun env2 hf hr hN => ?_⟩
    exact read_bigfile_congr env env2 fname num0 verb hf hr hN (by rw [hres])

/-- Witness of C12: the filename tokens `a.dat:extra` and `:hidden` give the names
`a.dat` and the empty name, and the call returns `POWSPEC_ERR_FILE`. -/
theorem shard_name_stripped_witness :
    (read_head colon_env (str "cat/header")
        = .ok ⟨str "<f4", 2, 4, str "a.dat:extra 2" ++ [10] ++ str ":hidden 1" ++ [10]⟩ ∧
      read_table 2 (str "a.dat:extra 2" ++ [10] ++ str ":hidden 1" ++ [10]) 0 0
        = .ok ([(str "a.dat", 2), ([], 1)], 3, 2) ∧
      0 < 3 ∧ (∃ e ∈ [(str "a.dat", 2), (([] : List Byte), 1)], e.1 = [])) ∧
    (∀ e ∈ [(str "a.dat", 2), (([] : List Byte), 1)], ch ':' ∉ e.1) ∧
    (read_bigfile colon_env (str "cat/header") 0 0).ret = .POWSPEC_ERR_FILE ∧
    (read_bigfile colon_env (str "cat/header") 0 0).data = none :=
  have w := shard_name_stripped colon_env (str "cat/header") 0 0
    ⟨str "<f4", 2, 4, str "a.dat:extra 2" ++ [10] ++ str ":hidden 1" ++ [10]⟩
    [(str "a.dat", 2), ([], 1)] 3 2 (by rfl) (by rfl)
  have w3 := w.2.2 (by decide) ⟨([], 1), by simp, rfl⟩
  ⟨⟨by rfl, by rfl, by decide, ⟨([], 1), by simp, rfl⟩⟩, w.2.1, w3.1, w3.2.1⟩

/-! ## Verbosity -/

/-- The loop over the data files computes its return value, `chunk`, the records and the
cursor without looking at `verb` or at what has been printed. -/
theorem read_data_verb (env : Env) (verb1 verb2 : Int) (path value0 : List Byte)
    (byte : Nat) (Nf : Int) :
    ∀ (table : List (List Byte × Nat)) (i : Nat) (st1 st2 : Loop),
      st1.ret = st2.ret → st1.chunk = st2.chunk → st1.data = st2.data → st1.n = st2.n →
      (read_data env verb1 path value0 byte Nf table i st1).ret
          = (read_data env verb2 path value0 byte Nf table i st2).ret ∧
        (read_data env verb1 path value0 byte Nf table i st1).data
          = (read_data env verb2 path value0 byte Nf table i st2).data ∧
        (read_data env verb1 path value0 byte Nf table i st1).n
          = (read_data env verb2 path value0 byte Nf table i st2).n := by
  intro table
  induction table with
  | nil =>
    intro i st1 st2 h1 _ h3 h4
    exact ⟨h1, h3, h4⟩
  | cons e t ih =>
    obtain ⟨name, fsize⟩ := e
    intro i st1 st2 h1 h2 h3 h4
    rw [read_data, read_data]
    cases env.fopen (path ++ name) with
    | none => exact ⟨rfl, h3, h4⟩
    | some fp =>
      simp only
      rw [h2, h3, h4]
      by_cases hr : (fread st2.chunk (sz (fsize * 3 * byte)) fp).2 ≠ 1
      · simp [if_pos hr]
      · simp only [if_neg hr]
        exact ih _ _ _ rfl rfl rfl rfl

/-- Nothing is printed by the loop over the data files when `verb` is 0. -/
theorem read_data_silent (env : Env) (path value0 : List Byte) (byte : Nat) (Nf : Int) :
    ∀ (table : List (List Byte × Nat)) (i : Nat) (st : Loop),
      (read_data env 0 path value0 byte Nf table i st).out = st.out := by
  intro table
  induction table with
  | nil => intro i st; rfl
  | cons e t ih =>
    obtain ⟨name, fsize⟩ := e
    intro i st
    rw [read_data]
    cases env.fopen (path ++ name) with
    | none => rfl
    | some fp =>
      simp only
      split
      · rfl
      · rw [ih]
        simp

theorem finish_ret (verb Nf : Int) (num : Nat) (st : Loop) :
    (finish verb Nf num st).ret = st.ret := by
  unfold finish
  by_cases h : st.ret = .ok
  · rw [if_neg (by rw [h]; exact fun hne => hne rfl), h]
  · rw [if_pos h]

theorem finish_out_silent (Nf : Int) (num : Nat) (st : Loop) :
    (finish 0 Nf num st).out = st.out := by
  unfold finish
  split <;> rfl

/-- C14: verbosity non-interference.  For every file system, header path and value of
`*num` before the call, two calls of `read_bigfile` with any two values of `verb` (0 or
not) return the same error code, the same `*num` and the same `*data`; with `verb = 0`
nothing is printed. -/
theorem verbosity_non_interference (env : Env) (fname : List Byte) (num0 : Nat)
    (verb1 verb2 : Int) :
    (read_bigfile env fname num0 verb1).ret = (read_bigfile env fname num0 verb2).ret ∧
    (read_bigfile env fname num0 verb1).num = (read_bigfile env fname num0 verb2).num ∧
    (read_bigfile env fname num0 verb1).data = (read_bigfile env fname num0 verb2).data ∧
    (read_bigfile env fname num0 0).out = [] := by
  unfold read_bigfile
  cases read_head env fname with
  | error e => exact ⟨rfl, rfl, rfl, rfl⟩
  | ok h =>
    simp only
    cases read_table h.Nf.toNat h.fp 0 0 with
    | error e => exact ⟨rfl, rfl, rfl, rfl⟩
    | ok r =>
      obtain ⟨table, num, max⟩ := r
      simp only
      by_cases h1 : num ≤ 0
      · exact ⟨by simp only [if_pos h1], by simp only [if_pos h1], by simp only [if_pos h1],
          by simp only [if_pos h1]; rfl⟩
      · by_cases h2 : (!check_files env (path_of fname) table) = true
        · exact ⟨by simp only [if_neg h1, if_pos h2], by simp only [if_neg h1, if_pos h2],
            by simp only [if_neg h1, if_pos h2], by simp only [if_neg h1, if_pos h2]; rfl⟩
        · obtain ⟨e1, e2, _⟩ := read_data_verb env verb1 verb2 (path_of fname) h.value0 h.byte
            h.Nf table 0
            (start verb1 h num max (if verb1 ≠ 0 then [Printed.header fname] else []))
            (start verb2 h num max (if verb2 ≠ 0 then [Printed.header fname] else []))
            rfl rfl rfl rfl
          refine ⟨?_, ?_, ?_, ?_⟩
          · rw [if_neg h1, if_neg h1, if_neg h2, if_neg h2, finish_ret, finish_ret]
            exact e1
          · rw [if_neg h1, if_neg h1, if_neg h2, if_neg h2, finish_num, finish_num]
          · rw [if_neg h1, if_neg h1, if_neg h2, if_neg h2, finish_data, finish_data, e2]
          · rw [if_neg h1, if_neg h2, finish_out_silent, read_data_silent]
            rfl

/-! ## A total of zero -/

theorem counts_sum_zero (table : List (List Byte × Nat)) (h : ∀ e ∈ table, e.2 = 0) :
    (counts table).sum = 0 := by
  induction table with
  | nil => rfl
  | cons e t ih =>
    obtain ⟨name, fsize⟩ := e
    rw [counts_cons, ih (fun e he => h e (List.mem_cons_of_mem _ he))]
    exact h (name, fsize) (List.mem_cons_self _ _)

/-- C15: a total of zero is rejected.  For a header that `read_bigfile` accepts (valid
format tag, dimension 3, positive shard count) and whose shard lines are all read, with
record counts that are all 0, the call returns `POWSPEC_ERR_CATA` with `*num = 0` and no
record array; it does so before any data file is checked or opened: the result is the
same in every file system with the same header file, whatever is readable in it. -/
theorem zero_total_rejected (env : Env) (fname : List Byte) (num0 : Nat) (verb : Int)
    (h : Head) (table : List (List Byte × Nat)) (num max : Nat)
    (hh : read_head env fname = .ok h)
    (ht : read_table h.Nf.toNat h.fp 0 0 = .ok (table, num, max))
    (hzero : ∀ e ∈ table, e.2 = 0) :
    (read_bigfile env fname num0 verb).ret = .POWSPEC_ERR_CATA ∧
    (read_bigfile env fname num0 verb).num = 0 ∧
    (read_bigfile env fname num0 verb).data = none ∧
    ∀ env2 : Env, env2.fopen fname = env.fopen fname → env2.Nf = env.Nf →
      read_bigfile env2 fname num0 verb = read_bigfile env fname num0 verb := by
  have hnum : num = 0 := by
    rw [(read_table_ok _ _ _ _ _ _ _ (by decide) ht).2, counts_sum_zero table hzero]
    rfl
  subst hnum
  have hres : ∀ env3 : Env, read_head env3 fname = .ok h →
      read_bigfile env3 fname num0 verb
        = ⟨.POWSPEC_ERR_CATA, 0, none, if verb ≠ 0 then [.header fname] else []⟩ := by
    intro env3 h3
    unfold read_bigfile
    simp only [h3, ht]
    rw [if_pos (Nat.le_refl 0)]
  refine ⟨by rw [hres env hh], by rw [hres env hh], by rw [hres env hh], fun env2 hf hN => ?_⟩
  rw [hres env hh, hres env2 (by rw [read_head_congr env env2 fname hf hN, hh])]

/-- Witness of C15: two shard lines with count 0, and no data file in place. -/
theorem zero_total_rejected_witness :
    (read_head zero_total_env (str "cat/header")
        = .ok ⟨str "<f4", 2, 4, str "a.dat: 0" ++ [10] ++ str "b.dat: 0" ++ [10]⟩ ∧
      read_table 2 (str "a.dat: 0" ++ [10] ++ str "b.dat: 0" ++ [10]) 0 0
        = .ok ([(str "a.dat", 0), (str "b.dat", 0)], 0, 0) ∧
      ∀ e ∈ [(str "a.dat", 0), (str "b.dat", 0)], e.2 = 0) ∧
    (read_bigfile zero_total_env (str "cat/header") 7 0).ret = .POWSPEC_ERR_CATA ∧
    (read_bigfile zero_total_env (str "cat/header") 7 0).num = 0 ∧
    (read_bigfile zero_total_env (str "cat/header") 7 0).data = none :=
  have w := zero_total_rejected zero_total_env (str "cat/header") 7 0
    ⟨str "<f4", 2, 4, str "a.dat: 0" ++ [10] ++ str "b.dat: 0" ++ [10]⟩
    [(str "a.dat", 0), (str "b.dat", 0)] 0 0 (by rfl) (by rfl) (by decide)
  ⟨⟨by rfl, by rfl, by decide⟩, w.1, w.2.1, w.2.2.1⟩

/-! ## Unreadable data files -/

theorem check_files_unreadable (env : Env) (path : List Byte)
    (table : List (List Byte × Nat))
    (h : ∃ e ∈ table, env.readable (path ++ e.1) = false) :
    check_files env path table = false := by
  induction table with
  | nil => obtain ⟨e, he, _⟩ := h; cases he
  | cons e t ih =>
    obtain ⟨name, fsize⟩ := e
    rw [check_files]
    by_cases hn : name = []
    · rw [if_pos hn]
    · rw [if_neg hn]
      by_cases hr : (!env.readable (path ++ name)) = true
      · rw [if_pos hr]
      · rw [if_neg hr]
        obtain ⟨e, he, hee⟩ := h
        rcases List.mem_cons.mp he with rfl | he
        · simp only [hee, Bool.not_false, not_true_eq_false] at hr
        · exact ih ⟨e, he, hee⟩

/-- C19: fail-fast on unreadable data files.  For a header that `read_bigfile` accepts,
whose table of data files is read with a positive total, and in which the path of one
data file at least is not readable, the call returns `POWSPEC_ERR_FILE` without having
allocated the record array, and before any data file is opened: the result is the same
in every file system with the same header file and the same readable paths, whatever
the data files hold. -/
theorem unreadable_shard_fails_fast (env : Env) (fname : List Byte) (num0 : Nat)
    (verb : Int) (h : Head) (table : List (List Byte × Nat)) (num max : Nat)
    (hh : read_head env fname = .ok h)
    (ht : read_table h.Nf.toNat h.fp 0 0 = .ok (table, num, max))
    (hnum : 0 < num)
    (hun : ∃ e ∈ table, env.readable (path_of fname ++ e.1) = false) :
    (read_bigfile env fname num0 verb).ret = .POWSPEC_ERR_FILE ∧
    (read_bigfile env fname num0 verb).data = none ∧
    ∀ env2 : Env, env2.fopen fname = env.fopen fname → env2.readable = env.readable →
      env2.Nf = env.Nf →
      read_bigfile env2 fname num0 verb = read_bigfile env fname num0 verb := by
  have hres := read_bigfile_check_failed env fname num0 verb h table num max hh ht hnum
    (check_files_unreadable env _ table hun)
  exact ⟨by rw [hres], by rw [hres],
    fun env2 hf hr hN => read_bigfile_congr env env2 fname num0 verb hf hr hN (by rw [hres])⟩

/-- Witness of C19: the second of two data files is missing; the first one is readable
and is not looked into. -/
theorem unreadable_shard_fails_fast_witness :
    (read_head missing_env (str "pos/header")
        = .ok ⟨str ">f8", 2, 8,
          str "000000: 1 : 1234" ++ [10] ++ str "000001: 2 : 5678" ++ [10]⟩ ∧
      read_table 2 (str "000000: 1 : 1234" ++ [10] ++ str "000001: 2 : 5678" ++ [10]) 0 0
        = .ok ([(str "000000", 1), (str "000001", 2)], 3, 2) ∧
      0 < 3 ∧
      missing_env.readable (path_of (str "pos/header") ++ str "000001") = false) ∧
    (read_bigfile missing_env (str "pos/header") 0 1).ret = .POWSPEC_ERR_FILE ∧
    (read_bigfile missing_env (str "pos/header") 0 1).data = none :=
  have w := unreadable_shard_fails_fast missing_env (str "pos/header") 0 1
    ⟨str ">f8", 2, 8, str "000000: 1 : 1234" ++ [10] ++ str "000001: 2 : 5678" ++ [10]⟩
    [(str "000000", 1), (str "000001", 2)] 3 2 (by rfl) (by rfl) (by decide)
    ⟨(str "000001", 2), by simp, by rfl⟩
  ⟨⟨by rfl, by rfl, by decide, by rfl⟩, w.1, w.2.1⟩

/-! ## Shard lines that do not parse -/

theorem entries_right (table : List (List Byte × Nat)) (lines : List (List Byte))
    (h : List.Forall₂ entry_of_line table lines) :
    ∀ line ∈ lines, ∃ e ∈ table, entry_of_line e line := by
  induction h with
  | nil => intro line hl; cases hl
  | cons hab _ ih =>
    intro line hl
    rcases List.mem_cons.mp hl with rfl | hl
    · exact ⟨_, List.mem_cons_self _ _, hab⟩
    · obtain ⟨e, he, hr⟩ := ih line hl
      exact ⟨e, List.mem_cons_of_mem _ he, hr⟩

theorem entry_of_line_parses (e : List Byte × Nat) (line : List Byte)
    (h : entry_of_line e line) : line_parses line = true := by
  obtain ⟨t, rest, hs, hz, _⟩ := h
  simp [line_parses, hs, hz]

/-- A shard line that does not parse, among those asked for, makes the loop over the
lines of the data files fail. -/
theorem read_table_unparsed (k : Nat) (fp : List Byte) (num max : Nat)
    (h : ∃ l ∈ (header_lines fp).take k, line_parses l = false) :
    ∃ e, read_table k fp num max = .error e := by
  cases hr : read_table k fp num max with
  | error e => exact ⟨e, rfl⟩
  | ok r =>
    obtain ⟨t, num1, max1⟩ := r
    obtain ⟨l, hl, hp⟩ := h
    obtain ⟨e, _, he⟩ := entries_right _ _ (read_table_entries _ _ _ _ _ _ _ hr) l hl
    rw [entry_of_line_parses e l he] at hp
    cases hp

/-- C16, as amended: for a header whose first three lines are accepted with shard count
`Nf`, a shard line among the `Nf` asked for that is present but does not parse into a
filename token and an integer record count makes `read_bigfile` return
`POWSPEC_ERR_FILE`, and so does a shard line that is missing altogether: the two errors
have the same code, and no record array is handed out. -/
theorem shard_line_errors_share_code (env : Env) (fname : List Byte) (num0 : Nat)
    (verb : Int) (h : Head) (hh : read_head env fname = .ok h) :
    ((∃ l ∈ (header_lines h.fp).take h.Nf.toNat, line_parses l = false) →
      (read_bigfile env fname num0 verb).ret = .POWSPEC_ERR_FILE ∧
      (read_bigfile env fname num0 verb).data = none) ∧
    ((header_lines h.fp).length < h.Nf.toNat →
      (read_bigfile env fname num0 verb).ret = .POWSPEC_ERR_FILE ∧
      (read_bigfile env fname num0 verb).data = none) := by
  have key : (∃ e, read_table h.Nf.toNat h.fp 0 0 = .error e) →
      (read_bigfile env fname num0 verb).ret = .POWSPEC_ERR_FILE ∧
      (read_bigfile env fname num0 verb).data = none := by
    rintro ⟨e, he⟩
    simp [read_bigfile, hh, he]
  exact ⟨fun hp => key (read_table_unparsed _ _ _ _ hp),
    fun hs => key (read_table_short _ _ _ _ hs)⟩

/-- Witness of C16 as amended: the shard line `a.dat two`, and no shard line. -/
theorem shard_line_errors_share_code_witness :
    (read_head (shard_env (str "a.dat two" ++ [10])) (str "cat/header")
        = .ok ⟨str "<f4", 1, 4, str "a.dat two" ++ [10]⟩ ∧
      (∃ l ∈ (header_lines (str "a.dat two" ++ [10])).take 1, line_parses l = false)) ∧
    ((read_bigfile (shard_env (str "a.dat two" ++ [10])) (str "cat/header") 0 0).ret
        = .POWSPEC_ERR_FILE ∧
      (read_bigfile (shard_env (str "a.dat two" ++ [10])) (str "cat/header") 0 0).data
        = none) ∧
    (read_head (shard_env []) (str "cat/header") = .ok ⟨str "<f4", 1, 4, []⟩ ∧
      (header_lines ([] : List Byte)).length < 1) ∧
    ((read_bigfile (shard_env []) (str "cat/header") 0 0).ret = .POWSPEC_ERR_FILE ∧
      (read_bigfile (shard_env []) (str "cat/header") 0 0).data = none) :=
  ⟨⟨by rfl, ⟨str "a.dat two" ++ [10], by decide, by decide⟩⟩,
    (shard_line_errors_share_code (shard_env (str "a.dat two" ++ [10])) (str "cat/header") 0 0
      ⟨str "<f4", 1, 4, str "a.dat two" ++ [10]⟩ (by rfl)).1
      ⟨str "a.dat two" ++ [10], by decide, by decide⟩,
    ⟨by rfl, by decide⟩,
    (shard_line_errors_share_code (shard_env []) (str "cat/header") 0 0
      ⟨str "<f4", 1, 4, []⟩ (by rfl)).2 (by decide)⟩

/-- C16, counterexample: with the shard line `a.dat two`, present but without an integer
record count, `read_bigfile` returns the very error code that it returns when the shard
line is missing: `POWSPEC_ERR_FILE` in both cases. -/
theorem parse_error_not_distinguished :
    line_parses (str "a.dat two" ++ [10]) = false ∧
    header_lines (shard_header (str "a.dat two" ++ [10]))
      = header_lines (shard_header []) ++ [str "a.dat two" ++ [10]] ∧
    (read_bigfile (shard_env (str "a.dat two" ++ [10])) (str "cat/header") 0 0).ret
      = (read_bigfile (shard_env []) (str "cat/header") 0 0).ret ∧
    (read_bigfile (shard_env []) (str "cat/header") 0 0).ret = .POWSPEC_ERR_FILE := by
  decide

/-! ## The outputs on an error -/

theorem store_length (data : List DATA) (n k : Nat) (v : Coord) :
    (store data n k v).length = data.length := by
  unfold store
  split
  · rfl
  · simp

theorem decode_length (parse : List Byte → Coord) (w stride : Nat) (chunk : List Byte) :
    ∀ (c : Nat) (data : List DATA) (max n : Nat),
      (decode parse w stride chunk c data max n).1.length = data.length := by
  intro c
  induction c with
  | zero => intro data max n; rfl
  | succ c ih =>
    intro data max n
    rw [decode, ih]
    simp only [store_length]

theorem decode_file_length (value0 : List Byte) (byte : Nat) (chunk : List Byte)
    (fsize : Nat) (data : List DATA) (n : Nat) :
    (decode_file value0 byte chunk fsize data n).1.length = data.length := by
  unfold decode_file
  split <;> split <;> exact decode_length _ _ _ _ _ _ _ _

/-- The record array keeps its length through the loop over the data files: it is never
resized. -/
theorem read_data_length (env : Env) (verb : Int) (path value0 : List Byte) (byte : Nat)
    (Nf : Int) :
    ∀ (table : List (List Byte × Nat)) (i : Nat) (st : Loop),
      (read_data env verb path value0 byte Nf table i st).data.length = st.data.length := by
  intro table
  induction table with
  | nil => intro i st; rfl
  | cons e t ih =>
    obtain ⟨name, fsize⟩ := e
    intro i st
    rw [read_data]
    cases env.fopen (path ++ name) with
    | none => rfl
    | some fp =>
      simp only
      split
      · rfl
      · rw [ih]
        exact decode_file_length _ _ _ _ _ _

theorem read_head_error_ne_ok (env : Env) (fname : List Byte) (e : Ret)
    (h : read_head env fname = .error e) : e ≠ .ok := by
  intro he
  subst he
  cases hf : env.fopen fname with
  | none => simp [read_head, hf] at h
  | some content =>
    cases hv : read_values 3 content with
    | none => simp [read_head, hf, hv] at h
    | some r =>
      obtain ⟨value, fp⟩ := r
      rw [read_head_eq env fname content value fp hf hv] at h
      split_ifs at h <;> cases h

/-- C13, as amended: what `read_bigfile` leaves in `*num` and `*data`.  An error found
in lines 73-104 (the header does not open, one of its three first lines is missing, the
dimension, the shard count or the format tag is refused) leaves `*num` and `*data` as
they were.  An error found later and before the allocation of the record array (a shard
line, a total of 0, a name or a readability check) leaves `*data` as it was; `*num`
holds the count accumulated so far.  Once the checks have passed, `*num` holds the total
and `*data` the allocated array of that many records, whether the data files are then
read or not.  The call returns 0 only when every data file was opened and held the
bytes requested. -/
theorem outputs_on_error (env : Env) (fname : List Byte) (num0 : Nat) (verb : Int) :
    (∀ e, read_head env fname = .error e →
      e ≠ .ok ∧ (read_bigfile env fname num0 verb).ret = e ∧
      (read_bigfile env fname num0 verb).num = num0 ∧
      (read_bigfile env fname num0 verb).data = none) ∧
    (∀ h, read_head env fname = .ok h →
      (∀ n, read_table h.Nf.toNat h.fp 0 0 = .error n →
        (read_bigfile env fname num0 verb).ret = .POWSPEC_ERR_FILE ∧
        (read_bigfile env fname num0 verb).num = n ∧
        (read_bigfile env fname num0 verb).data = none) ∧
      (∀ table num max, read_table h.Nf.toNat h.fp 0 0 = .ok (table, num, max) →
        (read_bigfile env fname num0 verb).num = num ∧
        (num = 0 ∨ check_files env (path_of fname) table = false →
          (read_bigfile env fname num0 verb).ret ≠ .ok ∧
          (read_bigfile env fname num0 verb).data = none) ∧
        (0 < num → check_files env (path_of fname) table = true →
          ∃ data, (read_bigfile env fname num0 verb).data = some data ∧
            data.length = num) ∧
        ((read_bigfile env fname num0 verb).ret = .ok →
          (counts table).sum * 3 * h.byte < 2 ^ 64 →
          ∀ e ∈ table, ∃ file, env.fopen (path_of fname ++ e.1) = some file ∧
            e.2 * 3 * h.byte ≤ file.length))) := by
  refine ⟨fun e he => ?_, fun h hh => ⟨fun n hn => ?_, fun table num max ht => ?_⟩⟩
  · exact ⟨read_head_error_ne_ok env fname e he, by simp [read_bigfile, he],
      by simp [read_bigfile, he], by simp [read_bigfile, he]⟩
  · exact ⟨by simp [read_bigfile, hh, hn], by simp [read_bigfile, hh, hn],
      by simp [read_bigfile, hh, hn]⟩
  · have hshape : read_bigfile env fname num0 verb =
        if num ≤ 0 then
          ⟨.POWSPEC_ERR_CATA, num, none, if verb ≠ 0 then [.header fname] else []⟩
        else if (!check_files env (path_of fname) table) = true then
          ⟨.POWSPEC_ERR_FILE, num, none, if verb ≠ 0 then [.header fname] else []⟩
        else finish verb h.Nf num
          (read_data env verb (path_of fname) h.value0 h.byte h.Nf table 0
            (start verb h num max (if verb ≠ 0 then [.header fname] else []))) := by
      unfold read_bigfile
      simp only [hh, ht]
    refine ⟨?_, ?_, ?_, ?_⟩
    · rw [hshape]
      split
      · rfl
      · split
        · rfl
        · exact finish_num _ _ _ _
    · rintro (h0 | hc)
      · rw [hshape, if_pos (by omega)]
        exact ⟨fun hne => Ret.noConfusion hne, rfl⟩
      · rw [hshape]
        split
        · exact ⟨fun hne => Ret.noConfusion hne, rfl⟩
        · rw [if_pos (by simp [hc])]
          exact ⟨fun hne => Ret.noConfusion hne, rfl⟩
    · intro hnum hc
      rw [hshape, if_neg (by omega), if_neg (by simp [hc]), finish_data]
      refine ⟨_, rfl, ?_⟩
      rw [read_data_length]
      simp [start]
    · intro hok hsz e he
      obtain ⟨file, hf, hl, _⟩ :=
        (read_bigfile_ok env fname num0 verb h table num max hh ht hsz hok).2.2 e he
      exact ⟨file, hf, hl⟩

/-- Witness of C13 as amended: a second data file that is too short, where `*num` and
`*data` are assigned, and a header of dimension 2, where they are left alone. -/
theorem outputs_on_error_witness :
    (read_head truncated_env (str "pos/header")
        = .ok ⟨str ">f8", 2, 8,
          str "000000: 1 : 1234" ++ [10] ++ str "000001: 2 : 5678" ++ [10]⟩ ∧
      read_table 2 (str "000000: 1 : 1234" ++ [10] ++ str "000001: 2 : 5678" ++ [10]) 0 0
        = .ok ([(str "000000", 1), (str "000001", 2)], 3, 2) ∧
      0 < 3 ∧
      check_files truncated_env (path_of (str "pos/header"))
        [(str "000000", 1), (str "000001", 2)] = true) ∧
    ((read_bigfile truncated_env (str "pos/header") 0 0).num = 3 ∧
      ∃ data, (read_bigfile truncated_env (str "pos/header") 0 0).data = some data ∧
        data.length = 3) ∧
    read_head (env_with (header_with (str "<f4") (str "2") (str "1")) 0) (str "cat/header")
      = .error .POWSPEC_ERR_CATA ∧
    ((read_bigfile (env_with (header_with (str "<f4") (str "2") (str "1")) 0)
        (str "cat/header") 7 0).ret = .POWSPEC_ERR_CATA ∧
      (read_bigfile (env_with (header_with (str "<f4") (str "2") (str "1")) 0)
        (str "cat/header") 7 0).num = 7 ∧
      (read_bigfile (env_with (header_with (str "<f4") (str "2") (str "1")) 0)
        (str "cat/header") 7 0).data = none) :=
  have w := ((outputs_on_error truncated_env (str "pos/header") 0 0).2
    ⟨str ">f8", 2, 8, str "000000: 1 : 1234" ++ [10] ++ str "000001: 2 : 5678" ++ [10]⟩
    (by rfl)).2 [(str "000000", 1), (str "000001", 2)] 3 2 (by rfl)
  have v := (outputs_on_error (env_with (header_with (str "<f4") (str "2") (str "1")) 0)
    (str "cat/header") 7 0).1 .POWSPEC_ERR_CATA (by rfl)
  ⟨⟨by rfl, by rfl, by decide, by rfl⟩, ⟨w.1, w.2.2.1 (by decide) (by rfl)⟩, by rfl, v.2⟩

/-- C13, counterexample: the second of two data files is too short.  `read_bigfile`
returns `POWSPEC_ERR_FILE` after the first data file was decoded, and the outputs are
not as before the call: `*num`, 0 before, is 3, and `*data` is the allocated array, in
which the record of the first file is decoded and the two others are indeterminate. -/
theorem outputs_changed_on_read_failure :
    read_bigfile truncated_env (str "pos/header") 0 0 =
      ⟨.POWSPEC_ERR_FILE, 3,
        some [⟨[.ofDouble 0x3ff0000000000000, .ofDouble 0x4000000000000000,
            .ofDouble 0x4008000000000000]⟩,
          ⟨[.indet, .indet, .indet]⟩, ⟨[.indet, .indet, .indet]⟩], []⟩ ∧
    (read_bigfile truncated_env (str "pos/header") 0 0).num ≠ 0 ∧
    (read_bigfile truncated_env (str "pos/header") 0 0).data ≠ none := by
  decide

/-! ## The write cursor and the scratch buffer -/

theorem decode_passes_fst (parse : List Byte → Coord) (w stride : Nat) (chunk : List Byte)
    (i : Nat) : ∀ (c : Nat) (data : List DATA) (max n : Nat),
      (decode_passes parse w stride chunk i c data max n).1
        = decode parse w stride chunk c data max n := by
  intro c
  induction c with
  | zero => intro data max n; rfl
  | succ c ih =>
    intro data max n
    rw [decode_passes, decode]
    exact ih _ _ _

theorem decode_file_passes_fst (value0 : List Byte) (byte : Nat) (chunk : List Byte)
    (fsize : Nat) (data : List DATA) (n i : Nat) :
    (decode_file_passes value0 byte chunk fsize data n i).1
      = decode_file value0 byte chunk fsize data n := by
  unfold decode_file_passes decode_file
  split <;> split <;> exact decode_passes_fst _ _ _ _ _ _ _ _ _

/-- Listing the passes does not change the loop: its first component is `read_data`. -/
theorem read_data_passes_fst (env : Env) (verb : Int) (path value0 : List Byte) (byte : Nat)
    (Nf : Int) : ∀ (table : List (List Byte × Nat)) (i : Nat) (st : Loop),
      (read_data_passes env verb path value0 byte Nf table i st).1
        = read_data env verb path value0 byte Nf table i st := by
  intro table
  induction table with
  | nil => intro i st; rfl
  | cons e t ih =>
    obtain ⟨name, fsize⟩ := e
    intro i st
    rw [read_data_passes, read_data]
    cases env.fopen (path ++ name) with
    | none => rfl
    | some fp =>
      simp only
      split
      · rfl
      · simp only [ih, decode_file_passes_fst]

/-- The cursor advances by 1 per pass of a loop over the records. -/
theorem decode_cursor (parse : List Byte → Coord) (w stride : Nat) (chunk : List Byte) :
    ∀ (c : Nat) (data : List DATA) (max n : Nat), n + c < 2 ^ 64 →
      (decode parse w stride chunk c data max n).2 = n + c := by
  intro c
  induction c with
  | zero => intro data max n _; rfl
  | succ c ih =>
    intro data max n hn
    rw [decode, sz_of_lt (n + 1) (by omega), ih _ _ _ (by omega)]
    omega

/-- The passes of a loop over `c` records: pass `r` writes record `n + r` from offset
`max + r * stride`. -/
theorem decode_passes_snd (parse : List Byte → Coord) (w stride : Nat) (chunk : List Byte)
    (i : Nat) : ∀ (c : Nat) (data : List DATA) (max n : Nat), n + c < 2 ^ 64 →
      max + c * stride < 2 ^ 64 →
      (decode_passes parse w stride chunk i c data max n).2
        = (List.range c).map (fun r => ⟨i, n + r, max + r * stride⟩) := by
  intro c
  induction c with
  | zero => intro data max n _ _; rfl
  | succ c ih =>
    intro data max n hn hmax
    have hm : max + stride + c * stride < 2 ^ 64 := by
      rw [Nat.add_mul, Nat.one_mul] at hmax; omega
    rw [decode_passes, sz_of_lt (n + 1) (by omega), sz_of_lt (max + stride) (by omega)]
    simp only
    rw [ih _ _ _ (by omega) hm, List.range_succ_eq_map, List.map_cons, List.map_map]
    refine congrArg₂ _ (by simp) ?_
    refine List.map_congr_left fun r _ => ?_
    simp only [Function.comp, Nat.succ_eq_add_one, Pass.mk.injEq, true_and]
    constructor
    · omega
    · rw [Nat.add_mul, Nat.one_mul]; omega

theorem decode_file_cursor (value0 : List Byte) (byte : Nat) (chunk : List Byte)
    (fsize : Nat) (data : List DATA) (n : Nat) (hn : n + fsize < 2 ^ 64) :
    (decode_file value0 byte chunk fsize data n).2 = n + fsize := by
  unfold decode_file
  split <;> split <;> exact decode_cursor _ _ _ _ _ _ _ _ hn

theorem decode_file_passes_snd (value0 : List Byte) (byte : Nat) (hb : byte = 4 ∨ byte = 8)
    (chunk : List Byte) (fsize : Nat) (data : List DATA) (n i : Nat)
    (hn : n + fsize < 2 ^ 64) (hmax : fsize * (3 * byte) < 2 ^ 64) :
    (decode_file_passes value0 byte chunk fsize data n i).2
      = (List.range fsize).map (fun r => ⟨i, n + r, r * (3 * byte)⟩) := by
  have key : ∀ (parse : List Byte → Coord) (w : Nat), fsize * (3 * w) < 2 ^ 64 →
      (decode_passes parse w (3 * w) chunk i fsize data 0 n).2
        = (List.range fsize).map (fun r => ⟨i, n + r, r * (3 * w)⟩) := by
    intro parse w h
    rw [decode_passes_snd parse w (3 * w) chunk i fsize data 0 n hn (by omega)]
    simp
  unfold decode_file_passes
  rcases hb with rfl | rfl
  · split
    · exact key _ 4 hmax
    · exact key _ 4 hmax
  · split
    · exact key _ 8 hmax
    · exact key _ 8 hmax

/-- The passes of a run of the loop over the data files are those of the files it has
read, the first `m` of the table; the cursor has advanced by their number of records;
and a run that ends without an error has read them all. -/
theorem read_data_passes_run (env : Env) (verb : Int) (path value0 : List Byte) (byte : Nat)
    (Nf : Int) (hb : byte = 4 ∨ byte = 8) :
    ∀ (table : List (List Byte × Nat)) (i : Nat) (st : Loop),
      st.n + (counts table).sum < 2 ^ 64 → (counts table).sum * (3 * byte) < 2 ^ 64 →
      ∃ m, m ≤ table.length ∧
        (read_data_passes env verb path value0 byte Nf table i st).2
          = passes_of (3 * byte) (table.take m) i st.n ∧
        (read_data_passes env verb path value0 byte Nf table i st).1.n
          = st.n + (counts (table.take m)).sum ∧
        ((read_data_passes env verb path value0 byte Nf table i st).1.ret = .ok →
          m = table.length) := by
  intro table
  induction table with
  | nil =>
    intro i st _ _
    exact ⟨0, Nat.le_refl _, rfl, rfl, fun _ => rfl⟩
  | cons e t ih =>
    obtain ⟨name, fsize⟩ := e
    intro i st hn hsum
    rw [counts_cons] at hn hsum
    rw [Nat.add_mul] at hsum
    have stop : ∀ st2 : Loop, st2.ret = .POWSPEC_ERR_FILE → st2.n = st.n →
        ∃ m, m ≤ ((name, fsize) :: t).length ∧
          ([] : List Pass) = passes_of (3 * byte) (((name, fsize) :: t).take m) i st.n ∧
          st2.n = st.n + (counts (((name, fsize) :: t).take m)).sum ∧
          (st2.ret = .ok → m = ((name, fsize) :: t).length) := by
      intro st2 hret hn2
      refine ⟨0, Nat.zero_le _, rfl, by rw [hn2]; rfl, fun hok => ?_⟩
      rw [hret] at hok
      cases hok
    rw [read_data_passes]
    cases env.fopen (path ++ name) with
    | none => exact stop _ rfl rfl
    | some fp =>
      simp only
      by_cases hr : (fread st.chunk (sz (fsize * 3 * byte)) fp).2 ≠ 1
      · rw [if_pos hr]
        exact stop _ rfl rfl
      · rw [if_neg hr]
        simp only
        have hd1 : (decode_file_passes value0 byte
            (fread st.chunk (sz (fsize * 3 * byte)) fp).1 fsize st.data st.n i).1.2
            = st.n + fsize := by
          rw [decode_file_passes_fst]
          exact decode_file_cursor _ _ _ _ _ _ (by omega)
        have hd2 := decode_file_passes_snd value0 byte hb
          (fread st.chunk (sz (fsize * 3 * byte)) fp).1 fsize st.data st.n i (by omega)
          (by omega)
        generalize decode_file_passes value0 byte
          (fread st.chunk (sz (fsize * 3 * byte)) fp).1 fsize st.data st.n i = d at hd1 hd2 ⊢
        obtain ⟨m, hm, hp, hcur, hall⟩ := ih (i + 1)
          ⟨.ok, (fread st.chunk (sz (fsize * 3 * byte)) fp).1, d.1.1, d.1.2,
            if verb ≠ 0 ∧ (i : Int) ≠ Nf - 1
              then st.out ++ [.percent (((i : Int) + 1) / Nf)] else st.out⟩
          (by simp only [hd1]; omega) (by omega)
        refine ⟨m + 1, by simp only [List.length_cons]; omega, ?_, ?_, ?_⟩
        · rw [hp, hd2, List.take_succ_cons, passes_of]
          simp only [hd1]
        · rw [hcur, List.take_succ_cons, counts_cons]
          simp only [hd1]
          omega
        · intro hok
          rw [hall hok]
          rfl

/-- The cursors of the passes over the files of a table are consecutive from the cursor
at which the first file is reached. -/
theorem passes_of_cursors (stride : Nat) :
    ∀ (t : List (List Byte × Nat)) (i n : Nat),
      (passes_of stride t i n).map Pass.n = List.range' n (counts t).sum := by
  intro t
  induction t with
  | nil => intro i n; rfl
  | cons e t ih =>
    obtain ⟨name, c⟩ := e
    intro i n
    rw [passes_of, List.map_append, ih, List.map_map, counts_cons]
    have : (Pass.n ∘ fun r => (⟨i, n + r, r * stride⟩ : Pass)) = fun r => n + r := rfl
    rw [this, ← List.range'_eq_map_range, List.range'_append_1, Nat.add_comm]

/-- A pass over the files of a table belongs to one file `j` and to one record `r` of
it: it writes the record at the sum of the counts of the files before, plus `r`, from
offset `r * stride`. -/
theorem passes_of_mem (stride : Nat) :
    ∀ (t : List (List Byte × Nat)) (i n : Nat) (p : Pass), p ∈ passes_of stride t i n →
      ∃ j r, ∃ hj : j < t.length, p.file = i + j ∧ r < t[j].2 ∧
        p.n = n + (counts (t.take j)).sum + r ∧ p.off = r * stride := by
  intro t
  induction t with
  | nil => intro i n p hp; cases hp
  | cons e t ih =>
    obtain ⟨name, c⟩ := e
    intro i n p hp
    rw [passes_of, List.mem_append] at hp
    rcases hp with hp | hp
    · obtain ⟨r, hr, rfl⟩ := List.mem_map.mp hp
      exact ⟨0, r, by simp, rfl, by simpa using hr, by simp [counts], rfl⟩
    · obtain ⟨j, r, hj, h1, h2, h3, h4⟩ := ih (i + 1) (n + c) p hp
      refine ⟨j + 1, r, by simpa using hj, by omega, by simpa using h2, ?_, h4⟩
      rw [List.take_succ_cons, counts_cons, h3]
      omega

theorem counts_take_le (t : List (List Byte × Nat)) (m : Nat) :
    (counts (t.take m)).sum ≤ (counts t).sum := by
  induction t generalizing m with
  | nil => simp
  | cons e t ih =>
    obtain ⟨name, c⟩ := e
    cases m with
    | zero => simp [counts]
    | succ m =>
      rw [List.take_succ_cons, counts_cons, counts_cons]
      exact Nat.add_le_add_left (ih m) c

/-- The sum of the counts before record `r` of file `j`, plus `r`, is below the total. -/
theorem counts_take_add_lt (t : List (List Byte × Nat)) (j r : Nat) (hj : j < t.length)
    (hr : r < t[j].2) : (counts (t.take j)).sum + r < (counts t).sum := by
  induction t generalizing j with
  | nil => simp at hj
  | cons e t ih =>
    obtain ⟨name, c⟩ := e
    cases j with
    | zero =>
      simp only [List.getElem_cons_zero] at hr
      rw [counts_cons]
      simp only [List.take_zero, counts, List.map_nil, List.sum_nil]
      omega
    | succ j =>
      simp only [List.getElem_cons_succ] at hr
      rw [List.take_succ_cons, counts_cons, counts_cons]
      have := ih j (by simpa using hj) hr
      omega

/-- The loop over a table continues, after the files of a first part were read without
an error, with the files of the rest. -/
theorem read_data_append (env : Env) (verb : Int) (path value0 : List Byte) (byte : Nat)
    (Nf : Int) : ∀ (t1 t2 : List (List Byte × Nat)) (i : Nat) (st : Loop),
      (read_data env verb path value0 byte Nf t1 i st).ret = .ok →
      read_data env verb path value0 byte Nf (t1 ++ t2) i st
        = read_data env verb path value0 byte Nf t2 (i + t1.length)
            (read_data env verb path value0 byte Nf t1 i st) := by
  intro t1
  induction t1 with
  | nil => intro t2 i st _; rfl
  | cons e t ih =>
    obtain ⟨name, fsize⟩ := e
    intro t2 i st hok
    rw [List.cons_append, read_data]
    rw [read_data] at hok ⊢
    cases hf : env.fopen (path ++ name) with
    | none => rw [hf] at hok; cases hok
    | some fp =>
      rw [hf] at hok
      simp only at hok ⊢
      by_cases hr : (fread st.chunk (sz (fsize * 3 * byte)) fp).2 ≠ 1
      · rw [if_pos hr] at hok; cases hok
      · rw [if_neg hr] at hok
        simp only [if_neg hr]
        rw [ih t2 (i + 1) _ hok, List.length_cons]
        congr 1
        omega

/-- The value of `max` after the loop over the shard lines is the largest of the value
before and of the counts read. -/
theorem read_table_max :
    ∀ (k : Nat) (fp : List Byte) (num max : Nat) (t : List (List Byte × Nat))
      (num1 max1 : Nat), read_table k fp num max = .ok (t, num1, max1) →
      max ≤ max1 ∧ (∀ e ∈ t, e.2 ≤ max1) ∧ (max1 = max ∨ ∃ e ∈ t, e.2 = max1) := by
  intro k
  induction k with
  | zero =>
    intro fp num max t num1 max1 h
    simp only [read_table, Except.ok.injEq, Prod.mk.injEq] at h
    obtain ⟨rfl, _, rfl⟩ := h
    exact ⟨Nat.le_refl _, ⟨fun e he => absurd he (List.not_mem_nil e), Or.inl rfl⟩⟩
  | succ k ih =>
    intro fp num max t num1 max1 h
    rw [read_table] at h
    split at h
    · cases h
    · split at h
      · cases h
      · split at h
        · cases h
        · rename_i fsize _
          split at h
          · cases h
          · rename_i t2 num2 max2 hrec
            simp only [Except.ok.injEq, Prod.mk.injEq] at h
            obtain ⟨rfl, rfl, rfl⟩ := h
            obtain ⟨h1, h2, h3⟩ := ih _ _ _ _ _ _ hrec
            have hle : max ≤ (if max < fsize then fsize else max) := by split <;> omega
            have hfs : fsize ≤ (if max < fsize then fsize else max) := by split <;> omega
            refine ⟨Nat.le_trans hle h1, ?_, ?_⟩
            · intro e he
              rcases List.mem_cons.mp he with rfl | he
              · exact Nat.le_trans hfs h1
              · exact h2 e he
            · rcases h3 with h3 | ⟨e, he, hee⟩
              · by_cases hlt : max < fsize
                · rw [if_pos hlt] at h3
                  exact Or.inr ⟨_, List.mem_cons_self _ _, h3.symm⟩
                · rw [if_neg hlt] at h3
                  exact Or.inl h3
              · exact Or.inr ⟨e, List.mem_cons_of_mem _ he, hee⟩

theorem fread_length (chunk fp : List Byte) (size : Nat) (h : size ≤ chunk.length) :
    (fread chunk size fp).1.length = chunk.length := by
  unfold fread
  split
  · rfl
  · split
    · simp only [List.length_append, List.length_take, List.length_drop]; omega
    · simp only [List.length_append, List.length_drop]; omega

/-- The scratch buffer keeps its length through the loop over the data files when every
request fits in it. -/
theorem read_data_chunk_length (env : Env) (verb : Int) (path value0 : List Byte)
    (byte : Nat) (Nf : Int) :
    ∀ (table : List (List Byte × Nat)) (i : Nat) (st : Loop),
      (∀ e ∈ table, sz (e.2 * 3 * byte) ≤ st.chunk.length) →
      (read_data env verb path value0 byte Nf table i st).chunk.length
        = st.chunk.length := by
  intro table
  induction table with
  | nil => intro i st _; rfl
  | cons e t ih =>
    obtain ⟨name, fsize⟩ := e
    intro i st hfit
    have h1 := fread_length st.chunk
    have hsize := hfit (name, fsize) (List.mem_cons_self _ _)
    rw [read_data]
    cases env.fopen (path ++ name) with
    | none => rfl
    | some fp =>
      simp only
      split
      · exact h1 fp _ hsize
      · rw [ih]
        · exact h1 fp _ hsize
        · intro e he
          simp only [h1 fp _ hsize]
          exact hfit e (List.mem_cons_of_mem _ he)

/-- The run of `load_passes` while the sizes do not wrap around: `*num` is the sum of
the counts, and the passes are those of the first `m` files. -/
theorem load_passes_run (env : Env) (fname : List Byte) (verb : Int) (h : Head)
    (table : List (List Byte × Nat)) (num max : Nat)
    (hh : read_head env fname = .ok h)
    (ht : read_table h.Nf.toNat h.fp 0 0 = .ok (table, num, max))
    (hsz : (counts table).sum * 3 * h.byte < 2 ^ 64) :
    num = (counts table).sum ∧
    ∃ m, m ≤ table.length ∧
      (load_passes env fname verb h table num max).2
        = passes_of (3 * h.byte) (table.take m) 0 0 ∧
      (load_passes env fname verb h table num max).1.n = (counts (table.take m)).sum ∧
      ((load_passes env fname verb h table num max).1.ret = .ok → m = table.length) := by
  have hb := read_head_byte env fname h hh
  have hsum : (counts table).sum < 2 ^ 64 := by
    rcases hb with hb | hb <;> rw [hb] at hsz <;> omega
  have hnum : num = (counts table).sum := by
    rw [(read_table_ok _ _ _ _ _ _ _ (by decide) ht).2, Nat.zero_add, sz_of_lt _ hsum]
  refine ⟨hnum, ?_⟩
  obtain ⟨m, hm, hp, hcur, hall⟩ := read_data_passes_run env verb (path_of fname) h.value0
    h.byte h.Nf hb table 0 (start verb h num max (if verb ≠ 0 then [.header fname] else []))
    (by simpa [start] using hsum) (by rw [← Nat.mul_assoc]; exact hsz)
  refine ⟨m, hm, hp, ?_, hall⟩
  rw [load_passes, hcur]
  simp [start]

/-- The write cursor of the decode loops while the sizes do not wrap around.  For a
header that `read_bigfile` accepts, with the table of data files read from it and a
payload below `2 ^ 64` bytes:
the loop starts with the cursor at 0 on an array of `*num` records; the cursors of the
passes in which records are written are `0, 1, 2, ...`, one more per record decoded, up
to the cursor at the end of the loop; each of them is below `*num`; after the first
`i + 1` data files were read without an error the cursor is `c_0 + ... + c_i`, and the
loop goes on from that state with the other files; and when the call returns 0 the
cursor is `*num`. -/
theorem write_cursor_in_range (env : Env) (fname : List Byte) (num0 : Nat) (verb : Int)
    (h : Head) (table : List (List Byte × Nat)) (num max : Nat)
    (hh : read_head env fname = .ok h)
    (ht : read_table h.Nf.toNat h.fp 0 0 = .ok (table, num, max))
    (hsz : (counts table).sum * 3 * h.byte < 2 ^ 64) :
    (load_passes env fname verb h table num max).1
      = read_data env verb (path_of fname) h.value0 h.byte h.Nf table 0
          (start verb h num max (if verb ≠ 0 then [.header fname] else [])) ∧
    (start verb h num max (if verb ≠ 0 then [.header fname] else [])).n = 0 ∧
    (start verb h num max (if verb ≠ 0 then [.header fname] else [])).data.length = num ∧
    (load_passes env fname verb h table num max).2.map Pass.n
      = List.range (load_passes env fname verb h table num max).1.n ∧
    (∀ p ∈ (load_passes env fname verb h table num max).2, p.n < num) ∧
    (∀ i, i < table.length →
      (after_files env fname verb h table num max (i + 1)).ret = .ok →
      (after_files env fname verb h table num max (i + 1)).n
        = (counts (table.take (i + 1))).sum ∧
      (load_passes env fname verb h table num max).1
        = read_data env verb (path_of fname) h.value0 h.byte h.Nf (table.drop (i + 1))
            (i + 1) (after_files env fname verb h table num max (i + 1))) ∧
    ((read_bigfile env fname num0 verb).ret = .ok →
      (load_passes env fname verb h table num max).1.n = num) := by
  have hb := read_head_byte env fname h hh
  obtain ⟨hnum, m, hm, hp, hcur, hall⟩ := load_passes_run env fname verb h table num max hh ht hsz
  have hle := counts_take_le table m
  have herase : (load_passes env fname verb h table num max).1
      = read_data env verb (path_of fname) h.value0 h.byte h.Nf table 0
          (start verb h num max (if verb ≠ 0 then [.header fname] else [])) :=
    read_data_passes_fst _ _ _ _ _ _ _ _ _
  have hcursors : (load_passes env fname verb h table num max).2.map Pass.n
      = List.range (load_passes env fname verb h table num max).1.n := by
    rw [hp, hcur, passes_of_cursors, List.range_eq_range']
  refine ⟨herase, rfl, by simp [start], hcursors, ?_, ?_, ?_⟩
  · intro p hp2
    have hmem : p.n ∈ List.range (load_passes env fname verb h table num max).1.n := by
      rw [← hcursors]
      exact List.mem_map_of_mem _ hp2
    rw [List.mem_range, hcur] at hmem
    omega
  · intro i hi hok
    have hb2 := hb
    have hsum2 : (counts (table.take (i + 1))).sum * (3 * h.byte) < 2 ^ 64 := by
      have := Nat.mul_le_mul_right (3 * h.byte) (counts_take_le table (i + 1))
      rw [← Nat.mul_assoc (counts table).sum] at this
      omega
    have hsum3 : (counts (table.take (i + 1))).sum < 2 ^ 64 := by
      rcases hb with hb | hb <;> rw [hb] at hsum2 <;> omega
    obtain ⟨m2, hm2, _, hcur2, hall2⟩ := read_data_passes_run env verb (path_of fname)
      h.value0 h.byte h.Nf hb2 (table.take (i + 1)) 0
      (start verb h num max (if verb ≠ 0 then [.header fname] else []))
      (by simpa [start] using hsum3) hsum2
    rw [read_data_passes_fst] at hcur2 hall2
    have hm3 := hall2 hok
    constructor
    · unfold after_files
      rw [hcur2, hm3, List.take_length]
      simp [start]
    · rw [herase]
      unfold after_files
      have happ := read_data_append env verb (path_of fname) h.value0 h.byte h.Nf
        (table.take (i + 1)) (table.drop (i + 1)) 0
        (start verb h num max (if verb ≠ 0 then [.header fname] else [])) hok
      rw [List.take_append_drop] at happ
      rw [happ, List.length_take, Nat.zero_add, Nat.min_eq_left (by omega)]
  · intro hok
    have hret : (load_passes env fname verb h table num max).1.ret = .ok := by
      rw [herase]
      unfold read_bigfile at hok
      simp only [hh, ht] at hok
      by_cases h1 : num ≤ 0
      · rw [if_pos h1] at hok; cases hok
      · rw [if_neg h1] at hok
        by_cases h2 : (!check_files env (path_of fname) table) = true
        · rw [if_pos h2] at hok; cases hok
        · rw [if_neg h2] at hok
          exact finish_ok _ _ _ _ hok
    rw [hcur, hall hret, List.take_length, hnum]

/-- The catalog of two files with 1 and 2 records: the passes write the records 0, 1, 2,
and the cursor ends at 3. -/
theorem write_cursor_in_range_sample :
    (read_head sample2_env (str "pos/header")
        = .ok ⟨str ">f8", 2, 8,
          str "000000: 1 : 1234" ++ [10] ++ str "000001: 2 : 5678" ++ [10]⟩ ∧
      read_table 2 (str "000000: 1 : 1234" ++ [10] ++ str "000001: 2 : 5678" ++ [10]) 0 0
        = .ok ([(str "000000", 1), (str "000001", 2)], 3, 2) ∧
      (counts [(str "000000", 1), (str "000001", 2)]).sum * 3 * 8 < 2 ^ 64 ∧
      (read_bigfile sample2_env (str "pos/header") 0 0).ret = .ok) ∧
    ((∀ p ∈ (load_passes sample2_env (str "pos/header") 0
          ⟨str ">f8", 2, 8, str "000000: 1 : 1234" ++ [10] ++ str "000001: 2 : 5678" ++ [10]⟩
          [(str "000000", 1), (str "000001", 2)] 3 2).2, p.n < 3) ∧
      (load_passes sample2_env (str "pos/header") 0
          ⟨str ">f8", 2, 8, str "000000: 1 : 1234" ++ [10] ++ str "000001: 2 : 5678" ++ [10]⟩
          [(str "000000", 1), (str "000001", 2)] 3 2).1.n = 3) ∧
    (load_passes sample2_env (str "pos/header") 0
        ⟨str ">f8", 2, 8, str "000000: 1 : 1234" ++ [10] ++ str "000001: 2 : 5678" ++ [10]⟩
        [(str "000000", 1), (str "000001", 2)] 3 2).2
      = [⟨0, 0, 0⟩, ⟨1, 1, 0⟩, ⟨1, 2, 24⟩] :=
  have w := write_cursor_in_range sample2_env (str "pos/header") 0 0
    ⟨str ">f8", 2, 8, str "000000: 1 : 1234" ++ [10] ++ str "000001: 2 : 5678" ++ [10]⟩
    [(str "000000", 1), (str "000001", 2)] 3 2 (by rfl) (by rfl) (by decide)
  ⟨⟨by rfl, by rfl, by decide, by decide⟩, ⟨w.2.2.2.2.1, w.2.2.2.2.2.2 (by decide)⟩, by decide⟩

theorem count_le_sum (table : List (List Byte × Nat)) (e : List Byte × Nat)
    (he : e ∈ table) : e.2 ≤ (counts table).sum := by
  induction table with
  | nil => cases he
  | cons a t ih =>
    obtain ⟨name, c⟩ := a
    rw [counts_cons]
    rcases List.mem_cons.mp he with rfl | he
    · exact Nat.le_add_right _ _
    · exact Nat.le_trans (ih he) (Nat.le_add_left _ _)

/-- The bounds of the scratch buffer while the sizes do not wrap around.  For a header
that `read_bigfile` accepts, with the table of data files read from it and a payload
below `2 ^ 64` bytes: `chunk` is
allocated with `max * 3 * byte` bytes, where `max` is the largest count of the table; the
request of `c * 3 * byte` bytes of every file fits in it; the buffer has the same length
at the end of the loop; and every pass of the record loops belongs to a record `r` of
its file, below the count `c` of the file, and decodes, for `k = 0, 1, 2`, the slice
from `r * 3 * byte + k * byte` of `byte` bytes, which ends within the `c * 3 * byte`
bytes read for the file. -/
theorem scratch_buffer_in_range (env : Env) (fname : List Byte) (verb : Int)
    (h : Head) (table : List (List Byte × Nat)) (num max : Nat)
    (hh : read_head env fname = .ok h)
    (ht : read_table h.Nf.toNat h.fp 0 0 = .ok (table, num, max))
    (hsz : (counts table).sum * 3 * h.byte < 2 ^ 64) :
    (start verb h num max (if verb ≠ 0 then [.header fname] else [])).chunk.length
      = max * 3 * h.byte ∧
    (∀ e ∈ table, e.2 ≤ max) ∧ (∃ e ∈ table, e.2 = max) ∧
    (∀ e ∈ table, e.2 * 3 * h.byte
      ≤ (start verb h num max (if verb ≠ 0 then [.header fname] else [])).chunk.length) ∧
    (load_passes env fname verb h table num max).1.chunk.length
      = (start verb h num max (if verb ≠ 0 then [.header fname] else [])).chunk.length ∧
    (∀ p ∈ (load_passes env fname verb h table num max).2,
      ∃ r, ∃ hj : p.file < table.length, r < table[p.file].2 ∧
        p.off = r * 3 * h.byte ∧
        ∀ k, k < 3 → p.off + k * h.byte + h.byte ≤ table[p.file].2 * 3 * h.byte) := by
  have hb := read_head_byte env fname h hh
  obtain ⟨hmax0, hmaxle, hmaxmem⟩ := read_table_max _ _ _ _ _ _ _ ht
  obtain ⟨hlen, _⟩ := read_table_ok _ _ _ _ _ _ _ (by decide) ht
  obtain ⟨_, _, _, _, _, _, _, hNf, _⟩ := read_head_ok env fname h hh
  have hmem : ∃ e ∈ table, e.2 = max := by
    rcases hmaxmem with h0 | hm
    · cases table with
      | nil => simp at hlen; omega
      | cons e t =>
        refine ⟨e, List.mem_cons_self _ _, ?_⟩
        have := hmaxle e (List.mem_cons_self _ _)
        omega
    · exact hm
  obtain ⟨emax, hemax, hemaxeq⟩ := hmem
  have hmaxsum : max ≤ (counts table).sum := hemaxeq ▸ count_le_sum table emax hemax
  have hmul : max * 3 * h.byte ≤ (counts table).sum * 3 * h.byte :=
    Nat.mul_le_mul_right _ (Nat.mul_le_mul_right _ hmaxsum)
  have hchunk : (start verb h num max (if verb ≠ 0 then [.header fname] else [])).chunk.length
      = max * 3 * h.byte := by
    simp only [start, List.length_replicate]
    exact sz_of_lt _ (by omega)
  have hfit : ∀ e ∈ table, e.2 * 3 * h.byte ≤ max * 3 * h.byte := fun e he =>
    Nat.mul_le_mul_right _ (Nat.mul_le_mul_right _ (hmaxle e he))
  refine ⟨hchunk, hmaxle, ⟨emax, hemax, hemaxeq⟩, ?_, ?_, ?_⟩
  · intro e he
    rw [hchunk]
    exact hfit e he
  · rw [load_passes, read_data_passes_fst]
    apply read_data_chunk_length
    intro e he
    rw [hchunk, sz_of_lt _ (by have := hfit e he; omega)]
    exact hfit e he
  · obtain ⟨_, m, hm, hp, _, _⟩ := load_passes_run env fname verb h table num max hh ht hsz
    intro p hp2
    rw [hp] at hp2
    obtain ⟨j, r, hj, h1, h2, _, h4⟩ := passes_of_mem _ _ _ _ p hp2
    rw [Nat.zero_add] at h1
    have hj2 : j < table.length := by
      rw [List.length_take] at hj
      omega
    rw [List.getElem_take] at h2
    subst h1
    refine ⟨r, hj2, h2, by rw [h4, Nat.mul_assoc], fun k hk => ?_⟩
    rw [h4]
    have h5 : (r + 1) * (3 * h.byte) ≤ table[p.file].2 * (3 * h.byte) :=
      Nat.mul_le_mul_right _ h2
    have h6 : k * h.byte ≤ 2 * h.byte := Nat.mul_le_mul_right _ (by omega)
    rw [Nat.mul_assoc]
    rw [Nat.add_mul] at h5
    omega

/-- The catalog of two files with 1 and 2 records of 8-byte elements: the buffer has
`2 * 3 * 8` bytes and both requests fit in it. -/
theorem scratch_buffer_in_range_sample :
    (read_head sample2_env (str "pos/header")
        = .ok ⟨str ">f8", 2, 8,
          str "000000: 1 : 1234" ++ [10] ++ str "000001: 2 : 5678" ++ [10]⟩ ∧
      read_table 2 (str "000000: 1 : 1234" ++ [10] ++ str "000001: 2 : 5678" ++ [10]) 0 0
        = .ok ([(str "000000", 1), (str "000001", 2)], 3, 2) ∧
      (counts [(str "000000", 1), (str "000001", 2)]).sum * 3 * 8 < 2 ^ 64) ∧
    ((start 0 ⟨str ">f8", 2, 8,
          str "000000: 1 : 1234" ++ [10] ++ str "000001: 2 : 5678" ++ [10]⟩ 3 2
        (if (0 : Int) ≠ 0 then [.header (str "pos/header")] else [])).chunk.length
        = 2 * 3 * 8 ∧
      ∀ e ∈ [(str "000000", 1), (str "000001", 2)], e.2 * 3 * 8
        ≤ (start 0 ⟨str ">f8", 2, 8,
            str "000000: 1 : 1234" ++ [10] ++ str "000001: 2 : 5678" ++ [10]⟩ 3 2
          (if (0 : Int) ≠ 0 then [.header (str "pos/header")] else [])).chunk.length) :=
  have w := scratch_buffer_in_range sample2_env (str "pos/header") 0
    ⟨str ">f8", 2, 8, str "000000: 1 : 1234" ++ [10] ++ str "000001: 2 : 5678" ++ [10]⟩
    [(str "000000", 1), (str "000001", 2)] 3 2 (by rfl) (by rfl) (by decide)
  ⟨⟨by rfl, by rfl, by decide⟩, ⟨w.1, w.2.2.2.1⟩⟩

/-! ## Sizes that wrap around -/

theorem decode_passes_length (parse : List Byte → Coord) (w stride : Nat)
    (chunk : List Byte) (i : Nat) : ∀ (c : Nat) (data : List DATA) (max n : Nat),
      (decode_passes parse w stride chunk i c data max n).2.length = c := by
  intro c
  induction c with
  | zero => intro data max n; rfl
  | succ c ih =>
    intro data max n
    rw [decode_passes]
    simp only [List.length_cons, ih]

/-- The first `k` passes of a loop over `c` records, while the cursor and the offset do
not wrap around: pass `r` writes record `n + r` from offset `max + r * stride`, whatever
the length of the array and of the buffer. -/
theorem decode_passes_take (parse : List Byte → Coord) (w stride : Nat)
    (chunk : List Byte) (i : Nat) : ∀ (c k : Nat) (data : List DATA) (max n : Nat),
      k ≤ c → n + k < 2 ^ 64 → max + k * stride < 2 ^ 64 →
      (decode_passes parse w stride chunk i c data max n).2.take k
        = (List.range k).map (fun r => ⟨i, n + r, max + r * stride⟩) := by
  intro c
  induction c with
  | zero =>
    intro k data max n hk _ _
    have hk0 : k = 0 := by omega
    subst hk0
    rfl
  | succ c ih =>
    intro k data max n hk hn hmax
    cases k with
    | zero => rfl
    | succ k =>
      have hm : max + stride + k * stride < 2 ^ 64 := by
        rw [Nat.add_mul, Nat.one_mul] at hmax; omega
      rw [decode_passes, sz_of_lt (n + 1) (by omega), sz_of_lt (max + stride) (by omega)]
      simp only [List.take_succ_cons]
      rw [ih k _ _ _ (by omega) (by omega) hm, List.range_succ_eq_map, List.map_cons,
        List.map_map]
      refine congrArg₂ _ (by simp) ?_
      refine List.map_congr_left fun r _ => ?_
      simp only [Function.comp, Nat.succ_eq_add_one, Pass.mk.injEq, true_and]
      constructor
      · omega
      · rw [Nat.add_mul, Nat.one_mul]; omega

/-- The passes over the first data file.  When the first data file, of count `c`, is
opened and `fread` delivers the bytes requested, the first `k` passes of the loop, for
every `k` up to `c` with `k * 3 * byte` below `2 ^ 64`, write the records
`0, ..., k - 1` from the offsets `0, 3 * byte, ..., (k - 1) * 3 * byte`: neither `*num`
nor the size of `chunk` limits them. -/
theorem first_file_passes (env : Env) (fname : List Byte) (verb : Int) (h : Head)
    (name : List Byte) (c : Nat) (t : List (List Byte × Nat)) (num max : Nat)
    (fp : List Byte) (k : Nat) (hb : h.byte = 4 ∨ h.byte = 8)
    (hf : env.fopen (path_of fname ++ name) = some fp)
    (hr : (fread (start verb h num max (if verb ≠ 0 then [.header fname] else [])).chunk
      (sz (c * 3 * h.byte)) fp).2 = 1)
    (hk : k ≤ c) (hoff : k * (3 * h.byte) < 2 ^ 64) :
    (load_passes env fname verb h ((name, c) :: t) num max).2.take k
      = (List.range k).map (fun r => ⟨0, r, r * (3 * h.byte)⟩) := by
  have hk64 : k < 2 ^ 64 := by
    rcases hb with hb | hb <;> rw [hb] at hoff <;> omega
  have key : ∀ (parse : List Byte → Coord) (w : Nat) (chunk : List Byte) (data : List DATA),
      k * (3 * w) < 2 ^ 64 →
      (decode_passes parse w (3 * w) chunk 0 c data 0 0).2.take k
        = (List.range k).map (fun r => ⟨0, r, r * (3 * w)⟩) := by
    intro parse w chunk data hw
    rw [decode_passes_take parse w (3 * w) chunk 0 c k data 0 0 hk (by omega) (by omega)]
    simp
  have hlen : ∀ (chunk : List Byte) (data : List DATA),
      (decode_file_passes h.value0 h.byte chunk c data 0 0).2.length = c := by
    intro chunk data
    unfold decode_file_passes
    split <;> split <;> exact decode_passes_length _ _ _ _ _ _ _ _ _
  have hd : ∀ (chunk : List Byte) (data : List DATA),
      (decode_file_passes h.value0 h.byte chunk c data 0 0).2.take k
        = (List.range k).map (fun r => ⟨0, r, r * (3 * h.byte)⟩) := by
    intro chunk data
    unfold decode_file_passes
    rcases hb with hb | hb
    · rw [hb] at hoff ⊢
      split
      · exact key _ 4 _ _ hoff
      · exact key _ 4 _ _ hoff
    · rw [hb] at hoff ⊢
      split
      · exact key _ 8 _ _ hoff
      · exact key _ 8 _ _ hoff
  rw [load_passes, read_data_passes, hf]
  simp only
  rw [if_neg (by rw [hr]; exact fun hne => hne rfl)]
  simp only
  rw [List.take_append_of_le_length (by rw [start]; simp only; rw [hlen]; exact hk)]
  exact hd _ _

/-- The catalog of two data files of `2 ^ 63 + 1` records each: `*num` is 2, the array
has 2 records and `chunk` 12 bytes; the request of the first data file is 12 bytes in
`size_t` and the 12 bytes of the file satisfy it; and the first three passes of the loop
write the records 0, 1 and 2 from the offsets 0, 12 and 24, past the array and past the
bytes read. -/
theorem twin_files_first_passes :
    read_head twin_env (str "cat/header") = .ok twin_head ∧
    read_table twin_head.Nf.toNat twin_head.fp 0 0
      = .ok (twin_table, 2, 9223372036854775809) ∧
    (start 0 twin_head 2 9223372036854775809 []).data.length = 2 ∧
    (start 0 twin_head 2 9223372036854775809 []).chunk.length = 12 ∧
    sz (9223372036854775809 * 3 * twin_head.byte) = 12 ∧
    (load_passes twin_env (str "cat/header") 0 twin_head twin_table 2
        9223372036854775809).2.take 3 = [⟨0, 0, 0⟩, ⟨0, 1, 12⟩, ⟨0, 2, 24⟩] :=
  ⟨by rfl, by rfl, by decide, by decide, by decide,
    (first_file_passes twin_env (str "cat/header") 0 twin_head (str "a.dat")
      9223372036854775809 [(str "b.dat", 9223372036854775809)] 2 9223372036854775809
      (sample_a.take 12) 3 (by decide) (by rfl) (by decide) (by decide) (by decide)).trans
      (by decide)⟩

/-- C17, at the failing input.  The counts of the three shard lines, 3, `3 * 2 ^ 62 + 3`
and `2 ^ 62 - 4`, add up to `2 ^ 64 + 2`, and `*num`, added up in `size_t` (source line
120), is 2.  The array `*data` is allocated with 2 records and `chunk` with 36 bytes,
the size of the first data file.  The first data file is read, and its loop makes three
passes with the cursor at 0, 1 and 2: the third pass writes `(*data)[2]`, past the end
of the array, so the cursor is not below `*num` at every write.  The call then fails to
read the second data file and returns `POWSPEC_ERR_FILE`, with the two records of the
array written. -/
theorem write_cursor_past_the_array :
    read_head wrapped_env (str "cat/header") = .ok wrapped_head ∧
    read_table wrapped_head.Nf.toNat wrapped_head.fp 0 0
      = .ok (wrapped_table, 2, 13835058055282163715) ∧
    (counts wrapped_table).sum = 2 ^ 64 + 2 ∧
    (start 0 wrapped_head 2 13835058055282163715 []).n = 0 ∧
    (start 0 wrapped_head 2 13835058055282163715 []).data.length = 2 ∧
    (start 0 wrapped_head 2 13835058055282163715 []).chunk.length = 36 ∧
    (load_passes wrapped_env (str "cat/header") 0 wrapped_head wrapped_table 2
        13835058055282163715).1
      = read_data wrapped_env 0 (path_of (str "cat/header")) wrapped_head.value0
          wrapped_head.byte wrapped_head.Nf wrapped_table 0
          (start 0 wrapped_head 2 13835058055282163715 []) ∧
    (load_passes wrapped_env (str "cat/header") 0 wrapped_head wrapped_table 2
        13835058055282163715).2 = [⟨0, 0, 0⟩, ⟨0, 1, 12⟩, ⟨0, 2, 24⟩] ∧
    ¬ (∀ p ∈ (load_passes wrapped_env (str "cat/header") 0 wrapped_head wrapped_table 2
        13835058055282163715).2, p.n < 2) ∧
    read_bigfile wrapped_env (str "cat/header") 0 0
      = ⟨.POWSPEC_ERR_FILE, 2, some sample_records, []⟩ := by
  refine ⟨by rfl, by rfl, by decide, by decide, by decide, by decide, by decide, by decide,
    by decide, by decide⟩

/-- C18, at the failing input.  The largest count of the three shard lines is
`2 ^ 63 + 1`, and `max * 3 * byte`, which is `6 * 2 ^ 64 + 12`, is 12 in `size_t` (source
line 151): `chunk` is allocated with 12 bytes.  The requests of the three data files are
60, 12 and 12 bytes, so the request of the first one, of 5 records, does not fit in the
buffer.  The first data file is read, and the five passes of its loop decode from the
offsets 0, 12, 24, 36 and 48: all but the first decode slices past the end of the
buffer.  The call then fails to read the second data file and returns
`POWSPEC_ERR_FILE`. -/
theorem scratch_buffer_overrun :
    read_head overrun_env (str "cat/header") = .ok overrun_head ∧
    read_table overrun_head.Nf.toNat overrun_head.fp 0 0
      = .ok (overrun_table, 7, 9223372036854775809) ∧
    (∀ e ∈ overrun_table, e.2 ≤ 9223372036854775809) ∧
    9223372036854775809 * 3 * overrun_head.byte = 6 * 2 ^ 64 + 12 ∧
    (start 0 overrun_head 7 9223372036854775809 []).chunk.length = 12 ∧
    (start 0 overrun_head 7 9223372036854775809 []).data.length = 7 ∧
    overrun_table.map (fun e => sz (e.2 * 3 * overrun_head.byte)) = [60, 12, 12] ∧
    ¬ (∀ e ∈ overrun_table, sz (e.2 * 3 * overrun_head.byte)
        ≤ (start 0 overrun_head 7 9223372036854775809 []).chunk.length) ∧
    (load_passes overrun_env (str "cat/header") 0 overrun_head overrun_table 7
        9223372036854775809).1
      = read_data overrun_env 0 (path_of (str "cat/header")) overrun_head.value0
          overrun_head.byte overrun_head.Nf overrun_table 0
          (start 0 overrun_head 7 9223372036854775809 []) ∧
    (load_passes overrun_env (str "cat/header") 0 overrun_head overrun_table 7
        9223372036854775809).2
      = [⟨0, 0, 0⟩, ⟨0, 1, 12⟩, ⟨0, 2, 24⟩, ⟨0, 3, 36⟩, ⟨0, 4, 48⟩] ∧
    ¬ (∀ p ∈ (load_passes overrun_env (str "cat/header") 0 overrun_head overrun_table 7
        9223372036854775809).2, ∀ k, k < 3 →
          p.off + k * overrun_head.byte + overrun_head.byte
            ≤ (start 0 overrun_head 7 9223372036854775809 []).chunk.length) ∧
    (read_bigfile overrun_env (str "cat/header") 0 0).ret = .POWSPEC_ERR_FILE ∧
    (read_bigfile overrun_env (str "cat/header") 0 0).num = 7 ∧
    (read_bigfile overrun_env (str "cat/header") 0 0).data
      = some (sample_records ++ sample_records ++ sample_records.take 1 ++
          [⟨[.indet, .indet, .indet]⟩, ⟨[.indet, .indet, .indet]⟩]) := by
  refine ⟨by rfl, by rfl, by decide, by decide, by decide, by decide, by decide, by decide,
    by decide, by decide, by decide, by decide, by decide, by decide⟩

end Bigfile
